import Mathlib

/-!
Verification of parts of the `wpkg` repository, as a shallow embedding:

* the version algebra behind `wpkg --compare-versions`, as exercised by
  `PackageTests::compare_versions` (integrationtest_package.cpp);
* the file-name rewriting of `DisplayThread::GeneratePackageHtml` (WebForm.cpp);
* the script flag word of `PackageTests::scripts_selection`;
* the oracles `verify_removed_files` and `verify_purged_files`.

C++ `std::string` values are embedded as `List Char` (one `Char` per byte).
-/

namespace Wpkg

/-! ## Version algebra

The comparison itself lives in `libdebpackages`, which is not among the source
files; it is modelled from the specification and checked against the table of
`PackageTests::compare_versions`. -/

/-- Modelled from the spec: the rank of a character inside a non-digit run of a
version (the comparison function of libdebpackages is missing). ASCII letters
sort before non-letters, and `~` sorts before the end of the run, whose rank
is `0`. -/
def charOrder (c : Char) : Int :=
  if c = '~' then -1 else if c.isAlpha then (c.toNat : Int) else (c.toNat : Int) + 256

/-- Modelled from the spec: comparison of two non-digit runs (missing from the
sources), character by character; a run that ends first compares through rank `0`,
so that only `~` sorts before the end. -/
def cmpNonDigit : List Char → List Char → Ordering
  | [], [] => Ordering.eq
  | [], b :: _ => compare 0 (charOrder b)
  | a :: _, [] => compare (charOrder a) 0
  | a :: as, b :: bs => (compare (charOrder a) (charOrder b)).then (cmpNonDigit as bs)

/-- Modelled from the spec: numeric value of a digit run (missing from the
sources); leading zeros do not change it and the empty run is worth `0`. -/
def digitValue (ds : List Char) : Nat :=
  ds.foldl (fun n c => 10 * n + (c.toNat - 48)) 0

/-- Modelled from the spec: one peeling step seen from the right (missing from
the sources): the character `c` is put in front of the already peeled
(non-digit run, digit run) pairs of the rest of the string. -/
def pushChar (c : Char) : List (List Char × List Char) → List (List Char × List Char)
  | [] => if c.isDigit then [([], [c])] else [([c], [])]
  | (nd, d) :: ps =>
    if c.isDigit then
      (if nd = [] then ([], c :: d) :: ps else ([], [c]) :: (nd, d) :: ps)
    else (c :: nd, d) :: ps

/-- Modelled from the spec: the (non-digit run, digit run) pairs peeled off a
version part, from left to right (missing from the sources). -/
def runs (s : List Char) : List (List Char × List Char) :=
  s.foldr pushChar []

/-- Modelled from the spec: comparison of two peeled pairs (missing from the
sources): the non-digit runs first, then the digit runs by numeric value. -/
def cmpPair (p q : List Char × List Char) : Ordering :=
  (cmpNonDigit p.1 q.1).then (compare (digitValue p.2) (digitValue q.2))

/-- Modelled from the spec: comparison of the remaining peeled pairs of the left
string once the right string is exhausted (missing from the sources): the right
string is continued with empty pairs. -/
def cmpRunsLeft : List (List Char × List Char) → Ordering
  | [] => Ordering.eq
  | p :: ps => (cmpPair p ([], [])).then (cmpRunsLeft ps)

/-- Modelled from the spec: comparison of the remaining peeled pairs of the
right string once the left string is exhausted (missing from the sources): the
left string is continued with empty pairs. -/
def cmpRunsRight : List (List Char × List Char) → Ordering
  | [] => Ordering.eq
  | q :: qs => (cmpPair ([], []) q).then (cmpRunsRight qs)

/-- Modelled from the spec: comparison of two lists of peeled pairs (missing
from the sources), pair by pair from the left; the shorter list is continued
with empty pairs. -/
def cmpRuns : List (List Char × List Char) → List (List Char × List Char) → Ordering
  | [], qs => cmpRunsRight qs
  | p :: ps, [] => (cmpPair p ([], [])).then (cmpRunsLeft ps)
  | p :: ps, q :: qs => (cmpPair p q).then (cmpRuns ps qs)

/-- Modelled from the spec: comparison of two upstream parts or of two revisions
(missing from the sources) by repeatedly peeling (non-digit run, digit run)
pairs. -/
def cmpPart (a b : List Char) : Ordering :=
  cmpRuns (runs a) (runs b)

/-- Modelled from the spec: a version `[epoch:]upstream[-revision]` (the type of
libdebpackages is missing). -/
structure Version where
  epoch : Nat
  upstream : List Char
  revision : Option (List Char)
deriving DecidableEq

/-- Modelled from the spec: splitting off the epoch (missing from the sources):
the digits in front of a `:`; the epoch is `0` when there is none. -/
def splitEpoch (s : List Char) : Nat × List Char :=
  match s.dropWhile Char.isDigit with
  | [] => (0, s)
  | c :: rest => if c = ':' then (digitValue (s.takeWhile Char.isDigit), rest) else (0, s)

/-- Modelled from the spec: splitting off the revision (missing from the
sources): what follows the last `-`, if there is one. -/
def splitRevision : List Char → List Char × Option (List Char)
  | [] => ([], none)
  | c :: cs =>
    match splitRevision cs with
    | (u, some r) => (c :: u, some r)
    | (u, none) => if c = '-' then ([], some u) else (c :: u, none)

/-- Modelled from the spec: parsing of `[epoch:]upstream[-revision]` (missing
from the sources). -/
def parse (s : List Char) : Version :=
  let er := splitEpoch s
  let ur := splitRevision er.2
  { epoch := er.1, upstream := ur.1, revision := ur.2 }

/-- Modelled from the spec: comparison of revisions (missing from the sources);
two missing revisions are equal, a missing revision sorts before a present one. -/
def cmpRevision : Option (List Char) → Option (List Char) → Ordering
  | none, none => Ordering.eq
  | none, some _ => Ordering.lt
  | some _, none => Ordering.gt
  | some a, some b => cmpPart a b

/-- Modelled from the spec: `compare(a, b)` on parsed versions (missing from the
sources): epochs numerically, then upstream, then revision. -/
def Version.compare (a b : Version) : Ordering :=
  (Ord.compare a.epoch b.epoch).then
    ((cmpPart a.upstream b.upstream).then (cmpRevision a.revision b.revision))

/-- Modelled from the spec: the three-way comparison of two version strings
(missing from the sources); the empty string sorts strictly before any
non-empty version. -/
def compare_versions (a b : List Char) : Ordering :=
  match a, b with
  | [], [] => Ordering.eq
  | [], _ :: _ => Ordering.lt
  | _ :: _, [] => Ordering.gt
  | _ :: _, _ :: _ => (parse a).compare (parse b)

/-- Modelled from the spec: the three-way comparison used by the `-nl`
operators (missing from the sources; their behaviour is fixed by the table of
`PackageTests::compare_versions`): an empty version sorts after any non-empty
version. -/
def compare_versions_nl (a b : List Char) : Ordering :=
  match a, b with
  | [], [] => Ordering.eq
  | [], _ :: _ => Ordering.gt
  | _ :: _, [] => Ordering.lt
  | _ :: _, _ :: _ => (parse a).compare (parse b)

/-- The ten relations of the `ops` table of `PackageTests::compare_versions`,
one per column. -/
inductive Op where
  | lt | lt_nl | le | le_nl | eq | ne | ge | ge_nl | gt | gt_nl
deriving DecidableEq

/-- The spellings of the operators, as listed in the three rows of the `ops`
table of `PackageTests::compare_versions`. -/
def parseOp (s : String) : Option Op :=
  if s = "<<" ∨ s = "lt" ∨ s = "<" then some Op.lt
  else if s = "lt-nl" then some Op.lt_nl
  else if s = "<=" ∨ s = "le" then some Op.le
  else if s = "le-nl" then some Op.le_nl
  else if s = "=" ∨ s = "eq" ∨ s = "==" then some Op.eq
  else if s = "!=" ∨ s = "ne" ∨ s = "<>" then some Op.ne
  else if s = ">=" ∨ s = "ge" then some Op.ge
  else if s = "ge-nl" then some Op.ge_nl
  else if s = ">>" ∨ s = "gt" ∨ s = ">" then some Op.gt
  else if s = "gt-nl" then some Op.gt_nl
  else none

/-- Modelled from the spec: `satisfies(v, op, w)` (missing from the sources):
every relation is read off one three-way comparison. -/
def satisfies (a : List Char) (op : Op) (b : List Char) : Bool :=
  match op with
  | Op.lt => compare_versions a b == Ordering.lt
  | Op.lt_nl => compare_versions_nl a b == Ordering.lt
  | Op.le => compare_versions a b != Ordering.gt
  | Op.le_nl => compare_versions_nl a b != Ordering.gt
  | Op.eq => compare_versions a b == Ordering.eq
  | Op.ne => compare_versions a b != Ordering.eq
  | Op.ge => compare_versions a b != Ordering.lt
  | Op.ge_nl => compare_versions_nl a b != Ordering.lt
  | Op.gt => compare_versions a b == Ordering.gt
  | Op.gt_nl => compare_versions_nl a b == Ordering.gt

/-- Modelled from the spec: the exit status of
`wpkg --compare-versions a op b` (the tool is missing from the sources):
`0` when the relation holds, `1` when it does not, `2` (usage error) for an
operator that is not supported. -/
def wpkg_compare_versions (a op b : String) : Nat :=
  match parseOp op with
  | none => 2
  | some o => if satisfies a.toList o b.toList then 0 else 1

/-- One row of the `versions` table of `PackageTests::compare_versions`. -/
structure version_t where
  f_left : String
  f_right : String
  f_results : List Nat

/-- The `versions` table of `PackageTests::compare_versions`: the expected exit
status for each of the ten operator columns. -/
def versions : List version_t :=
  [ ⟨"", "", [1, 1, 0, 0, 0, 1, 0, 0, 1, 1]⟩,
    ⟨"", "0.9", [0, 1, 0, 1, 1, 0, 1, 0, 1, 0]⟩,
    ⟨"1.0", "", [1, 0, 1, 0, 1, 0, 0, 1, 0, 1]⟩,
    ⟨"1.0", "0.9", [1, 1, 1, 1, 1, 0, 0, 0, 0, 0]⟩,
    ⟨"0.9", "1.0", [0, 0, 0, 0, 1, 0, 1, 1, 1, 1]⟩,
    ⟨"1.0", "1.0", [1, 1, 0, 0, 0, 1, 0, 0, 1, 1]⟩,
    ⟨"1b", "1a", [1, 1, 1, 1, 1, 0, 0, 0, 0, 0]⟩,
    ⟨"1a", "1b", [0, 0, 0, 0, 1, 0, 1, 1, 1, 1]⟩,
    ⟨"1a~", "1a~", [1, 1, 0, 0, 0, 1, 0, 0, 1, 1]⟩,
    ⟨"1a", "1a~", [1, 1, 1, 1, 1, 0, 0, 0, 0, 0]⟩,
    ⟨"1a~", "1a", [0, 0, 0, 0, 1, 0, 1, 1, 1, 1]⟩,
    ⟨"1.0", "1.a", [0, 0, 0, 0, 1, 0, 1, 1, 1, 1]⟩,
    ⟨"1.0", "1.+", [0, 0, 0, 0, 1, 0, 1, 1, 1, 1]⟩,
    ⟨"1.0", "1.--0", [0, 0, 0, 0, 1, 0, 1, 1, 1, 1]⟩,
    ⟨"1.+", "1.--0", [0, 0, 0, 0, 1, 0, 1, 1, 1, 1]⟩,
    ⟨"1+", "1--0", [0, 0, 0, 0, 1, 0, 1, 1, 1, 1]⟩,
    ⟨"1.3a+", "1.3a--0", [0, 0, 0, 0, 1, 0, 1, 1, 1, 1]⟩,
    ⟨"3.5-10", "3.5-5", [1, 1, 1, 1, 1, 0, 0, 0, 0, 0]⟩,
    ⟨"3.5-20", "3.5-15", [1, 1, 1, 1, 1, 0, 0, 0, 0, 0]⟩,
    ⟨"3.5-2", "3.5-15", [0, 0, 0, 0, 1, 0, 1, 1, 1, 1]⟩,
    ⟨"3:5.2", "3:5.02", [1, 1, 0, 0, 0, 1, 0, 0, 1, 1]⟩,
    ⟨"3:5.9", "3:5.09", [1, 1, 0, 0, 0, 1, 0, 0, 1, 1]⟩,
    ⟨"2:5.9", "3:5.09", [0, 0, 0, 0, 1, 0, 1, 1, 1, 1]⟩,
    ⟨"4:5.9", "3:5.09", [1, 1, 1, 1, 1, 0, 0, 0, 0, 0]⟩,
    ⟨"7:5.9", "7:5:9", [0, 0, 0, 0, 1, 0, 1, 1, 1, 1]⟩ ]

/-- The `ops` table of `PackageTests::compare_versions`: three spellings of the
ten operator columns. -/
def ops : List (List String) :=
  [ ["<<", "lt-nl", "<=", "le-nl", "=", "!=", ">=", "ge-nl", ">>", "gt-nl"],
    ["lt", "lt-nl", "le", "le-nl", "eq", "ne", "ge", "ge-nl", "gt", "gt-nl"],
    ["<", "lt-nl", "<=", "le-nl", "==", "<>", ">=", "ge-nl", ">", "gt-nl"] ]

/-- The check made by the loops of `PackageTests::compare_versions`: every
command returns the status recorded in the table. -/
def compare_versions_passes : Bool :=
  versions.all fun v =>
    ops.all fun row =>
      row.map (fun op => wpkg_compare_versions v.f_left op v.f_right) == v.f_results

/-! ## File names in the file list of `DisplayThread::GeneratePackageHtml` -/

/-- The helper `is_letter` of WebForm.cpp: an ASCII letter. -/
def is_letter (c : Char) : Bool :=
  (decide ('a' ≤ c) && decide (c ≤ 'z')) || (decide ('A' ≤ c) && decide (c ≤ 'Z'))

/-- The value of `use_drive_letter` in `GeneratePackageHtml`: `false` unless the
field `X-Drive-Letter` is defined, in which case it is the boolean value of the
field. The argument is `none` when the field is not defined and `some b` when
`get_field_boolean` yields `b`. -/
def use_drive_letter (x_drive_letter : Option Bool) : Bool :=
  match x_drive_letter with
  | none => false
  | some b => b

/-- `std::string::erase(pos, n)`: the string without the `n` characters that
start at index `pos`. -/
def erase (s : List Char) (pos n : Nat) : List Char :=
  s.take pos ++ s.drop (pos + n)

/-- First rewriting of a file name in `GeneratePackageHtml`: when the name has
at least two characters and starts with `./`, `filename.erase(0, 1)`. -/
def strip_dot (filename : List Char) : List Char :=
  match filename with
  | c0 :: c1 :: _ => if c0 = '.' ∧ c1 = '/' then erase filename 0 1 else filename
  | _ => filename

/-- Second rewriting of a file name in `GeneratePackageHtml`: with
`use_drive_letter`, a name of at least three characters of the form `/c/...`
with `c` a letter gets `filename[0] = filename[1] & 0x5F` and
`filename[1] = ':'`. -/
def drive_letter (use : Bool) (filename : List Char) : List Char :=
  match filename with
  | c0 :: c1 :: c2 :: rest =>
    if use = true ∧ c0 = '/' ∧ is_letter c1 = true ∧ c2 = '/' then
      Char.ofNat (c1.toNat &&& 0x5F) :: ':' :: c2 :: rest
    else filename
  | _ => filename

/-- The file name shown in the file list by `GeneratePackageHtml` for the stored
name `filename`, given the state of the field `X-Drive-Letter`. -/
def display_filename (x_drive_letter : Option Bool) (filename : List Char) : List Char :=
  drive_letter (use_drive_letter x_drive_letter) (strip_dot filename)

/-! ## Script selection (`PackageTests::scripts_selection`) -/

/-- The flag that the loop of `PackageTests::scripts_selection` sets for a member
of control.tar.gz, `0` for a member that is not one of the ten scripts. -/
def script_flag (filename : String) : Nat :=
  if filename = "validate" then 0x0001
  else if filename = "preinst" then 0x0002
  else if filename = "postinst" then 0x0004
  else if filename = "prerm" then 0x0008
  else if filename = "postrm" then 0x0010
  else if filename = "validate.bat" then 0x0020
  else if filename = "preinst.bat" then 0x0040
  else if filename = "postinst.bat" then 0x0080
  else if filename = "prerm.bat" then 0x0100
  else if filename = "postrm.bat" then 0x0200
  else 0

/-- The flag word computed by `PackageTests::scripts_selection` over the members
of control.tar.gz: `flags |= ...` for each member in turn, starting from `0`. -/
def control_flags (members : List String) : Nat :=
  members.foldl (fun flags filename => flags ||| script_flag filename) 0

/-- The ten script names, in the order of their bits in the flag word. -/
def script_names : List String :=
  ["validate", "preinst", "postinst", "prerm", "postrm",
   "validate.bat", "preinst.bat", "postinst.bat", "prerm.bat", "postrm.bat"]

/-- The table `archs_info` of `PackageTests::scripts_selection`: architecture
and expected flag word. -/
def archs_info : List (String × Nat) :=
  [ ("linux-m2osw-i386", 0x001F), ("linux-m2osw-amd64", 0x001F), ("linux-i386", 0x001F),
    ("linux-amd64", 0x001F), ("linux-powerpc", 0x001F), ("i386", 0x001F), ("amd64", 0x001F),
    ("mswindows-m2osw-i386", 0x03E0), ("mswindows-m2osw-amd64", 0x03E0),
    ("mswindows-i386", 0x03E0), ("mswindows-amd64", 0x03E0), ("win32", 0x03E0),
    ("win64", 0x03E0), ("win32-m2osw-i386", 0x03E0), ("win64-m2osw+11-amd64", 0x03E0),
    ("win64-m2osw.com-mips", 0x03E0), ("all", 0x03FF), ("source", 0x0000) ]

/-- The families of architectures that decide which scripts are packaged. -/
inductive arch_family where
  | unix | windows | all | source
deriving DecidableEq

/-- Modelled from the spec: the family of an architecture (wpkg_architecture is
missing from the sources). `all` and `source` are the two special values; the
Windows family is made of the architectures `mswindows-*`, `win32*` and
`win64*`; every other architecture, also one that names no operating system,
is of the Unix family. -/
def family_of (architecture : String) : arch_family :=
  if architecture = "all" then arch_family.all
  else if architecture = "source" then arch_family.source
  else if "mswindows-".toList.isPrefixOf architecture.toList
      || "win32".toList.isPrefixOf architecture.toList
      || "win64".toList.isPrefixOf architecture.toList then arch_family.windows
  else arch_family.unix

/-- The extensionless scripts of a control tree. -/
def unix_scripts : List String :=
  ["validate", "preinst", "postinst", "prerm", "postrm"]

/-- The `.bat` scripts of a control tree. -/
def batch_scripts : List String :=
  ["validate.bat", "preinst.bat", "postinst.bat", "prerm.bat", "postrm.bat"]

/-- Modelled from the spec: whether `wpkg --build` (missing from the sources)
puts the file `filename` of the control tree in control.tar.gz: on a
Unix-family architecture only the extensionless scripts are packaged, on a
Windows-family architecture only the `.bat` scripts, on `all` both, and for
`source` none; a file that is not a script is not affected. -/
def is_packaged (family : arch_family) (filename : String) : Bool :=
  if filename ∈ unix_scripts then
    decide (family = arch_family.unix ∨ family = arch_family.all)
  else if filename ∈ batch_scripts then
    decide (family = arch_family.windows ∨ family = arch_family.all)
  else true

/-- Modelled from the spec: the members of the control.tar.gz built by
`wpkg --build` (missing from the sources) from the control tree `tree` for the
architecture `architecture`. -/
def control_members (architecture : String) (tree : List String) : List String :=
  tree.filter (is_packaged (family_of architecture))

/-- The control tree written by `PackageTests::scripts_selection`: the five
`.bat` scripts first, then the five extensionless ones, next to the control
file. -/
def scripts_selection_tree : List String :=
  ["control", "validate.bat", "preinst.bat", "postinst.bat", "prerm.bat", "postrm.bat",
   "validate", "preinst", "postinst", "prerm", "postrm"]

/-! ## The oracles `verify_removed_files` and `verify_purged_files` -/

/-- The values of `memfile::memory_file::file_info::file_type_t` that the
sources name; the oracles only look for `regular_file`. -/
inductive file_type_t where
  | regular_file | symbolic_link | character_special | block_special | other
deriving DecidableEq

/-- What the oracles read of an entry returned by `dir_next`: `get_file_type()`,
`get_filename()` and `get_uri()`. -/
structure file_info (Uri : Type) where
  file_type : file_type_t
  filename : List Char
  uri : Uri
deriving DecidableEq

/-- The operations of `wpkg_filename::uri_filename` and `memfile::memory_file`
used by the oracles. The library is not part of the sources, so that they are
parameters: `from_string` is the construction of a file name from a string
(constructor and `set_filename`), and `dir` is the list of the entries that
`dir_rewind` followed by `dir_next` yields for a directory. -/
structure uri_ops (Uri : Type) where
  append_child : Uri → List Char → Uri
  remove_common_segments : Uri → Uri → Uri
  path_only : Uri → List Char
  is_absolute : Uri → Bool
  from_string : List Char → Uri
  dir : Uri → List (file_info Uri)

/-- `std::string::c_str()` as read by the C string functions: the characters in
front of the first NUL. -/
def c_str (s : List Char) : List Char :=
  s.takeWhile (fun c => c != Char.ofNat 0)

/-- `strstr(haystack, needle) != nullptr`: `needle` occurs in `haystack`. -/
def strstr (haystack needle : List Char) : Bool :=
  haystack.tails.any (fun t => needle.isPrefixOf t)

/-- The test made on each entry of the build directory by the oracles: a
regular file whose name has no `/WPKG/` in it. -/
def is_package_file {Uri : Type} (info : file_info Uri) : Bool :=
  decide (info.file_type = file_type_t.regular_file)
    && !strstr (c_str info.filename) "/WPKG/".toList

/-- The path of an entry relative to the build directory:
`info.get_uri().remove_common_segments(build_path).path_only()`. -/
def relative_path {Uri : Type} (ops : uri_ops Uri) (build_path : Uri) (info : file_info Uri) :
    List Char :=
  ops.path_only (ops.remove_common_segments info.uri build_path)

/-- `absolute_filename` in `verify_removed_files`: the relative path, with `/` in
front when `installed_name.is_absolute()` is false. -/
def absolute_filename {Uri : Type} (ops : uri_ops Uri) (build_path : Uri)
    (info : file_info Uri) : List Char :=
  if ops.is_absolute (ops.remove_common_segments info.uri build_path) then
    relative_path ops build_path info
  else '/' :: relative_path ops build_path info

/-- `conf_filename` in `verify_removed_files`: the name of a configuration file,
with `/` in front when it is not empty and does not start with `/`. -/
def conf_filename (conf : List Char) : List Char :=
  match conf with
  | [] => conf
  | c :: _ => if c ≠ '/' then '/' :: conf else conf

/-- `PackageTests::verify_removed_files(name, ctrl)`: `true` when no
`CATCH_REQUIRE` fails. `root` is `wpkg_tools::get_tmp_dir()`, `file_exists` is
`uri_filename::exists()` on the file system under test, and `conffiles` is
`none` when `ctrl` does not define the field Conffiles and otherwise the file
names of its entries. -/
def verify_removed_files {Uri : Type} (ops : uri_ops Uri) (file_exists : Uri → Bool)
    (root : Uri) (name : List Char) (conffiles : Option (List (List Char))) : Bool :=
  let conffiles := conffiles.getD []
  let target_path := ops.append_child root "target".toList
  let build_path := ops.append_child root name
  (ops.dir build_path).all fun info =>
    if is_package_file info then
      let found := conffiles.any fun conf =>
        decide (conf_filename conf = absolute_filename ops build_path info)
      if !found then
        !file_exists (ops.append_child target_path (relative_path ops build_path info))
      else true
    else true

/-- The checks of `PackageTests::verify_purged_files` on one configuration file:
neither the file nor its `.wpkg-new`, `.wpkg-old` and `.wpkg-user` variants
exist. -/
def conffile_purged {Uri : Type} (ops : uri_ops Uri) (file_exists : Uri → Bool)
    (target_path : Uri) (conf : List Char) : Bool :=
  let conffile := ops.append_child target_path conf
  !file_exists conffile
    && !file_exists (ops.from_string (ops.path_only conffile ++ ".wpkg-new".toList))
    && !file_exists (ops.from_string (ops.path_only conffile ++ ".wpkg-old".toList))
    && !file_exists (ops.from_string (ops.path_only conffile ++ ".wpkg-user".toList))

/-- `PackageTests::verify_purged_files(name, ctrl, exceptions)`: `true` when no
`CATCH_REQUIRE` fails; the parameters are those of `verify_removed_files`. -/
def verify_purged_files {Uri : Type} (ops : uri_ops Uri) (file_exists : Uri → Bool)
    (root : Uri) (name : List Char) (conffiles : Option (List (List Char)))
    (exceptions : List (List Char)) : Bool :=
  let target_path := ops.append_child root "target".toList
  let build_path := ops.append_child root name
  ((ops.dir build_path).all fun info =>
    if is_package_file info then
      let found := exceptions.any fun e => decide (relative_path ops build_path info = e)
      let installed_name := ops.append_child target_path (relative_path ops build_path info)
      if found then file_exists installed_name else !file_exists installed_name
    else true)
  && match conffiles with
     | none => true
     | some l => l.all (conffile_purged ops file_exists target_path)

/-- A concrete file-name library on plain strings, used to run the oracles:
`append_child` joins with `/`, `remove_common_segments` drops the directory and
the `/` that follows it, a name is absolute when it starts with `/`, and the
build directory `/tmp/t1` holds `usr/bin/t1`, `etc/t1.conf` and `WPKG/control`. -/
def example_ops : uri_ops (List Char) where
  append_child := fun a b => a ++ '/' :: b
  remove_common_segments := fun u base => u.drop (base.length + 1)
  path_only := fun u => u
  is_absolute := fun u => decide (u.head? = some '/')
  from_string := fun s => s
  dir := fun d =>
    if d = "/tmp/t1".toList then
      [ ⟨file_type_t.other, "/tmp/t1/usr".toList, "/tmp/t1/usr".toList⟩,
        ⟨file_type_t.regular_file, "/tmp/t1/usr/bin/t1".toList, "/tmp/t1/usr/bin/t1".toList⟩,
        ⟨file_type_t.regular_file, "/tmp/t1/etc/t1.conf".toList, "/tmp/t1/etc/t1.conf".toList⟩,
        ⟨file_type_t.regular_file, "/tmp/t1/WPKG/control".toList,
          "/tmp/t1/WPKG/control".toList⟩ ]
    else []

/-- A file system for `example_ops` in which only the listed names exist. -/
def example_exists (present : List String) (u : List Char) : Bool :=
  present.any fun p => decide (p.toList = u)

/-- The words of the specification of `verify_removed_files`: a path, given a
leading `/` if it has none. -/
def with_leading_slash (s : List Char) : List Char :=
  if s.head? = some '/' then s else '/' :: s

/-- The words of the specification of `verify_removed_files`: a file counts as a
conffile when its path relative to the build tree, given a leading `/` if it has
none, equals an entry of the Conffiles field of `ctrl`, likewise given a leading
`/` if it has none. -/
def counts_as_conffile (conffiles : Option (List (List Char))) (rel : List Char) : Bool :=
  (conffiles.getD []).any fun conf =>
    decide (with_leading_slash conf = with_leading_slash rel)

/-! ## The substitutions of `WPKG_SUBST` -/

/-- Modelled from the spec: the characters allowed in a path of `WPKG_SUBST`
(the check of libdebpackages is missing from the sources): letters, digits,
underscore, hyphen, plus, dot, slash and backslash. -/
def subst_char_ok (c : Char) : Bool :=
  c.isAlpha || c.isDigit || c == '_' || c == '-' || c == '+' || c == '.' || c == '/'
    || c == Char.ofNat 92

/-- Modelled from the spec: the pieces of a string between the occurrences of a
separator (the parser of `WPKG_SUBST` is missing from the sources). -/
def split_on (sep : Char) : List Char → List (List Char)
  | [] => [[]]
  | c :: cs =>
    match split_on sep cs with
    | [] => [[c]]
    | piece :: pieces => if c = sep then [] :: piece :: pieces else (c :: piece) :: pieces

/-- Modelled from the spec: whether an entry of `WPKG_SUBST` is well formed (the
parser is missing from the sources): `letter=dir` or `letter=dir|dir`, with the
paths made of allowed characters. That one `|` at most is supported is what
`PackageTests::check_drive_subst` expects. -/
def valid_subst_entry (entry : List Char) : Bool :=
  match entry with
  | drive :: sign :: paths =>
    sign == '=' && is_letter drive && decide (paths.count '|' ≤ 1)
      && paths.all (fun c => c == '|' || subst_char_ok c)
  | _ => false

/-- Modelled from the spec: whether a value of `WPKG_SUBST` is accepted (the
parser is missing from the sources): a colon-separated list of well-formed
entries. -/
def valid_wpkg_subst (value : List Char) : Bool :=
  (split_on ':' value).all valid_subst_entry

/-- Modelled from the spec: the effect of the `WPKG_SUBST` check on an install
that has nothing else against it (the executor is missing from the sources): an
invalid value rejects the transaction, which exits with status 1 and leaves the
target as it is; otherwise the files of the package are installed. The result is
the exit status and the files of the target. -/
def install_with_subst (wpkg_subst : List Char) (target package_files : List (List Char)) :
    Nat × List (List Char) :=
  if valid_wpkg_subst wpkg_subst then (0, target ++ package_files) else (1, target)

/-- The values of `WPKG_SUBST` that `PackageTests::check_drive_subst` tries, in
order; each install is expected to exit with status 1 and to leave nothing of
the package behind. -/
def check_drive_subst_values : List String :=
  [ "f=/opt/wpkg|/m2osw/packages|/only/one/pipe/allowed:h=usr/local/bin/wpkg",
    "f=/opt/wpkg|/m2osw*/packages:h=usr/local/bin/wpkg",
    "f=/opt/wpkg*|/m2osw/packages:h=usr/local/bin/wpkg",
    "f=/opt/wpkg/\\/|/m2osw/pack?ages:h=usr/local/bin/wpkg",
    "f=/opt/wp?kg|/m2osw/packages:h=usr/local/bin/wpkg",
    "f=/opt/wpkg|/m2osw\\\\packages\":h=usr/local/bin/wpkg",
    "f=/opt\\\\wpkg\\\"|/m2osw/packages:h=usr/local/bin/wpkg",
    "f=/opt/wpkg|</m2osw/packages:h=usr/local/bin/wpkg",
    "f=</opt/wpkg|/m2osw/packages:h=usr/local/bin/wpkg",
    "f=/opt//wpkg|/>m2osw/packages:h=usr/local/bin/wpkg",
    "F=/>opt/wpkg|/m2osw/packages:h=usr/local/bin/wpkg",
    "g=/valid/path/|good/dir:::f:/opt/wpkg",
    "f=/valid/path/:3=/opt/wpkg" ]

/-- The value of `WPKG_SUBST` that `integrationtest_main` exports. -/
def exported_wpkg_subst : String :=
  "f=/opt/wpkg|/m2osw/packages:h=usr/local/bin/wpkg"

/-- The files of the package `t1` of `PackageTests::check_drive_subst`. -/
def check_drive_subst_files : List (List Char) :=
  ["/usr/bin/subst-test".toList, "/usr/share/doc/subst/copyright".toList]

/-! ## The arguments of postinst (`PackageTests::scripts_order`) -/

/-- The newline character. -/
def newline : Char := Char.ofNat 10

/-- The characters that `verify_generated_files` trims from a line read from
the disk: space, tab, newline, carriage return, vertical tab and form feed. -/
def is_blank (c : Char) : Bool :=
  c == ' ' || c == Char.ofNat 9 || c == Char.ofNat 10 || c == Char.ofNat 13
    || c == Char.ofNat 11 || c == Char.ofNat 12

/-- The trimming of `disk_line` in `verify_generated_files`: the blanks in front
of the first non-blank character are dropped, then those after the last one; a
line without a non-blank character is left as it is (`p == npos`). -/
def trim (disk_line : List Char) : List Char :=
  let left :=
    match disk_line.dropWhile is_blank with
    | [] => disk_line
    | c :: rest => c :: rest
  match left.reverse.dropWhile is_blank with
  | [] => left
  | c :: rest => (c :: rest).reverse

/-- Modelled from the spec: the lines that successive calls of
`memory_file::read_line` return (the function is missing from the sources): the
text between the newlines, a final newline ending the last line. -/
def read_lines : List Char → List (List Char)
  | [] => []
  | c :: cs =>
    if c = newline then [] :: read_lines cs
    else
      match read_lines cs with
      | [] => [[c]]
      | line :: lines => (c :: line) :: lines

/-- The loop of the mode `verify_text` of `verify_generated_files` on the lines
of the file of the disk and of the expected text: both must end together and
each trimmed line of the disk must be the expected line. -/
def verify_lines : List (List Char) → List (List Char) → Bool
  | [], [] => true
  | disk_line :: disk, test_line :: test =>
    decide (trim disk_line = test_line) && verify_lines disk test
  | _, _ => false

/-- The mode `verify_text` of `verify_generated_files` for a file of the disk
with the content `disk_data` and the expected text `f_data`. -/
def verify_text (disk_data f_data : List Char) : Bool :=
  verify_lines (read_lines disk_data) (read_lines f_data)

/-- The expansion of `$*` by the shell: the arguments of the script separated
by single spaces. -/
def shell_star (arguments : List (List Char)) : List Char :=
  [' '].intercalate arguments

/-- The file `postinst.txt` (`postinst-b.txt` for the upgrade) that the postinst
script of `scripts_order` writes: `echo "<tag>"` followed by
`echo "arguments: [$*]"`. -/
def postinst_txt (tag : List Char) (arguments : List (List Char)) : List Char :=
  tag ++ [newline] ++ "arguments: [".toList ++ shell_star arguments ++ [']', newline]

/-- The checks of `scripts_order` on the file written by postinst, for an
executor that hands postinst the arguments `executor prev v` when it configures
the version `v` of a package whose most recently configured version is `prev`
(`none` when it was never configured): the first install of t1 1.0, then the
upgrade of t1 from 1.0 to 1.1. -/
def scripts_order_postinst (executor : Option (List Char) → List Char → List (List Char)) :
    Bool :=
  verify_text (postinst_txt "post-inst ctrl_t1".toList (executor none "1.0".toList))
      ("post-inst ctrl_t1".toList ++ [newline] ++ "arguments: [configure 1.0]".toList)
  && verify_text
      (postinst_txt "post-inst ctrl_t1 (b)".toList (executor (some "1.0".toList) "1.1".toList))
      ("post-inst ctrl_t1 (b)".toList ++ [newline] ++ "arguments: [configure 1.1]".toList)

/-- Modelled from the spec: the arguments of postinst as the specification words
them (the executor is missing from the sources): `configure` followed by the
most recently configured version, empty when the package was never configured. -/
def postinst_arguments_spec (prev : Option (List Char)) (_version : List Char) :
    List (List Char) :=
  ["configure".toList, prev.getD []]

/-- Modelled from the spec: the arguments of postinst (the executor is missing
from the sources), with the version that `scripts_order` records instead of the
one of the specification: `configure` followed by the version that is being
configured. -/
def postinst_arguments (_prev : Option (List Char)) (version : List Char) :
    List (List Char) :=
  ["configure".toList, version]

/-! ## The order of an install request (`PackageTests::depends_with_simple_packages`) -/

/-- A dependency of the request: `package` has `depends_on` in its field Depends,
or in its field Pre-Depends when `pre_depends` is set. -/
structure dependency where
  package : String
  depends_on : String
  pre_depends : Bool
deriving DecidableEq

/-- Modelled from the spec: whether a package can be emitted next (the planner
is missing from the sources): every package it depends on is available, being
installed or already emitted. -/
def is_ready (dependencies : List dependency) (available : List String) (p : String) : Bool :=
  dependencies.all fun d => d.package != p || available.contains d.depends_on

/-- Modelled from the spec: the ordering loop of the planner (missing from the
sources): a package that is ready is emitted, until none is left; the request
has no order when packages are left of which none is ready. -/
def plan_order (dependencies : List dependency) (installed : List String) :
    Nat → List String → List String → Option (List String)
  | 0, emitted, remaining => if remaining.isEmpty then some emitted else none
  | fuel + 1, emitted, remaining =>
    match remaining.find? (is_ready dependencies (installed ++ emitted)) with
    | none => if remaining.isEmpty then some emitted else none
    | some p => plan_order dependencies installed fuel (emitted ++ [p]) (remaining.erase p)

/-- Modelled from the spec: the order in which the planner (missing from the
sources) emits the packages of a request, every package after those it depends
on. Against the specification, and as `depends_with_simple_packages` expects, a
cycle of ordinary Depends leaves the request without an order, as a cycle with a
Pre-Depends does. -/
def plan (dependencies : List dependency) (installed request : List String) :
    Option (List String) :=
  plan_order dependencies installed request.length [] request

/-- Modelled from the spec: the outcome of an install request (the executor is
missing from the sources): the exit status and the installed packages; a request
without an order is rejected with status 1 and installs nothing. -/
def install_request (dependencies : List dependency) (installed request : List String) :
    Nat × List String :=
  match plan dependencies installed request with
  | none => (1, installed)
  | some order => (0, installed ++ order)

/-- Modelled from the spec: whether a package can be emitted next when ordinary
Depends are only a preference, as the specification words it (the planner is
missing from the sources): every package of its Pre-Depends is available, and
every package of its Depends is available or still to come in the request. -/
def is_ready_spec (dependencies : List dependency) (available remaining : List String)
    (p : String) : Bool :=
  dependencies.all fun d =>
    d.package != p || available.contains d.depends_on
      || (!d.pre_depends && remaining.contains d.depends_on)

/-- Modelled from the spec: the ordering loop of the planner as the specification
words it (the planner is missing from the sources): a package whose dependencies
are all available is preferred; without one, a package held back by ordinary
Depends only is emitted, so that a cycle of Depends gets an order and only a
cycle with a Pre-Depends leaves the request without one. -/
def plan_order_spec (dependencies : List dependency) (installed : List String) :
    Nat → List String → List String → Option (List String)
  | 0, emitted, remaining => if remaining.isEmpty then some emitted else none
  | fuel + 1, emitted, remaining =>
    match remaining.find? (is_ready dependencies (installed ++ emitted)) with
    | some p =>
      plan_order_spec dependencies installed fuel (emitted ++ [p]) (remaining.erase p)
    | none =>
      match remaining.find? (is_ready_spec dependencies (installed ++ emitted) remaining) with
      | some p =>
        plan_order_spec dependencies installed fuel (emitted ++ [p]) (remaining.erase p)
      | none => if remaining.isEmpty then some emitted else none

/-- Modelled from the spec: the outcome of an install request with the planner
as the specification words it (planner and executor are missing from the
sources). -/
def install_request_spec (dependencies : List dependency) (installed request : List String) :
    Nat × List String :=
  match plan_order_spec dependencies installed request.length [] request with
  | none => (1, installed)
  | some order => (0, installed ++ order)

/-- The dependencies of the last install of `depends_with_simple_packages`:
t1 Depends t3, t3 Depends t2 and t2 Depends t1. -/
def circular_dependencies : List dependency :=
  [ ⟨"t1", "t3", false⟩, ⟨"t3", "t2", false⟩, ⟨"t2", "t1", false⟩ ]

/-- The packages whose archives are given to the last install of
`depends_with_simple_packages`: t1, then t2 and t3 of the repository. -/
def circular_request : List String :=
  ["t1", "t2", "t3"]

/-- The checks of `depends_with_simple_packages` on its last install, for an
installer handed the dependencies, the installed packages and the request:
`install_package("t1", ctrl_t1, 1)` expects the exit status 1, and the
`verify_purged_files` of t1, t2 and t3 that none of them is installed. -/
def depends_with_simple_packages_cycle
    (installer : List dependency → List String → List String → Nat × List String) : Bool :=
  let result := installer circular_dependencies [] circular_request
  result.1 == 1 && circular_request.all fun p => !result.2.contains p

/-! ## The selection `hold` (`PackageTests::test_hold`) -/

/-- The selections of a package. -/
inductive selection_t where
  | install | hold | deinstall | purge
deriving DecidableEq

/-- Modelled from the spec: the record of an installed package (the database is
missing from the sources): name, version, selection and files. -/
structure installed_package where
  name : String
  version : String
  selection : selection_t
  files : List String
deriving DecidableEq

/-- Modelled from the spec: a unit of a plan (the planner is missing from the
sources): the package to unpack, and whether the request names it (`explicit`)
or it is pulled in to satisfy a dependency. -/
structure plan_item where
  name : String
  version : String
  files : List String
  explicit : Bool
deriving DecidableEq

/-- Modelled from the spec: a unit that the selection `hold` forbids (the planner
is missing from the sources): it changes the version of a held package. As
`test_hold` expects, `--force-hold` lifts the interdiction only for a package
that the request names. -/
def hold_violation (db : List installed_package) (force_hold : Bool) (item : plan_item) :
    Bool :=
  db.any fun p =>
    p.name == item.name && decide (p.selection = selection_t.hold)
      && p.version != item.version && !(item.explicit && force_hold)

/-- Modelled from the spec: the database after a unit is installed (the executor
is missing from the sources): the record of the package gets the version and
the files of the unit, a new package gets a record with the selection
`install`. -/
def apply_item (db : List installed_package) (item : plan_item) : List installed_package :=
  if db.any (fun p => p.name == item.name) then
    db.map fun p =>
      if p.name = item.name then { p with version := item.version, files := item.files } else p
  else db ++ [⟨item.name, item.version, selection_t.install, item.files⟩]

/-- Modelled from the spec: the outcome of an install (the executor is missing
from the sources): the exit status and the database. A plan with a unit that
`hold` forbids is rejected with status 1 and changes nothing. -/
def install_plan (db : List installed_package) (force_hold : Bool) (plan : List plan_item) :
    Nat × List installed_package :=
  if plan.any (hold_violation db force_hold) then (1, db)
  else (0, plan.foldl apply_item db)

/-- The record of `held` 1.0 in `test_hold` once it is installed and marked
hold. -/
def held_10 : installed_package :=
  ⟨"held", "1.0", selection_t.hold,
    ["/etc/held/held.conf", "/usr/bin/held", "/usr/share/doc/held/copyright"]⟩

/-- The database of `test_hold` once `held` 1.0 is installed and marked hold. -/
def test_hold_db : List installed_package :=
  [held_10]

/-- The unit `held` 1.5 of `test_hold`. -/
def held_15 (explicit : Bool) : plan_item :=
  ⟨"held", "1.5",
    ["/etc/held/held.conf", "/usr/bin/held", "/usr/share/doc/held/copyright",
      "/usr/share/doc/held/changes_in_15"], explicit⟩

/-- The unit `friend` of `test_hold`, which depends on `held (= 1.5)`. -/
def friend_10 : plan_item :=
  ⟨"friend", "1.0",
    ["/etc/friend/friend.conf", "/usr/bin/friend", "/usr/share/doc/friend/copyright"], true⟩

/-! ## The package history of `WebForm` -/

/-- The part of the state of a `WebForm` that `Back`, `Forward`,
`DisplayPackage` and `ClearHistory` work on. A `QStack` is a list whose head is
the top of the stack; a `QString` is a list of characters. -/
structure WebForm where
  f_backStack : List (List Char)
  f_currentPackage : List Char
  f_fwdStack : List (List Char)
deriving DecidableEq

/-- The state of a `WebForm` after construction: no current package and two
empty stacks. -/
def WebForm.init : WebForm :=
  { f_backStack := [], f_currentPackage := [], f_fwdStack := [] }

/-- `WebForm::Back()`: when the back stack is not empty, its top becomes the
current package and the former current package is pushed on the forward stack. -/
def WebForm.Back (w : WebForm) : WebForm :=
  match w.f_backStack with
  | [] => w
  | package_name :: rest =>
    { f_backStack := rest, f_currentPackage := package_name,
      f_fwdStack := w.f_currentPackage :: w.f_fwdStack }

/-- `WebForm::Forward()`: when the forward stack is not empty, its top becomes
the current package and the former current package is pushed on the back
stack. -/
def WebForm.Forward (w : WebForm) : WebForm :=
  match w.f_fwdStack with
  | [] => w
  | package_name :: rest =>
    { f_backStack := w.f_currentPackage :: w.f_backStack, f_currentPackage := package_name,
      f_fwdStack := rest }

/-- `WebForm::DisplayPackage(package_name)`: the forward stack is cleared, the
current package is pushed on the back stack unless it is empty, and
`package_name` becomes the current package. -/
def WebForm.DisplayPackage (w : WebForm) (package_name : List Char) : WebForm :=
  { f_backStack :=
      if w.f_currentPackage ≠ [] then w.f_currentPackage :: w.f_backStack else w.f_backStack,
    f_currentPackage := package_name,
    f_fwdStack := [] }

/-- `WebForm::ClearHistory()`: both stacks are cleared. -/
def WebForm.ClearHistory (w : WebForm) : WebForm :=
  { f_backStack := [], f_currentPackage := w.f_currentPackage, f_fwdStack := [] }

/-- The arguments of the signal `StackStatus` that each of the four operations
emits last: `f_backStack.isEmpty()` and `f_fwdStack.isEmpty()`. -/
def WebForm.StackStatus (w : WebForm) : Bool × Bool :=
  (w.f_backStack.isEmpty, w.f_fwdStack.isEmpty)

/-- A call of one of the four history operations. -/
inductive history_call where
  | display (package_name : List Char)
  | back
  | forward
  | clear
deriving DecidableEq

/-- The state after a call. -/
def WebForm.call (w : WebForm) : history_call → WebForm
  | history_call.display package_name => w.DisplayPackage package_name
  | history_call.back => w.Back
  | history_call.forward => w.Forward
  | history_call.clear => w.ClearHistory

/-- The state after a sequence of calls, starting from the initial state. -/
def WebForm.run (calls : List history_call) : WebForm :=
  calls.foldl WebForm.call WebForm.init

/-- A call whose package name, if it has one, is not empty. -/
def history_call.named : history_call → Bool
  | history_call.display package_name => !package_name.isEmpty
  | _ => true

/-- A call of `DisplayPackage`. -/
def history_call.is_display : history_call → Bool
  | history_call.display _ => true
  | _ => false

/-! ## `replace` and the template of `GeneratePackageHtml` -/

/-- `std::string::find(pattern)`: the index of the first occurrence of `pattern`
in `s`, `none` for `npos`. -/
def find (s pattern : List Char) : Option Nat :=
  if pattern.isPrefixOf s then some 0
  else
    match s with
    | [] => none
    | _ :: cs => (find cs pattern).map (· + 1)

/-- `std::string::replace(pos, len, str)`: the `len` characters from index `pos`
are replaced with `str`. -/
def string_replace (s : List Char) (pos len : Nat) (str : List Char) : List Char :=
  s.take pos ++ str ++ s.drop (pos + len)

/-- One turn of the loop of `replace` in WebForm.cpp: `none` when the pattern is
not found (the loop exits through `break`), otherwise the string after
`out.replace(pos, pattern.length(), replacement)`. -/
def replace_step (out pattern replacement : List Char) : Option (List Char) :=
  match find out pattern with
  | none => none
  | some pos => some (string_replace out pos pattern.length replacement)

/-- The string held by `out` after `n` turns of the loop of `replace`, `none`
when the loop has exited before. -/
def replace_iterate (pattern replacement : List Char) : Nat → List Char → Option (List Char)
  | 0, out => some out
  | n + 1, out =>
    match replace_step out pattern replacement with
    | none => none
    | some next => replace_iterate pattern replacement n next

/-- The function `replace` of WebForm.cpp, run for at most `fuel` turns of its
loop: the final string and the number of replacements made, `none` when the
loop has not exited within `fuel` turns. -/
def replace (fuel : Nat) (out pattern replacement : List Char) : Option (List Char × Nat) :=
  match fuel with
  | 0 => none
  | fuel + 1 =>
    match replace_step out pattern replacement with
    | none => some (out, 0)
    | some next =>
      match replace fuel next pattern replacement with
      | none => none
      | some (result, turns) => some (result, turns + 1)

/-- `std::string::substr(pos, n)` for `pos` within the string: at most `n`
characters from index `pos`. -/
def substr (s : List Char) (pos n : Nat) : List Char :=
  (s.drop pos).take n

/-- Subtraction of two `std::string::size_type` values (64 bits, unsigned). -/
def size_sub (a b : Nat) : Nat :=
  (a + 2 ^ 64 - b % 2 ^ 64) % 2 ^ 64

/-- The beginning of `DisplayThread::GeneratePackageHtml`: the three global
substitutions in the template, `none` when one of the loops does not exit
within `fuel` turns. -/
def global_entries (fuel : Nat) (html_template package now description : List Char) :
    Option (List Char) :=
  match replace fuel html_template "@TITLE@".toList package with
  | none => none
  | some (h1, _) =>
    match replace fuel h1 "@NOW@".toList now with
    | none => none
    | some (h2, _) =>
      match replace fuel h2 "@DESCRIPTION@".toList description with
      | none => none
      | some (h3, _) => some h3

/-! ## `remove_from_args` (integrationtest_main.cpp) -/

/-- `std::find_if` with the predicate of `remove_from_args`: the index of the
first argument equal to `long_opt` or to `short_opt`, the size of the vector
(the iterator `end()`) when there is none. -/
def find_if (vect : List String) (long_opt short_opt : String) : Nat :=
  match vect with
  | [] => 0
  | arg :: rest =>
    if arg == long_opt || arg == short_opt then 0
    else find_if rest long_opt short_opt + 1

/-- `std::vector::erase(position)`: the element at the index `position` is
removed; `none` when `position` is `end()`, which designates no element of the
vector (the behaviour of the call is then undefined). -/
def vector_erase (vect : List String) (position : Nat) : Option (List String) :=
  if position < vect.length then some (vect.eraseIdx position) else none

/-- The function `remove_from_args`: the vector after the call, `none` when the
call erases at `end()`. -/
def remove_from_args (vect : List String) (long_opt short_opt : String) :
    Option (List String) :=
  let iter := find_if vect long_opt short_opt
  if iter != vect.length then
    let next_iter := iter + 1
    match vector_erase vect next_iter with
    | none => none
    | some vect => vector_erase vect iter
  else some vect

/-! ## `PackageTests::generate_long_filename` -/

/-- The value that an `int` holds after an arithmetic result `x`: `x` itself
when it fits 32 bits, otherwise `x` wrapped around modulo `2 ^ 32`. -/
def int_wrap (x : Int) : Int :=
  (x + 2 ^ 31) % 2 ^ 32 - 2 ^ 31

/-- The character that `generate_long_filename` appends for the outcome `r` of
`rand()`: `c = r % 62` moved into the digits, the capital letters or the small
letters. -/
def long_filename_char (r : Nat) : Char :=
  let c := r % 62
  if c < 10 then Char.ofNat (c + '0'.toNat)
  else if c < 36 then Char.ofNat (c + ('A'.toNat - 10))
  else Char.ofNat (c + ('a'.toNat - 36))

/-- The function `generate_long_filename`; `rand k` is the outcome of the call
number `k` of `rand()` (a value from 0 to `RAND_MAX`), the first call being the
one that draws the length. The remainder is the one of C++, of the sign of the
dividend. -/
def generate_long_filename (rand : Nat → Nat) (limit : Int) : List Char :=
  let long_filename_length := int_wrap (Int.tmod (rand 0) limit + 120)
  (List.range long_filename_length.toNat).map fun i => long_filename_char (rand (i + 1))

/-! ## The dependencies of `PackageTests::sorted_packages_run` -/

/-- The part of the state of the creation loop of `sorted_packages_run` that the
field Depends is drawn from: the vector `has_dependents`, indexed by the number
of the package, and for each package the number `d` of the package of its field
`Depends: t<d>`, if it was given one. -/
structure sorted_packages where
  has_dependents : Nat → Bool
  depends : Nat → Option Nat

/-- The state before the loop: `has_dependents` is all `false` after `resize`
and no control file is created yet. -/
def sorted_packages.init : sorted_packages :=
  ⟨fun _ => false, fun _ => none⟩

/-- The turn `i` of the creation loop, `draw` being the outcome of `rand()` in
`int depend(rand() % (max_packages * 2) + 1)`. -/
def sorted_packages.step (max_packages : Nat) (st : sorted_packages) (i draw : Nat) :
    sorted_packages :=
  let depend := draw % (max_packages * 2) + 1
  if depend ≤ max_packages && depend != i && !st.has_dependents depend then
    ⟨fun k => if k = i then true else st.has_dependents k,
     fun k => if k = i then some depend else st.depends k⟩
  else st

/-- The turns `1` to `n` of the creation loop, `rand i` being the outcome of
`rand()` that the turn `i` draws `depend` from. -/
def sorted_packages.loop (max_packages : Nat) (rand : Nat → Nat) : Nat → sorted_packages
  | 0 => sorted_packages.init
  | n + 1 =>
    sorted_packages.step max_packages (sorted_packages.loop max_packages rand n) (n + 1)
      (rand (n + 1))

/-- The creation loop of `sorted_packages_run`, `for(int i = 1; i <= max_packages; ++i)`. -/
def sorted_packages_run (max_packages : Nat) (rand : Nat → Nat) : sorted_packages :=
  sorted_packages.loop max_packages rand max_packages

/-- The package reached from `i` by following the field Depends `n` times, if
every package on the way has one. -/
def follow_depends (depends : Nat → Option Nat) : Nat → Nat → Option Nat
  | 0, i => some i
  | n + 1, i =>
    match depends i with
    | none => none
    | some d => follow_depends depends n d

/-! ## `str_to_html` and `DependencyToLink` (WebForm.cpp) -/

/-- The `switch` of `str_to_html`: what is appended to `result` for the
character `c`. -/
def html_entity (c : Char) : List Char :=
  if c = '<' then "&lt;".toList
  else if c = '>' then "&gt;".toList
  else if c = '&' then "&amp;".toList
  else if c = '"' then "&quot;".toList
  else if c = '\'' then "&#39;".toList
  else [c]

/-- The function `str_to_html`: the loop runs over `str.c_str()` up to the first
NUL character and appends to `result`. -/
def str_to_html (str : List Char) : List Char :=
  (c_str str).foldl (fun result c => result ++ html_entity c) []

/-- A dependency as `wpkg_dependencies::dependencies::dependency_t` holds it (the
type is declared outside the sources): name, version, architectures and whether
these are negated; `operator_to_string` is the string that its method of this
name returns. -/
structure dependency_t where
  f_name : List Char
  f_version : List Char
  operator_to_string : List Char
  f_architectures : List (List Char)
  f_not_arch : Bool

/-- Modelled from the spec: the control file of a package as `wpkgar_manager`
(missing from the sources) serves it: which fields are defined and, for a
defined field, its value as a string, as a boolean, as an integer, as a short
and a long description and as a list of dependencies. -/
structure wpkgar_manager where
  field_is_defined : String → Bool
  field : String → List Char
  field_boolean : String → Bool
  field_integer : String → Nat
  description : String → List Char × List Char
  dependencies : String → List dependency_t

/-- Modelled from the spec: `wpkgar_manager::get_field` (missing from the
sources); the lookup of a field that is not defined gives no value. -/
def get_field (m : wpkgar_manager) (name : String) : Option (List Char) :=
  if m.field_is_defined name then some (m.field name) else none

/-- Modelled from the spec: `wpkgar_manager::get_field_boolean` (missing from the
sources); the lookup of a field that is not defined gives no value. -/
def get_field_boolean (m : wpkgar_manager) (name : String) : Option Bool :=
  if m.field_is_defined name then some (m.field_boolean name) else none

/-- Modelled from the spec: `wpkgar_manager::get_field_integer` (missing from the
sources); the lookup of a field that is not defined gives no value. -/
def get_field_integer (m : wpkgar_manager) (name : String) : Option Nat :=
  if m.field_is_defined name then some (m.field_integer name) else none

/-- Modelled from the spec: `wpkgar_manager::get_description` (missing from the
sources), which returns the first line of the field and stores the rest in
`long_description`; the lookup of a field that is not defined gives no value. -/
def get_description (m : wpkgar_manager) (name : String) : Option (List Char × List Char) :=
  if m.field_is_defined name then some (m.description name) else none

/-- Modelled from the spec: `wpkgar_manager::get_dependencies` (missing from the
sources); the lookup of a field that is not defined gives no value. -/
def get_dependencies (m : wpkgar_manager) (name : String) : Option (List dependency_t) :=
  if m.field_is_defined name then some (m.dependencies name) else none

/-- The loop of `DependencyToLink` over the architectures of a dependency, from
the index `j` on. -/
def architectures_loop (f_not_arch : Bool) : Nat → List (List Char) → List Char → List Char
  | _, [], result => result
  | j, arch :: rest, result =>
    let result := if j != 0 then result ++ [' '] else result
    let result := if f_not_arch then result ++ ['!'] else result
    architectures_loop f_not_arch (j + 1) rest (result ++ arch)

/-- One turn of the loop of `DependencyToLink` over the dependencies: the new
values of `result` and of `comma`. -/
def dependency_turn (state : List Char × List Char) (d : dependency_t) :
    List Char × List Char :=
  let result := state.1 ++ state.2 ++ "<a href=\"package://".toList ++ d.f_name ++ "\">".toList
    ++ d.f_name ++ "</a>".toList
  let result :=
    if !d.f_version.isEmpty then
      let result := result ++ " (".toList
      let op := d.operator_to_string
      let result := if op.length > 0 then result ++ op ++ " ".toList else result
      result ++ d.f_version ++ [')']
    else result
  let result :=
    if !d.f_architectures.isEmpty then
      architectures_loop d.f_not_arch 0 d.f_architectures (result ++ " [".toList) ++ [']']
    else result
  (result, ", ".toList)

/-- The function `DisplayThread::DependencyToLink`: the new value of `result`,
`none` if a field that is not defined is looked up. -/
def DependencyToLink (m : wpkgar_manager) (result : List Char) (field_name : String) :
    Option (List Char) :=
  if m.field_is_defined field_name then
    let result := if !result.isEmpty then result ++ "<br/>".toList else result
    let result := result ++ (field_name.toList ++ ": ".toList)
    match get_dependencies m field_name with
    | none => none
    | some deps => some (deps.foldl dependency_turn (result, [])).1
  else some result

/-- The text of one dependency as the specification words it: a link
`package://name` to its name, then ` (op version)` if its version is not empty,
without the operator and its space when the operator is empty, then ` [archs]`
if it has architectures, separated by single spaces and all prefixed with `!`
or none. -/
def dependency_text (d : dependency_t) : List Char :=
  "<a href=\"package://".toList ++ d.f_name ++ "\">".toList ++ d.f_name ++ "</a>".toList
  ++ (if d.f_version = [] then []
      else " (".toList
        ++ (if d.operator_to_string = [] then [] else d.operator_to_string ++ " ".toList)
        ++ d.f_version ++ ")".toList)
  ++ (if d.f_architectures = [] then []
      else " [".toList
        ++ " ".toList.intercalate
            (d.f_architectures.map fun arch => (if d.f_not_arch then "!".toList else []) ++ arch)
        ++ "]".toList)

/-! ## `DisplayThread::GeneratePackageHtml` (WebForm.cpp) -/

/-- The default template `html_template`, literal by literal. -/
def html_template : List Char :=
  String.toList <| String.join [
    "<html>",
    "<head>",
    "<title>Package @TITLE@</title>",
    "<style>",
    "body \x7b",
    "background-color: #ffffcc;",
    "font-family: sans-serif;",
    "\x7d",
    "table.package-info \x7b",
    "border-top: 1px solid #dddddd;",
    "border-spacing: 0;",
    "border-collapse: collapse;",
    "margin: 10px 5px;",
    "\x7d",
    "table.package-info td.field-name \x7b",
    "text-align: right;",
    "vertical-align: top;",
    "font-weight: bold;",
    "padding-left: 5px;",
    "padding-right: 15px;",
    "border-right: 1px solid #dddddd;",
    "border-bottom: 1px solid #dddddd;",
    "white-space: nowrap;",
    "\x7d",
    "table.package-info td.field-value \x7b",
    "padding-left: 15px;",
    "padding-right: 5px;",
    "border-bottom: 1px solid #dddddd;",
    "vertical-align: top;",
    "\x7d",
    "</style>",
    "</head>",
    "<body>",
    "<h1>Package @TITLE@</h1>",
    "@START@<div style=\"border: 1px solid #888888; padding: 5px 20px; margin: 10px 5px; background-color: white;\">",
    "<div style=\"font-weight: bold; font-size: 150%; text-align: center;\">@PACKAGE@ v@VERSION@</div>",
    "<div style=\"font-size: 120%; text-align: center;\">@DESCRIPTION@</div>",
    "<table class=\"package-info\">",
    "<tr><td class=\"field-name\">Package:</td><td class=\"field-value\">@PROVIDES@</td></tr>",
    "<tr><td class=\"field-name\">Version:</td><td class=\"field-value\">@VERSION@</td></tr>",
    "<tr><td class=\"field-name\">Architecture:</td><td class=\"field-value\">@ARCHITECTURE@</td></tr>",
    "<tr><td class=\"field-name\">Maintainer:</td><td class=\"field-value\">@MAINTAINER@</td></tr>",
    "<tr><td class=\"field-name\">Priority:</td><td class=\"field-value\">@PRIORITY@</td></tr>",
    "<tr><td class=\"field-name\">Urgency:</td><td class=\"field-value\">@URGENCY@</td></tr>",
    "<tr><td class=\"field-name\">Section:</td><td class=\"field-value\">@SECTION@</td></tr>",
    "<tr><td class=\"field-name\">Primary Section:</td><td class=\"field-value\">@PRIMARY_SECTION@</td></tr>",
    "<tr><td class=\"field-name\">Secondary Section:</td><td class=\"field-value\">@SECONDARY_SECTION</td></tr>",
    "<tr><td class=\"field-name\">Description:</td><td class=\"field-value\">@LONG_DESCRIPTION@</td></tr>",
    "<tr><td class=\"field-name\">Links:</td><td class=\"field-value\">@LINKS@</td></tr>",
    "<tr><td class=\"field-name\">Dependencies:</td><td class=\"field-value\">@DEPENDENCIES@</td></tr>",
    "<tr><td class=\"field-name\">Conflicts:</td><td class=\"field-value\">@CONFLICTS@</td></tr>",
    "<tr><td class=\"field-name\">Other Packages of Interest:</td><td class=\"field-value\">@OTHER_DEPENDENCIES@</td></tr>",
    "<tr><td class=\"field-name\">Installed-Size:</td><td class=\"field-value\">@INSTALLED_SIZE@ (@INSTALLED_SIZE_BYTES@)</td></tr>",
    "<tr><td class=\"field-name\">Packager-Version:</td><td class=\"field-value\">@PACKAGER_VERSION@</td></tr>",
    "</table>",
    "<div class=\"files\">",
    "<p>Files:</p><div>@FILES@</div>",
    "</div>",
    "</div>@END@",
    "<div style=\"border-top: 1px solid black; margin-top: 10px; padding-top: 5px; text-align: center; font-size: 80%; color: #666666;\">Package File Generated by Package Explorer on @NOW@<br/>",
    "See the <a href=\"http://windowspackager.org/\" style=\"color: #6666ff\">Windows Packager</a> website for additional details.</div>",
    "</body>",
    "</html>" ]

/-- The comparison of a `case_insensitive_string` (declared outside the sources)
with `required`. -/
def is_required (priority : List Char) : Bool :=
  priority.map Char.toLower == "required".toList

/-- The output of `snprintf(buf, sizeof(buf), "%d", installed_size)` for the
`uint32_t installed_size(... * 1024)`: the 32 bits read as an `int`, in decimal. -/
def installed_size_bytes (installed_size : Nat) : List Char :=
  (int_wrap (installed_size * 1024)).repr.toList

/-- The lookups of `GeneratePackageHtml` before the search of `@START@`: the
field Package, which replaces `@TITLE@`, and the description, whose first line
replaces `@DESCRIPTION@` once escaped; `none` if a field that is not defined is
looked up. The result is `package`, `description` and `long_description`. -/
def global_values (m : wpkgar_manager) : Option (List Char × List Char × List Char) := do
  let package ← get_field m "Package"
  let description ← get_description m "Description"
  pure (package, str_to_html description.1, description.2)

/-- The links of the block of `GeneratePackageHtml` (Homepage, Bugs,
Vcs-Browser): the string `links` that replaces `@LINKS@`. -/
def package_links (m : wpkgar_manager) : Option (List Char) := do
  let links ←
    if m.field_is_defined "Homepage" then
      if m.field_is_defined "Origin" then do
        let homepage ← get_field m "Homepage"
        let origin ← get_field m "Origin"
        pure ("<a href=\"".toList ++ homepage ++ "\">".toList ++ str_to_html origin
          ++ "</a>".toList)
      else do
        let homepage ← get_field m "Homepage"
        pure ("<a href=\"".toList ++ homepage ++ "\">Homepage</a>".toList)
    else pure []
  let links ←
    if m.field_is_defined "Bugs" then do
      let links := if !links.isEmpty then links ++ ", ".toList else links
      let bugs ← get_field m "Bugs"
      pure (links ++ ("<a href=\"".toList ++ bugs ++ "\">Bugs</a>".toList))
    else pure links
  let links ←
    if m.field_is_defined "Vcs-Browser" then do
      let links := if !links.isEmpty then links ++ ", ".toList else links
      let browser ← get_field m "Vcs-Browser"
      pure (links ++ (", <a href=\"".toList ++ browser
        ++ "\">Source Version Control System</a>".toList))
    else pure links
  pure (if links.isEmpty then "no links available".toList else links)

/-- A field that the block of `GeneratePackageHtml` shows escaped when it is
defined and replaces with a fixed text otherwise. -/
def optional_field (m : wpkgar_manager) (name : String) (otherwise : String) :
    Option (List Char) :=
  if m.field_is_defined name then do
    let value ← get_field m name
    pure (str_to_html value)
  else pure otherwise.toList

/-- A list of dependency fields of the block of `GeneratePackageHtml`: the calls
of `DependencyToLink` on an empty string, then the fixed text when the string is
still empty. -/
def dependency_fields (m : wpkgar_manager) (names : List String) (otherwise : String) :
    Option (List Char) := do
  let dependencies ← names.foldlM (DependencyToLink m) []
  pure (if dependencies.isEmpty then otherwise.toList else dependencies)

/-- The text that replaces `@PROVIDES@` in the block of `GeneratePackageHtml`:
the fields Package and Provides, marked when the priority is `required` or the
package essential. -/
def package_provides (m : wpkgar_manager) : Option (List Char) := do
  let package_names ← get_field m "Package"
  let package_names ←
    if m.field_is_defined "Provides" then do
      let provides ← get_field m "Provides"
      pure (package_names ++ (", ".toList ++ provides))
    else pure package_names
  let required ←
    if m.field_is_defined "Priority" then do
      let _priority ← get_field m "Priority"
      pure (is_required _priority)
    else pure false
  if required then
    pure ("<strong style=\"color: red;\">".toList ++ package_names
      ++ " (Required)</strong>".toList)
  else do
    let essential ←
      if m.field_is_defined "Essential" then get_field_boolean m "Essential" else pure false
    if essential then
      pure ("<strong>".toList ++ package_names ++ " (Essential)</strong>".toList)
    else pure package_names

/-- The texts that replace `@INSTALLED_SIZE@` and `@INSTALLED_SIZE_BYTES@` in the
block of `GeneratePackageHtml`. -/
def package_installed_size (m : wpkgar_manager) : Option (List Char × List Char) :=
  if m.field_is_defined "Installed-Size" then do
    let size ← get_field m "Installed-Size"
    let installed_size ← get_field_integer m "Installed-Size"
    pure (size ++ "Kb".toList, installed_size_bytes installed_size)
  else pure ("undefined".toList, "undefined".toList)

/-- The text that replaces `@PACKAGER_VERSION@` in the block of
`GeneratePackageHtml`. -/
def package_packager_version (m : wpkgar_manager) : Option (List Char) :=
  if m.field_is_defined "Packager-Version" then get_field m "Packager-Version"
  else pure "undefined".toList

/-- The text `files_list` that replaces `@FILES@` in the block of
`GeneratePackageHtml`; `files use_drive_letter` is what the loop over the files
of `data.tar` adds to it. -/
def package_files (m : wpkgar_manager) (files : Bool → List Char) : Option (List Char) := do
  let use_drive_letter ←
    if m.field_is_defined "X-Drive-Letter" then get_field_boolean m "X-Drive-Letter"
    else pure false
  pure ("<pre class=\"files\">".toList ++ files use_drive_letter ++ "</pre>".toList)

/-- The calls `replace(o, pattern, replacement)` whose replacements come from
lookups: the list of the patterns with their replacements, `none` as soon as one
of the lookups is the lookup of a field that is not defined. -/
def gather_entries :
    List (List Char × Option (List Char)) → Option (List (List Char × List Char))
  | [] => some []
  | (_, none) :: _ => none
  | (pattern, some replacement) :: rest =>
    match gather_entries rest with
    | none => none
    | some entries => some ((pattern, replacement) :: entries)

/-- The block of `GeneratePackageHtml` between the searches of the markers and
`body += o`: the calls `replace(o, pattern, replacement)` that it makes, in
order, each pattern with the replacement that the lookups in front of the call
give, `none` for the lookup of a field that is not defined.
`files use_drive_letter` is what the loop over the files of `data.tar` adds to
`files_list`. -/
def package_lookups (m : wpkgar_manager) (package_name long_description : List Char)
    (files : Bool → List Char) : List (List Char × Option (List Char)) :=
  [ ("@PACKAGE@".toList, some package_name),
    ("@PROVIDES@".toList, package_provides m),
    ("@VERSION@".toList, (get_field m "Version").map str_to_html),
    ("@ARCHITECTURE@".toList, (get_field m "Architecture").map str_to_html),
    ("@MAINTAINER@".toList, (get_field m "Maintainer").map str_to_html),
    ("@PRIORITY@".toList, optional_field m "Priority" "default (Standard)"),
    ("@URGENCY@".toList, optional_field m "Urgency" "default (Low)"),
    ("@SECTION@".toList, optional_field m "Section" "Other"),
    ("@PRIMARY_SECTION@".toList, optional_field m "X-PrimarySection" "Undefined"),
    ("@SECONDARY_SECTION".toList, optional_field m "X-SecondarySection" "Undefined"),
    ("@LONG_DESCRIPTION@".toList,
      some (if long_description.isEmpty then "(no long description)".toList
        else long_description)),
    ("@LINKS@".toList, package_links m),
    ("@DEPENDENCIES@".toList, dependency_fields m
      ["Depends", "Pre-Depends", "Build-Depends", "Build-Depends-Arch",
        "Build-Depends-Indep", "Built-Using", ""] "no dependencies"),
    ("@CONFLICTS@".toList, dependency_fields m
      ["Conflicts", "Breaks", "Build-Conflicts", "Build-Conflicts-Arch",
        "Build-Conflicts-Indep"] "no conflicts defined"),
    ("@OTHER_DEPENDENCIES@".toList, dependency_fields m
      ["Replaces", "Recommends", "Suggests", "Enhances"] "no other dependencies defined"),
    ("@INSTALLED_SIZE@".toList, (package_installed_size m).map Prod.fst),
    ("@INSTALLED_SIZE_BYTES@".toList, (package_installed_size m).map Prod.snd),
    ("@PACKAGER_VERSION@".toList, package_packager_version m),
    ("@FILES@".toList, package_files m files) ]

/-- The calls `replace(o, pattern, replacement)` of the block of
`GeneratePackageHtml`, as the list of their patterns and replacements; `none` if
a field that is not defined is looked up. The lookups of the block do not depend
on `o` and are gathered here, in their order. -/
def package_entries (m : wpkgar_manager) (package_name long_description : List Char)
    (files : Bool → List Char) : Option (List (List Char × List Char)) :=
  gather_entries (package_lookups m package_name long_description files)

/-- The calls `replace(o, pattern, replacement)` of a list, in order, each run
for at most `fuel` turns of its loop: the final `o`, `none` when one of the
loops does not exit within `fuel` turns. -/
def replace_entries (fuel : Nat) : List Char → List (List Char × List Char) → Option (List Char)
  | o, [] => some o
  | o, entry :: rest =>
    match replace fuel o entry.1 entry.2 with
    | none => none
    | some (o, _) => replace_entries fuel o rest

/-- How a run of `GeneratePackageHtml` ends: with the page in `f_html`; with
the error message on the markers `@START@` and `@END@` logged and `f_html` left
as it is; with the exception raised by the lookup of a field that is not
defined; or not at all, a loop of `replace` going on for ever. -/
inductive html_result where
  | page (f_html : List Char)
  | no_markers (f_html : List Char)
  | undefined_field
  | endless
deriving DecidableEq

/-- The function `DisplayThread::GeneratePackageHtml` for the template
`html_template`, the package `package_name`, the text `now` of `ctime` and the
text `files` of the list of files; every loop of `replace` is run for at most
`fuel` turns. The variable `package_count`, which is never read, is left out. -/
def GeneratePackageHtml (fuel : Nat) (m : wpkgar_manager)
    (html_template package_name now : List Char) (files : Bool → List Char) : html_result :=
  match global_values m with
  | none => html_result.undefined_field
  | some (package, description, long_description) =>
    match global_entries fuel html_template package now description with
    | none => html_result.endless
    | some f_html =>
      match find f_html "@START@".toList, find f_html "@END@".toList with
      | some _start, some _end =>
        let header := substr f_html 0 _start
        let _start := _start + 7
        let repeat_ := substr f_html _start (size_sub _end _start)
        let _end := _end + 5
        let footer := f_html.drop _end
        match package_entries m package_name long_description files with
        | none => html_result.undefined_field
        | some entries =>
          match replace_entries fuel repeat_ entries with
          | none => html_result.endless
          | some o => html_result.page (header ++ o ++ footer)
      | _, _ => html_result.no_markers f_html

/-- The manager of a control file given as a list of fields and values, for the
examples: a boolean field holds for the value `Yes`, the description is a single
line, and no field holds a dependency or an integer other than 0. -/
def example_manager (fields : List (String × String)) : wpkgar_manager where
  field_is_defined name := fields.any fun f => f.1 == name
  field name := ((fields.find? fun f => f.1 == name).map fun f => f.2.toList).getD []
  field_boolean name := ((fields.find? fun f => f.1 == name).map fun f => f.2 == "Yes").getD false
  field_integer _ := 0
  description name :=
    (((fields.find? fun f => f.1 == name).map fun f => f.2.toList).getD [], [])
  dependencies _ := []

/-- The mandatory fields of a package `t1`, for the examples. -/
def example_fields : List (String × String) :=
  [ ("Package", "t1"), ("Version", "1.0"), ("Architecture", "linux-i386"),
    ("Maintainer", "Alexis Wilke"), ("Description", "Test t1") ]

/-! ## Pieces of a template, used in the proofs about `GeneratePackageHtml` -/

/-- A piece of a template: a text without `@`, or a marker. -/
inductive piece where
  | text (s : List Char)
  | marker (s : List Char)
deriving DecidableEq

/-- The characters of a piece. -/
def piece.content : piece → List Char
  | piece.text s => s
  | piece.marker s => s

/-- The string that a list of pieces stands for. -/
def pieces_text (ps : List piece) : List Char :=
  ps.flatMap piece.content

/-- The characters that markers are made of. -/
def marker_char (c : Char) : Bool :=
  c.isUpper || c == '_' || c == '@'

/-- The pieces start with a text whose first character is a character that no
marker holds. -/
def starts_text : List piece → Bool
  | piece.text (c :: _) :: _ => !marker_char c
  | _ => false

/-- A text holds no `@`; a marker is followed by a text that starts with a
character that no marker holds. -/
def piece_ok (x : piece) (rest : List piece) : Bool :=
  match x with
  | piece.text s => !s.contains '@'
  | piece.marker _ => starts_text rest

/-- Every piece is as `piece_ok` demands. -/
def well_formed : List piece → Bool
  | [] => true
  | x :: rest => piece_ok x rest && well_formed rest

/-- The pattern `p` occurs in the marker `m` only as `m` itself. -/
def marker_fits (p m : List Char) : Bool :=
  (List.range m.length).all fun k => !p.isPrefixOf (m.drop k) || (k == 0 && m == p)

/-- A pattern that the proofs cover: it starts with `@` and is made of characters
of markers. -/
def is_pattern (p : List Char) : Bool :=
  p.head? == some '@' && p.all marker_char

/-- The markers of a list of pieces. -/
def markers_of : List piece → List (List Char)
  | [] => []
  | piece.text _ :: rest => markers_of rest
  | piece.marker m :: rest => m :: markers_of rest

/-- The pieces in which every marker `p` is replaced with the text `r`. -/
def substitute (p r : List Char) (ps : List piece) : List piece :=
  ps.map fun x => if x = piece.marker p then piece.text r else x

/-- The pieces in which the first marker `p` is replaced with the text `r`. -/
def substitute_first (p r : List Char) : List piece → List piece
  | [] => []
  | x :: rest =>
    if x = piece.marker p then piece.text r :: rest else x :: substitute_first p r rest

/-- The index in `pieces_text ps` of the first marker `p` of `ps`. -/
def find_piece (p : List Char) : List piece → Option Nat
  | [] => none
  | x :: rest =>
    if x = piece.marker p then some 0
    else (find_piece p rest).map (· + x.content.length)

/-- The pieces in which the markers of a list of patterns are replaced, in
order, with their replacements. -/
def substitute_entries (entries : List (List Char × List Char)) (ps : List piece) :
    List piece :=
  entries.foldl (fun ps entry => substitute entry.1 entry.2 ps) ps

/-- What a piece becomes when the markers of a list of patterns are replaced, in
order, with their replacements. -/
def entry_piece (entries : List (List Char × List Char)) (x : piece) : piece :=
  entries.foldl (fun x entry => if x = piece.marker entry.1 then piece.text entry.2 else x) x

/-- The three calls of `replace` of `GeneratePackageHtml` on the whole template. -/
def global_replacements (package now description : List Char) : List (List Char × List Char) :=
  [("@TITLE@".toList, package), ("@NOW@".toList, now), ("@DESCRIPTION@".toList, description)]

/-- The pieces of `html_template` in front of `@START@`. -/
def header_pieces : List piece :=
  [
    piece.text "<html><head><title>Package ".toList,
    piece.marker "@TITLE@".toList,
    piece.text (String.toList <|
        "</title><style>body \x7bbackground-color: #ffffcc;font-family: sans-serif" ++
        ";\x7dtable.package-info \x7bborder-top: 1px solid #dddddd;border-spacing: 0;" ++
        "border-collapse: collapse;margin: 10px 5px;\x7dtable.package-info td.fiel" ++
        "d-name \x7btext-align: right;vertical-align: top;font-weight: bold;paddin" ++
        "g-left: 5px;padding-right: 15px;border-right: 1px solid #dddddd;border" ++
        "-bottom: 1px solid #dddddd;white-space: nowrap;\x7dtable.package-info td." ++
        "field-value \x7bpadding-left: 15px;padding-right: 5px;border-bottom: 1px " ++
        "solid #dddddd;vertical-align: top;\x7d</style></head><body><h1>Package "),
    piece.marker "@TITLE@".toList,
    piece.text "</h1>".toList ]

/-- The pieces of `html_template` between `@START@` and `@END@`. -/
def repeat_pieces : List piece :=
  [
    piece.text (String.toList <|
        "<div style=\"border: 1px solid #888888; padding: 5px 20px; margin: 10px" ++
        " 5px; background-color: white;\"><div style=\"font-weight: bold; font-si" ++
        "ze: 150%; text-align: center;\">"),
    piece.marker "@PACKAGE@".toList,
    piece.text " v".toList,
    piece.marker "@VERSION@".toList,
    piece.text "</div><div style=\"font-size: 120%; text-align: center;\">".toList,
    piece.marker "@DESCRIPTION@".toList,
    piece.text (String.toList <|
        "</div><table class=\"package-info\"><tr><td class=\"field-name\">Package:<" ++
        "/td><td class=\"field-value\">"),
    piece.marker "@PROVIDES@".toList,
    piece.text (String.toList <|
        "</td></tr><tr><td class=\"field-name\">Version:</td><td class=\"field-val" ++
        "ue\">"),
    piece.marker "@VERSION@".toList,
    piece.text (String.toList <|
        "</td></tr><tr><td class=\"field-name\">Architecture:</td><td class=\"fiel" ++
        "d-value\">"),
    piece.marker "@ARCHITECTURE@".toList,
    piece.text (String.toList <|
        "</td></tr><tr><td class=\"field-name\">Maintainer:</td><td class=\"field-" ++
        "value\">"),
    piece.marker "@MAINTAINER@".toList,
    piece.text (String.toList <|
        "</td></tr><tr><td class=\"field-name\">Priority:</td><td class=\"field-va" ++
        "lue\">"),
    piece.marker "@PRIORITY@".toList,
    piece.text (String.toList <|
        "</td></tr><tr><td class=\"field-name\">Urgency:</td><td class=\"field-val" ++
        "ue\">"),
    piece.marker "@URGENCY@".toList,
    piece.text (String.toList <|
        "</td></tr><tr><td class=\"field-name\">Section:</td><td class=\"field-val" ++
        "ue\">"),
    piece.marker "@SECTION@".toList,
    piece.text (String.toList <|
        "</td></tr><tr><td class=\"field-name\">Primary Section:</td><td class=\"f" ++
        "ield-value\">"),
    piece.marker "@PRIMARY_SECTION@".toList,
    piece.text (String.toList <|
        "</td></tr><tr><td class=\"field-name\">Secondary Section:</td><td class=" ++
        "\"field-value\">"),
    piece.marker "@SECONDARY_SECTION".toList,
    piece.text (String.toList <|
        "</td></tr><tr><td class=\"field-name\">Description:</td><td class=\"field" ++
        "-value\">"),
    piece.marker "@LONG_DESCRIPTION@".toList,
    piece.text (String.toList <|
        "</td></tr><tr><td class=\"field-name\">Links:</td><td class=\"field-value" ++
        "\">"),
    piece.marker "@LINKS@".toList,
    piece.text (String.toList <|
        "</td></tr><tr><td class=\"field-name\">Dependencies:</td><td class=\"fiel" ++
        "d-value\">"),
    piece.marker "@DEPENDENCIES@".toList,
    piece.text (String.toList <|
        "</td></tr><tr><td class=\"field-name\">Conflicts:</td><td class=\"field-v" ++
        "alue\">"),
    piece.marker "@CONFLICTS@".toList,
    piece.text (String.toList <|
        "</td></tr><tr><td class=\"field-name\">Other Packages of Interest:</td><" ++
        "td class=\"field-value\">"),
    piece.marker "@OTHER_DEPENDENCIES@".toList,
    piece.text (String.toList <|
        "</td></tr><tr><td class=\"field-name\">Installed-Size:</td><td class=\"fi" ++
        "eld-value\">"),
    piece.marker "@INSTALLED_SIZE@".toList,
    piece.text " (".toList,
    piece.marker "@INSTALLED_SIZE_BYTES@".toList,
    piece.text (String.toList <|
        ")</td></tr><tr><td class=\"field-name\">Packager-Version:</td><td class=" ++
        "\"field-value\">"),
    piece.marker "@PACKAGER_VERSION@".toList,
    piece.text "</td></tr></table><div class=\"files\"><p>Files:</p><div>".toList,
    piece.marker "@FILES@".toList,
    piece.text "</div></div></div>".toList ]

/-- The pieces of `html_template` after `@END@`. -/
def footer_pieces : List piece :=
  [
    piece.text (String.toList <|
        "<div style=\"border-top: 1px solid black; margin-top: 10px; padding-top" ++
        ": 5px; text-align: center; font-size: 80%; color: #666666;\">Package Fi" ++
        "le Generated by Package Explorer on "),
    piece.marker "@NOW@".toList,
    piece.text (String.toList <|
        "<br/>See the <a href=\"http://windowspackager.org/\" style=\"color: #6666" ++
        "ff\">Windows Packager</a> website for additional details.</div></body><" ++
        "/html>") ]

/-- The pieces of `html_template`. -/
def template_pieces : List piece :=
  header_pieces ++ piece.marker "@START@".toList :: repeat_pieces
    ++ piece.marker "@END@".toList :: footer_pieces

/-- The patterns of the calls of `replace` in `GeneratePackageHtml`, and the two
markers that it searches. -/
def template_patterns : List (List Char) :=
  [ "@TITLE@".toList, "@NOW@".toList, "@DESCRIPTION@".toList, "@START@".toList,
    "@END@".toList, "@PACKAGE@".toList, "@PROVIDES@".toList, "@VERSION@".toList,
    "@ARCHITECTURE@".toList, "@MAINTAINER@".toList, "@PRIORITY@".toList,
    "@URGENCY@".toList, "@SECTION@".toList, "@PRIMARY_SECTION@".toList,
    "@SECONDARY_SECTION".toList, "@LONG_DESCRIPTION@".toList, "@LINKS@".toList,
    "@DEPENDENCIES@".toList, "@CONFLICTS@".toList, "@OTHER_DEPENDENCIES@".toList,
    "@INSTALLED_SIZE@".toList, "@INSTALLED_SIZE_BYTES@".toList,
    "@PACKAGER_VERSION@".toList, "@FILES@".toList ]

/-- The patterns of the calls of `replace` of the block of `GeneratePackageHtml`,
in order. -/
def package_patterns : List (List Char) :=
  [ "@PACKAGE@".toList, "@PROVIDES@".toList, "@VERSION@".toList, "@ARCHITECTURE@".toList,
    "@MAINTAINER@".toList, "@PRIORITY@".toList, "@URGENCY@".toList, "@SECTION@".toList,
    "@PRIMARY_SECTION@".toList, "@SECONDARY_SECTION".toList, "@LONG_DESCRIPTION@".toList,
    "@LINKS@".toList, "@DEPENDENCIES@".toList, "@CONFLICTS@".toList,
    "@OTHER_DEPENDENCIES@".toList, "@INSTALLED_SIZE@".toList,
    "@INSTALLED_SIZE_BYTES@".toList, "@PACKAGER_VERSION@".toList, "@FILES@".toList ]

/-! ## Relations used in the proofs about versions -/

/-- Proof device for the numeric comparison of digit runs: `DiffersAt o P Q` says
that the peeled pairs `P` and `Q` agree up to one pair whose non-digit runs are
the same non-empty run, and that the comparison from the digit runs of that pair
onwards yields `o`. -/
inductive DiffersAt (o : Ordering) :
    List (List Char × List Char) → List (List Char × List Char) → Prop
  | here (nd D1 D2 : List Char) (t1 t2 : List (List Char × List Char)) :
      nd ≠ [] → (compare (digitValue D1) (digitValue D2)).then (cmpRuns t1 t2) = o →
      DiffersAt o ((nd, D1) :: t1) ((nd, D2) :: t2)
  | cons (p : List Char × List Char) (P Q : List (List Char × List Char)) :
      DiffersAt o P Q → DiffersAt o (p :: P) (p :: Q)

/-- A string that is empty or whose last character is not a digit: a digit run
that follows it starts a new number. -/
def endsNonDigit (q : List Char) : Bool :=
  match q.getLast? with
  | none => true
  | some c => !c.isDigit

/-- A string that is empty or whose first character is not a digit: a digit run
that precedes it ends there. -/
def startsNonDigit : List Char → Bool
  | [] => true
  | c :: _ => !c.isDigit

/-! ## Theorems -/

/-- The model of `wpkg --compare-versions` returns, for every row of `versions`
and every spelling of `ops`, the status that `PackageTests::compare_versions`
expects. -/
theorem compare_versions_table : compare_versions_passes = true := by
  decide

/-! ## Lemmas on the version comparison -/

theorem int_compare_swap (x y : Int) : (compare x y).swap = compare y x := by
  rcases lt_trichotomy x y with h | h | h
  · rw [compare_lt_iff_lt.2 h, compare_gt_iff_gt.2 h]; rfl
  · subst h; rw [compare_eq_iff_eq.2 rfl]; rfl
  · rw [compare_gt_iff_gt.2 h, compare_lt_iff_lt.2 h]; rfl

theorem cmpNonDigit_swap : ∀ a b : List Char, (cmpNonDigit a b).swap = cmpNonDigit b a
  | [], [] => rfl
  | [], b :: _ => by simp only [cmpNonDigit]; exact int_compare_swap _ _
  | a :: _, [] => by simp only [cmpNonDigit]; exact int_compare_swap _ _
  | a :: as, b :: bs => by
    simp only [cmpNonDigit]
    rw [Ordering.swap_then, int_compare_swap, cmpNonDigit_swap as bs]

theorem cmpPair_swap (p q : List Char × List Char) : (cmpPair p q).swap = cmpPair q p := by
  unfold cmpPair
  rw [Ordering.swap_then, cmpNonDigit_swap, Nat.compare_swap]

theorem cmpRunsLeft_swap : ∀ ps, (cmpRunsLeft ps).swap = cmpRunsRight ps
  | [] => rfl
  | p :: ps => by
    simp only [cmpRunsLeft, cmpRunsRight]
    rw [Ordering.swap_then, cmpPair_swap, cmpRunsLeft_swap ps]

theorem cmpRunsRight_swap : ∀ ps, (cmpRunsRight ps).swap = cmpRunsLeft ps
  | [] => rfl
  | p :: ps => by
    simp only [cmpRunsLeft, cmpRunsRight]
    rw [Ordering.swap_then, cmpPair_swap, cmpRunsRight_swap ps]

theorem cmpRuns_nil_right : ∀ ps, cmpRuns ps [] = cmpRunsLeft ps
  | [] => rfl
  | _ :: _ => rfl

theorem cmpRuns_swap : ∀ ps qs, (cmpRuns ps qs).swap = cmpRuns qs ps
  | [], qs => by
    rw [cmpRuns_nil_right]; simp only [cmpRuns]; exact cmpRunsRight_swap qs
  | p :: ps, [] => by
    simp only [cmpRuns, cmpRunsRight]
    rw [Ordering.swap_then, cmpPair_swap, cmpRunsLeft_swap ps]
  | p :: ps, q :: qs => by
    simp only [cmpRuns]
    rw [Ordering.swap_then, cmpPair_swap, cmpRuns_swap ps qs]

theorem cmpPart_swap (a b : List Char) : (cmpPart a b).swap = cmpPart b a :=
  cmpRuns_swap _ _

theorem cmpRevision_swap : ∀ a b, (cmpRevision a b).swap = cmpRevision b a
  | none, none => rfl
  | none, some _ => rfl
  | some _, none => rfl
  | some a, some b => cmpPart_swap a b

theorem Version.compare_swap (a b : Version) : (a.compare b).swap = b.compare a := by
  unfold Version.compare
  rw [Ordering.swap_then, Ordering.swap_then, Nat.compare_swap, cmpPart_swap, cmpRevision_swap]

theorem compare_versions_swap : ∀ a b, (compare_versions a b).swap = compare_versions b a
  | [], [] => rfl
  | [], _ :: _ => rfl
  | _ :: _, [] => rfl
  | _ :: _, _ :: _ => Version.compare_swap _ _

theorem compare_versions_nl_swap : ∀ a b,
    (compare_versions_nl a b).swap = compare_versions_nl b a
  | [], [] => rfl
  | [], _ :: _ => rfl
  | _ :: _, [] => rfl
  | _ :: _, _ :: _ => Version.compare_swap _ _

theorem cmpNonDigit_self : ∀ a : List Char, cmpNonDigit a a = Ordering.eq
  | [] => rfl
  | a :: as => by
    simp only [cmpNonDigit]
    rw [compare_eq_iff_eq.2 rfl, cmpNonDigit_self as]; rfl

theorem cmpPair_self (p : List Char × List Char) : cmpPair p p = Ordering.eq := by
  unfold cmpPair
  rw [cmpNonDigit_self, Nat.compare_eq_eq.2 rfl]; rfl

theorem cmpRuns_self : ∀ ps, cmpRuns ps ps = Ordering.eq
  | [] => rfl
  | p :: ps => by
    simp only [cmpRuns]
    rw [cmpPair_self, cmpRuns_self ps]; rfl

theorem cmpPart_self (a : List Char) : cmpPart a a = Ordering.eq := cmpRuns_self _

/-! ### The exit status in terms of the three-way comparison -/

theorem run_of_parseOp {op : String} {o : Op} (h : parseOp op = some o) (a b : String) :
    wpkg_compare_versions a op b = if satisfies a.toList o b.toList then 0 else 1 := by
  unfold wpkg_compare_versions
  rw [h]

theorem status_beq (x v : Ordering) :
    (if (x == v) = true then 0 else 1 : Nat) = if x = v then 0 else 1 := by
  cases x <;> cases v <;> rfl

theorem status_bne (x v : Ordering) :
    (if (x != v) = true then 0 else 1 : Nat) = if x ≠ v then 0 else 1 := by
  cases x <;> cases v <;> rfl

theorem run_lt_val (a b : String) :
    wpkg_compare_versions a "<<" b
      = if compare_versions a.toList b.toList = Ordering.lt then 0 else 1 := by
  rw [run_of_parseOp (show parseOp "<<" = some Op.lt by decide)]
  exact status_beq _ _

theorem run_le_val (a b : String) :
    wpkg_compare_versions a "<=" b
      = if compare_versions a.toList b.toList ≠ Ordering.gt then 0 else 1 := by
  rw [run_of_parseOp (show parseOp "<=" = some Op.le by decide)]
  exact status_bne _ _

theorem run_eq_val (a b : String) :
    wpkg_compare_versions a "=" b
      = if compare_versions a.toList b.toList = Ordering.eq then 0 else 1 := by
  rw [run_of_parseOp (show parseOp "=" = some Op.eq by decide)]
  exact status_beq _ _

theorem run_ne_val (a b : String) :
    wpkg_compare_versions a "!=" b
      = if compare_versions a.toList b.toList ≠ Ordering.eq then 0 else 1 := by
  rw [run_of_parseOp (show parseOp "!=" = some Op.ne by decide)]
  exact status_bne _ _

theorem run_ge_val (a b : String) :
    wpkg_compare_versions a ">=" b
      = if compare_versions a.toList b.toList ≠ Ordering.lt then 0 else 1 := by
  rw [run_of_parseOp (show parseOp ">=" = some Op.ge by decide)]
  exact status_bne _ _

theorem run_gt_val (a b : String) :
    wpkg_compare_versions a ">>" b
      = if compare_versions a.toList b.toList = Ordering.gt then 0 else 1 := by
  rw [run_of_parseOp (show parseOp ">>" = some Op.gt by decide)]
  exact status_beq _ _

theorem run_lt_nl_val (a b : String) :
    wpkg_compare_versions a "lt-nl" b
      = if compare_versions_nl a.toList b.toList = Ordering.lt then 0 else 1 := by
  rw [run_of_parseOp (show parseOp "lt-nl" = some Op.lt_nl by decide)]
  exact status_beq _ _

theorem run_le_nl_val (a b : String) :
    wpkg_compare_versions a "le-nl" b
      = if compare_versions_nl a.toList b.toList ≠ Ordering.gt then 0 else 1 := by
  rw [run_of_parseOp (show parseOp "le-nl" = some Op.le_nl by decide)]
  exact status_bne _ _

theorem run_ge_nl_val (a b : String) :
    wpkg_compare_versions a "ge-nl" b
      = if compare_versions_nl a.toList b.toList ≠ Ordering.lt then 0 else 1 := by
  rw [run_of_parseOp (show parseOp "ge-nl" = some Op.ge_nl by decide)]
  exact status_bne _ _

theorem run_gt_nl_val (a b : String) :
    wpkg_compare_versions a "gt-nl" b
      = if compare_versions_nl a.toList b.toList = Ordering.gt then 0 else 1 := by
  rw [run_of_parseOp (show parseOp "gt-nl" = some Op.gt_nl by decide)]
  exact status_beq _ _

/-- C1. Version comparison through `--compare-versions` is a trichotomy with
mirrored results: for all versions `a` and `b` exactly one of `a << b`, `a = b`
and `a >> b` succeeds (status `0`, the other two returning `1`), and `a << b`
succeeds if and only if `b >> a` succeeds. -/
theorem compare_versions_trichotomy_mirrored (a b : String) :
    ((wpkg_compare_versions a "<<" b = 0 ∧ wpkg_compare_versions a "=" b = 1
        ∧ wpkg_compare_versions a ">>" b = 1)
      ∨ (wpkg_compare_versions a "<<" b = 1 ∧ wpkg_compare_versions a "=" b = 0
        ∧ wpkg_compare_versions a ">>" b = 1)
      ∨ (wpkg_compare_versions a "<<" b = 1 ∧ wpkg_compare_versions a "=" b = 1
        ∧ wpkg_compare_versions a ">>" b = 0))
    ∧ (wpkg_compare_versions a "<<" b = 0 ↔ wpkg_compare_versions b ">>" a = 0) := by
  rw [run_lt_val, run_eq_val, run_gt_val, run_gt_val b a,
    ← compare_versions_swap a.toList b.toList]
  cases compare_versions a.toList b.toList <;> decide

theorem run_zero_or_one {op : String} {o : Op} (h : parseOp op = some o) (a b : String) :
    wpkg_compare_versions a op b = 0 ∨ wpkg_compare_versions a op b = 1 := by
  rw [run_of_parseOp h]
  cases satisfies a.toList o b.toList <;> simp

/-- The sixteen operator spellings of the `ops` table. -/
theorem parseOp_spellings :
    ∀ op ∈ ["<<", "lt", "<", "<=", "le", "=", "eq", "==", "!=", "ne", "<>", ">=", "ge",
        ">>", "gt", ">", "lt-nl", "le-nl", "ge-nl", "gt-nl"], (parseOp op).isSome = true := by
  decide

/-- C2. For all versions `a` and `b` the outcome of every `--compare-versions`
operator is determined by the one three-way comparison of `a` and `b`: the
spellings of an operator give the same answer, `<=` succeeds iff `<<` or `=`
succeeds, `>=` succeeds iff `>>` or `=` succeeds, `!=` succeeds iff `=` fails,
and the exit status is `0` (the relation holds) or `1` (it does not), never
another one. -/
theorem compare_operators_determined (a b : String) :
    (wpkg_compare_versions a "<<" b
        = if compare_versions a.toList b.toList = Ordering.lt then 0 else 1)
    ∧ (wpkg_compare_versions a "<=" b
        = if compare_versions a.toList b.toList ≠ Ordering.gt then 0 else 1)
    ∧ (wpkg_compare_versions a "=" b
        = if compare_versions a.toList b.toList = Ordering.eq then 0 else 1)
    ∧ (wpkg_compare_versions a "!=" b
        = if compare_versions a.toList b.toList ≠ Ordering.eq then 0 else 1)
    ∧ (wpkg_compare_versions a ">=" b
        = if compare_versions a.toList b.toList ≠ Ordering.lt then 0 else 1)
    ∧ (wpkg_compare_versions a ">>" b
        = if compare_versions a.toList b.toList = Ordering.gt then 0 else 1)
    ∧ (wpkg_compare_versions a "lt" b = wpkg_compare_versions a "<<" b
      ∧ wpkg_compare_versions a "<" b = wpkg_compare_versions a "<<" b
      ∧ wpkg_compare_versions a "le" b = wpkg_compare_versions a "<=" b
      ∧ wpkg_compare_versions a "eq" b = wpkg_compare_versions a "=" b
      ∧ wpkg_compare_versions a "==" b = wpkg_compare_versions a "=" b
      ∧ wpkg_compare_versions a "ne" b = wpkg_compare_versions a "!=" b
      ∧ wpkg_compare_versions a "<>" b = wpkg_compare_versions a "!=" b
      ∧ wpkg_compare_versions a "ge" b = wpkg_compare_versions a ">=" b
      ∧ wpkg_compare_versions a "gt" b = wpkg_compare_versions a ">>" b
      ∧ wpkg_compare_versions a ">" b = wpkg_compare_versions a ">>" b)
    ∧ (wpkg_compare_versions a "<=" b = 0
        ↔ wpkg_compare_versions a "<<" b = 0 ∨ wpkg_compare_versions a "=" b = 0)
    ∧ (wpkg_compare_versions a ">=" b = 0
        ↔ wpkg_compare_versions a ">>" b = 0 ∨ wpkg_compare_versions a "=" b = 0)
    ∧ (wpkg_compare_versions a "!=" b = 0 ↔ wpkg_compare_versions a "=" b ≠ 0)
    ∧ (∀ op ∈ ["<<", "lt", "<", "<=", "le", "=", "eq", "==", "!=", "ne", "<>", ">=", "ge",
        ">>", "gt", ">"],
        wpkg_compare_versions a op b = 0 ∨ wpkg_compare_versions a op b = 1) := by
  refine ⟨run_lt_val a b, run_le_val a b, run_eq_val a b, run_ne_val a b, run_ge_val a b,
    run_gt_val a b, ⟨rfl, rfl, rfl, rfl, rfl, rfl, rfl, rfl, rfl, rfl⟩, ?_, ?_, ?_, ?_⟩
  · rw [run_le_val, run_lt_val, run_eq_val]
    cases compare_versions a.toList b.toList <;> decide
  · rw [run_ge_val, run_gt_val, run_eq_val]
    cases compare_versions a.toList b.toList <;> decide
  · rw [run_ne_val, run_eq_val]
    cases compare_versions a.toList b.toList <;> decide
  · intro op hop
    have h := parseOp_spellings op (by
      simp only [List.mem_cons, List.mem_singleton, List.not_mem_nil, or_false] at hop ⊢
      tauto)
    cases ho : parseOp op with
    | none => rw [ho] at h; cases h
    | some o => exact run_zero_or_one ho a b

theorem toList_ne_nil {v : String} (hv : v ≠ "") : ∃ c cs, v.toList = c :: cs := by
  cases v with
  | mk data =>
    cases data with
    | nil => exact absurd rfl hv
    | cons c cs => exact ⟨c, cs, rfl⟩

theorem toList_eq_nil_iff (v : String) : v.toList = [] ↔ v = "" := by
  cases v with
  | mk data =>
    constructor
    · intro h
      have h' : data = [] := h
      subst h'; rfl
    · intro h
      have h' : data = [] := congrArg String.data h
      exact h'

theorem compare_versions_nil_cons (c : Char) (cs : List Char) :
    compare_versions [] (c :: cs) = Ordering.lt := rfl

theorem compare_versions_cons_nil (c : Char) (cs : List Char) :
    compare_versions (c :: cs) [] = Ordering.gt := rfl

theorem compare_versions_nl_eq_of_both (a b : List Char) (h : a = [] ↔ b = []) :
    compare_versions_nl a b = compare_versions a b := by
  cases a with
  | nil =>
    have hb : b = [] := h.1 rfl
    subst hb; rfl
  | cons x xs =>
    cases b with
    | nil => exact absurd (h.2 rfl) (List.cons_ne_nil _ _)
    | cons y ys => rfl

/-- C3. The empty version equals the empty version and is strictly lower than
every non-empty version `v` under `<<`, `<=`, `=`, `>=`, `>>`; under the `-nl`
operators the empty version sorts after every non-empty version; and when `a`
and `b` are both empty or both non-empty each `-nl` operator answers as its
plain counterpart. -/
theorem empty_version_boundary (v a b : String) (hv : v ≠ "") (hab : a = "" ↔ b = "") :
    wpkg_compare_versions "" "=" "" = 0
    ∧ (wpkg_compare_versions "" "<<" v = 0 ∧ wpkg_compare_versions "" "<=" v = 0
      ∧ wpkg_compare_versions "" "=" v = 1 ∧ wpkg_compare_versions "" ">=" v = 1
      ∧ wpkg_compare_versions "" ">>" v = 1)
    ∧ (wpkg_compare_versions v "<<" "" = 1 ∧ wpkg_compare_versions v "<=" "" = 1
      ∧ wpkg_compare_versions v "=" "" = 1 ∧ wpkg_compare_versions v ">=" "" = 0
      ∧ wpkg_compare_versions v ">>" "" = 0)
    ∧ (wpkg_compare_versions "" "lt-nl" v = 1 ∧ wpkg_compare_versions "" "le-nl" v = 1
      ∧ wpkg_compare_versions "" "ge-nl" v = 0 ∧ wpkg_compare_versions "" "gt-nl" v = 0)
    ∧ (wpkg_compare_versions v "lt-nl" "" = 0 ∧ wpkg_compare_versions v "le-nl" "" = 0
      ∧ wpkg_compare_versions v "ge-nl" "" = 1 ∧ wpkg_compare_versions v "gt-nl" "" = 1)
    ∧ (wpkg_compare_versions a "lt-nl" b = wpkg_compare_versions a "<<" b
      ∧ wpkg_compare_versions a "le-nl" b = wpkg_compare_versions a "<=" b
      ∧ wpkg_compare_versions a "ge-nl" b = wpkg_compare_versions a ">=" b
      ∧ wpkg_compare_versions a "gt-nl" b = wpkg_compare_versions a ">>" b) := by
  obtain ⟨c, cs, hc⟩ := toList_ne_nil hv
  have hab' : a.toList = [] ↔ b.toList = [] := by
    rw [toList_eq_nil_iff, toList_eq_nil_iff]; exact hab
  have hnl := compare_versions_nl_eq_of_both a.toList b.toList hab'
  have he : ("" : String).toList = [] := rfl
  refine ⟨by decide, ?_, ?_, ?_, ?_, ?_⟩
  · simp only [run_lt_val, run_le_val, run_eq_val, run_ge_val, run_gt_val, he, hc,
      compare_versions_nil_cons]
    decide
  · simp only [run_lt_val, run_le_val, run_eq_val, run_ge_val, run_gt_val, he, hc,
      compare_versions_cons_nil]
    decide
  · simp only [run_lt_nl_val, run_le_nl_val, run_ge_nl_val, run_gt_nl_val, he, hc,
      compare_versions_nl]
    decide
  · simp only [run_lt_nl_val, run_le_nl_val, run_ge_nl_val, run_gt_nl_val, he, hc,
      compare_versions_nl]
    decide
  · rw [run_lt_nl_val, run_le_nl_val, run_ge_nl_val, run_gt_nl_val, run_lt_val,
      run_le_val, run_ge_val, run_gt_val, hnl]
    exact ⟨rfl, rfl, rfl, rfl⟩

/-- Witness for C3 at `v = "0.9"`, `a = b = ""` (the first three rows of the
table of `PackageTests::compare_versions`). -/
theorem empty_version_boundary_witness :
    ("0.9" : String) ≠ "" ∧ ((("" : String) = "") ↔ (("" : String) = ""))
    ∧ wpkg_compare_versions "" "<<" "0.9" = 0
    ∧ wpkg_compare_versions "" "gt-nl" "0.9" = 0
    ∧ wpkg_compare_versions "" "lt-nl" "" = wpkg_compare_versions "" "<<" "" :=
  have h := empty_version_boundary "0.9" "" "" (by decide) Iff.rfl
  ⟨by decide, Iff.rfl, h.2.1.1, h.2.2.2.1.2.2.2, h.2.2.2.2.2.1⟩

/-! ### The tilde rule -/

theorem runs_cons (c : Char) (s : List Char) : runs (c :: s) = pushChar c (runs s) := rfl

theorem dropWhile_append_singleton (p : Char → Bool) (c : Char) (hc : p c = false) :
    ∀ s : List Char, (s ++ [c]).dropWhile p = s.dropWhile p ++ [c]
  | [] => by simp [List.dropWhile, hc]
  | a :: s => by
    by_cases ha : p a = true
    · simp only [List.cons_append, List.dropWhile_cons, ha, if_true]
      exact dropWhile_append_singleton p c hc s
    · simp only [List.cons_append, List.dropWhile_cons, ha, if_false, List.cons_append]
      simp

theorem digitValue_zero_cons (D : List Char) : digitValue ('0' :: D) = digitValue D := by
  unfold digitValue
  rw [List.foldl_cons]
  rfl

theorem digitValue_zeros (n : Nat) (D : List Char) :
    digitValue (List.replicate n '0' ++ D) = digitValue D := by
  induction n with
  | zero => rfl
  | succ n ih =>
    rw [List.replicate_succ, List.cons_append, digitValue_zero_cons, ih]

theorem DiffersAt.cmpRuns_eq {o : Ordering} {P Q : List (List Char × List Char)}
    (h : DiffersAt o P Q) : cmpRuns P Q = o := by
  induction h with
  | here nd D1 D2 t1 t2 _ ho =>
    simp only [cmpRuns, cmpPair]
    rw [cmpNonDigit_self]
    exact ho
  | cons p P Q _ ih =>
    simp only [cmpRuns]
    rw [cmpPair_self, ih]; rfl

theorem DiffersAt.push_differs {o : Ordering} {P Q : List (List Char × List Char)} (c : Char)
    (h : DiffersAt o P Q) : DiffersAt o (pushChar c P) (pushChar c Q) := by
  cases h with
  | here nd D1 D2 t1 t2 hnd ho =>
    by_cases hc : c.isDigit = true
    · simp only [Wpkg.pushChar, hc, if_true, hnd, if_false]
      exact DiffersAt.cons _ _ _ (DiffersAt.here nd D1 D2 t1 t2 hnd ho)
    · simp only [Wpkg.pushChar, hc, if_false]
      exact DiffersAt.here (c :: nd) D1 D2 t1 t2 (List.cons_ne_nil _ _) ho
  | cons p P Q h =>
    obtain ⟨nd, d⟩ := p
    by_cases hc : c.isDigit = true
    · by_cases hnd : nd = []
      · simp only [Wpkg.pushChar, hc, if_true, hnd]
        exact DiffersAt.cons _ _ _ h
      · simp only [Wpkg.pushChar, hc, if_true, hnd, if_false]
        exact DiffersAt.cons _ _ _ (DiffersAt.cons _ _ _ h)
    · simp only [Wpkg.pushChar, hc, if_false]
      exact DiffersAt.cons _ _ _ h

theorem runs_append (q X : List Char) : runs (q ++ X) = q.foldr Wpkg.pushChar (runs X) := by
  unfold runs
  rw [List.foldr_append]

theorem DiffersAt.foldr_differs {o : Ordering} {P Q : List (List Char × List Char)}
    (h : DiffersAt o P Q) : ∀ q : List Char,
    DiffersAt o (q.foldr Wpkg.pushChar P) (q.foldr Wpkg.pushChar Q)
  | [] => h
  | c :: q => by
    simp only [List.foldr_cons]
    exact (DiffersAt.foldr_differs h q).push_differs c

theorem endsNonDigit_cases {q : List Char} (hq : endsNonDigit q = true) :
    q = [] ∨ ∃ L b, q = L ++ [b] ∧ b.isDigit = false := by
  rcases List.eq_nil_or_concat' q with h | ⟨L, b, h⟩
  · exact Or.inl h
  · right
    refine ⟨L, b, h, ?_⟩
    subst h
    unfold endsNonDigit at hq
    rw [List.getLast?_concat] at hq
    simpa using hq

theorem endsNonDigit_concat (L : List Char) {b : Char} (hb : b.isDigit = false) :
    endsNonDigit (L ++ [b]) = true := by
  unfold endsNonDigit
  rw [List.getLast?_concat]
  simp [hb]

/-- Comparison of two parts that share the prefix `q` and continue with the
digit runs `D1` and `D2`. -/
theorem cmpPart_shared_front {q X1 X2 D1 D2 : List Char}
    {t1 t2 : List (List Char × List Char)} (hq : endsNonDigit q = true)
    (h1 : runs X1 = ([], D1) :: t1) (h2 : runs X2 = ([], D2) :: t2) :
    cmpPart (q ++ X1) (q ++ X2)
      = (compare (digitValue D1) (digitValue D2)).then (cmpRuns t1 t2) := by
  unfold cmpPart
  rcases endsNonDigit_cases hq with h | ⟨L, b, h, hb⟩
  · subst h
    simp only [List.nil_append, h1, h2, cmpRuns, cmpPair, cmpNonDigit]
    rfl
  · subst h
    rw [List.append_assoc, List.append_assoc, runs_append L, runs_append L]
    apply DiffersAt.cmpRuns_eq
    apply DiffersAt.foldr_differs
    have e1 : runs ([b] ++ X1) = ([b], D1) :: t1 := by
      rw [List.singleton_append, runs_cons, h1]
      simp [Wpkg.pushChar, hb]
    have e2 : runs ([b] ++ X2) = ([b], D2) :: t2 := by
      rw [List.singleton_append, runs_cons, h2]
      simp [Wpkg.pushChar, hb]
    rw [e1, e2]
    exact DiffersAt.here [b] D1 D2 t1 t2 (List.cons_ne_nil _ _) rfl

theorem runs_head_of_startsNonDigit {s : List Char} (hs : startsNonDigit s = true) :
    runs s = [] ∨ ∃ c nd d ps, runs s = (c :: nd, d) :: ps := by
  cases s with
  | nil => exact Or.inl rfl
  | cons c s =>
    right
    have hc : c.isDigit = false := by simpa [startsNonDigit] using hs
    rw [runs_cons]
    cases hr : runs s with
    | nil => exact ⟨c, [], [], [], by simp [Wpkg.pushChar, hc]⟩
    | cons p ps =>
      obtain ⟨nd, d⟩ := p
      exact ⟨c, nd, d, ps, by simp [Wpkg.pushChar, hc]⟩

theorem runs_digits_append (x : Char) (D s : List Char) (hx : x.isDigit = true)
    (hD : D.all Char.isDigit = true) (hs : startsNonDigit s = true) :
    runs (x :: D ++ s) = ([], x :: D) :: runs s := by
  induction D generalizing x with
  | nil =>
    rw [List.cons_append, List.nil_append, runs_cons]
    rcases runs_head_of_startsNonDigit hs with h | ⟨c, nd, d, ps, h⟩
    · rw [h]; simp [Wpkg.pushChar, hx]
    · rw [h]; simp [Wpkg.pushChar, hx]
  | cons y D ih =>
    have hy : y.isDigit = true := by
      simp only [List.all_cons, Bool.and_eq_true] at hD; exact hD.1
    have hD' : D.all Char.isDigit = true := by
      simp only [List.all_cons, Bool.and_eq_true] at hD; exact hD.2
    rw [List.cons_append, runs_cons, ih y hy hD']
    simp [Wpkg.pushChar, hx]

theorem runs_digit_cons (d : Char) (u : List Char) (hd : d.isDigit = true) :
    ∃ D t, runs (d :: u) = ([], D) :: t := by
  rw [runs_cons]
  cases hr : runs u with
  | nil => exact ⟨[d], [], by simp [Wpkg.pushChar, hd]⟩
  | cons p ps =>
    obtain ⟨nd, dd⟩ := p
    by_cases hnd : nd = []
    · exact ⟨d :: dd, ps, by simp [Wpkg.pushChar, hd, hnd]⟩
    · exact ⟨[d], (nd, dd) :: ps, by simp [Wpkg.pushChar, hd, hnd]⟩

theorem runs_zeros_append (n : Nat) {X D : List Char} {t : List (List Char × List Char)}
    (h : runs X = ([], D) :: t) :
    runs (List.replicate n '0' ++ X) = ([], List.replicate n '0' ++ D) :: t := by
  induction n with
  | zero => simpa using h
  | succ n ih =>
    rw [List.replicate_succ, List.cons_append, runs_cons, ih]
    simp [Wpkg.pushChar]

/-- Leading zeros in front of a digit do not change how a part compares. -/
theorem cmpPart_leading_zeros {q : List Char} (hq : endsNonDigit q = true) (n : Nat)
    (d : Char) (hd : d.isDigit = true) (u : List Char) :
    cmpPart (q ++ (List.replicate n '0' ++ d :: u)) (q ++ d :: u) = Ordering.eq := by
  obtain ⟨D, t, h⟩ := runs_digit_cons d u hd
  rw [cmpPart_shared_front hq (runs_zeros_append n h) h, digitValue_zeros,
    Nat.compare_eq_eq.2 rfl, cmpRuns_self]
  rfl

/-! ### Parsing a version whose tail varies -/

theorem splitRevision_append (q X : List Char) :
    splitRevision (q ++ X)
      = match splitRevision X with
        | (u, some r) => (q ++ u, some r)
        | (u, none) =>
          match splitRevision q with
          | (u', some r') => (u', some (r' ++ u))
          | (u', none) => (u' ++ u, none) := by
  induction q with
  | nil =>
    rcases hX : splitRevision X with ⟨u, _ | r⟩
    · simp [splitRevision, hX]
    · simp [hX]
  | cons c q ih =>
    simp only [List.cons_append, splitRevision, List.append_eq]
    rw [ih]
    rcases hX : splitRevision X with ⟨u, _ | r⟩
    · rcases hq : splitRevision q with ⟨u', _ | r'⟩
      · by_cases hc : c = '-'
        · simp [hc]
        · simp [hc]
      · simp
    · simp

theorem splitRevision_no_dash : ∀ X : List Char, X.all (fun c => c != '-') = true →
    splitRevision X = (X, none)
  | [], _ => rfl
  | c :: X, h => by
    simp only [List.all_cons, Bool.and_eq_true, bne_iff_ne, ne_eq] at h
    have ih := splitRevision_no_dash X h.2
    simp only [splitRevision, ih, h.1, if_false]

theorem splitRevision_spec : ∀ q : List Char,
    match splitRevision q with
    | (u, none) => u = q
    | (u, some r) => q = u ++ '-' :: r
  | [] => rfl
  | c :: q => by
    have ih := splitRevision_spec q
    simp only [splitRevision]
    rcases hq : splitRevision q with ⟨u, _ | r⟩
    · rw [hq] at ih
      simp only at ih
      by_cases hc : c = '-'
      · simp [hc, ih]
      · simp [hc, ih]
    · rw [hq] at ih
      simp only at ih
      simp [ih]

theorem endsNonDigit_of_append {a b : List Char} (h : endsNonDigit (a ++ b) = true)
    (hb : b ≠ []) : endsNonDigit b = true := by
  rcases List.eq_nil_or_concat' b with h0 | ⟨L, x, hx⟩
  · exact absurd h0 hb
  · subst hx
    rw [← List.append_assoc] at h
    unfold endsNonDigit at h ⊢
    rw [List.getLast?_concat] at h ⊢
    exact h

theorem endsNonDigit_revision {q u r : List Char} (hq : endsNonDigit q = true)
    (h : splitRevision q = (u, some r)) : endsNonDigit r = true := by
  have hs := splitRevision_spec q
  rw [h] at hs
  simp only at hs
  by_cases hr : r = []
  · subst hr; rfl
  · subst hs
    have h2 : endsNonDigit ((u ++ ['-']) ++ r) = true := by
      rw [List.append_assoc]; exact hq
    exact endsNonDigit_of_append h2 hr

theorem dropWhile_append_of_nonDigit : ∀ (p X : List Char), (∃ c ∈ p, c.isDigit = false) →
    (p ++ X).dropWhile Char.isDigit = p.dropWhile Char.isDigit ++ X
      ∧ (p ++ X).takeWhile Char.isDigit = p.takeWhile Char.isDigit
  | [], _, h => by obtain ⟨c, hc, _⟩ := h; cases hc
  | a :: p, X, h => by
    by_cases ha : a.isDigit = true
    · have h' : ∃ c ∈ p, c.isDigit = false := by
        obtain ⟨c, hc, hcd⟩ := h
        rcases List.mem_cons.1 hc with e | e
        · subst e; rw [ha] at hcd; cases hcd
        · exact ⟨c, e, hcd⟩
      have ih := dropWhile_append_of_nonDigit p X h'
      simp only [List.cons_append, List.dropWhile_cons, List.takeWhile_cons, ha, if_true]
      exact ⟨ih.1, by rw [ih.2]⟩
    · simp only [List.cons_append, List.dropWhile_cons, List.takeWhile_cons, ha, if_false]
      exact ⟨rfl, rfl⟩

/-- After a non-empty prefix that ends with a non-digit, the epoch is decided by
the prefix alone. -/
theorem splitEpoch_after_text (L : List Char) (b : Char) (hb : b.isDigit = false) :
    ∃ e p', endsNonDigit p' = true ∧ ∀ X, splitEpoch (L ++ [b] ++ X) = (e, p' ++ X) := by
  have hex : ∃ c ∈ L ++ [b], c.isDigit = false := ⟨b, by simp, hb⟩
  have hdw : (L ++ [b]).dropWhile Char.isDigit = L.dropWhile Char.isDigit ++ [b] :=
    dropWhile_append_singleton Char.isDigit b hb L
  cases hL : L.dropWhile Char.isDigit with
  | nil =>
    rw [hL] at hdw
    by_cases hc : b = ':'
    · refine ⟨digitValue ((L ++ [b]).takeWhile Char.isDigit), [], rfl, fun X => ?_⟩
      unfold splitEpoch
      rw [(dropWhile_append_of_nonDigit _ X hex).1, (dropWhile_append_of_nonDigit _ X hex).2,
        hdw]
      simp [hc]
    · refine ⟨0, L ++ [b], endsNonDigit_concat L hb, fun X => ?_⟩
      unfold splitEpoch
      rw [(dropWhile_append_of_nonDigit _ X hex).1, hdw]
      simp [hc]
  | cons c rest =>
    rw [hL] at hdw
    by_cases hc : c = ':'
    · refine ⟨digitValue ((L ++ [b]).takeWhile Char.isDigit), rest ++ [b],
        endsNonDigit_concat rest hb, fun X => ?_⟩
      unfold splitEpoch
      rw [(dropWhile_append_of_nonDigit _ X hex).1, (dropWhile_append_of_nonDigit _ X hex).2,
        hdw]
      simp [hc]
    · refine ⟨0, L ++ [b], endsNonDigit_concat L hb, fun X => ?_⟩
      unfold splitEpoch
      rw [(dropWhile_append_of_nonDigit _ X hex).1, hdw]
      simp [hc]

theorem compare_versions_of_ne_nil {a b : List Char} (ha : a ≠ []) (hb : b ≠ []) :
    compare_versions a b = (parse a).compare (parse b) := by
  cases a with
  | nil => exact absurd rfl ha
  | cons x xs =>
    cases b with
    | nil => exact absurd rfl hb
    | cons y ys => rfl

theorem Version.compare_self (v : Version) : v.compare v = Ordering.eq := by
  have h := Version.compare_swap v v
  cases hc : v.compare v <;> rw [hc] at h <;> first | rfl | cases h

theorem cmpRevision_self : ∀ r, cmpRevision r r = Ordering.eq
  | none => rfl
  | some r => cmpPart_self r

theorem parse_compare_of_splitEpoch {a b ra rb : List Char} {e : Nat}
    (ha : splitEpoch a = (e, ra)) (hb : splitEpoch b = (e, rb)) :
    (parse a).compare (parse b)
      = (cmpPart (splitRevision ra).1 (splitRevision rb).1).then
          (cmpRevision (splitRevision ra).2 (splitRevision rb).2) := by
  unfold parse Version.compare
  simp only [ha, hb]
  rw [Nat.compare_eq_eq.2 rfl]
  rfl

theorem all_digit_no_dash {D : List Char} (hD : D.all Char.isDigit = true) :
    D.all (fun c => c != '-') = true := by
  rw [List.all_eq_true] at hD ⊢
  intro c hc
  have h := hD c hc
  rw [bne_iff_ne]
  intro e
  subst e
  exact absurd h (by decide)

theorem splitRevision_digits_append {D : List Char} (hD : D.all Char.isDigit = true)
    (s : List Char) :
    splitRevision (D ++ s) = (D ++ (splitRevision s).1, (splitRevision s).2) := by
  rw [splitRevision_append, splitRevision_no_dash D (all_digit_no_dash hD)]
  rcases hs : splitRevision s with ⟨u, _ | r⟩ <;> rfl

theorem all_digit_zeros_cons (n : Nat) {d : Char} (hd : d.isDigit = true) :
    (List.replicate n '0' ++ [d]).all Char.isDigit = true := by
  rw [List.all_eq_true]
  intro c hc
  rcases List.mem_append.1 hc with h | h
  · rw [List.eq_of_mem_replicate h]; decide
  · rw [List.mem_singleton.1 h]; exact hd

/-- The upstream and revision stage for two strings that differ by leading zeros. -/
theorem rev_stage_zeros {q : List Char} (hq : endsNonDigit q = true) (n : Nat) (d : Char)
    (hd : d.isDigit = true) (s : List Char) :
    (cmpPart (splitRevision (q ++ (List.replicate n '0' ++ d :: s))).1
        (splitRevision (q ++ d :: s)).1).then
      (cmpRevision (splitRevision (q ++ (List.replicate n '0' ++ d :: s))).2
        (splitRevision (q ++ d :: s)).2) = Ordering.eq := by
  have e1 : List.replicate n '0' ++ d :: s = (List.replicate n '0' ++ [d]) ++ s := by simp
  have e2 : d :: s = (List.replicate 0 '0' ++ [d]) ++ s := by simp
  have h1 : splitRevision (List.replicate n '0' ++ d :: s)
      = (List.replicate n '0' ++ d :: (splitRevision s).1, (splitRevision s).2) := by
    rw [e1, splitRevision_digits_append (all_digit_zeros_cons n hd)]; simp
  have h2 : splitRevision (d :: s) = (d :: (splitRevision s).1, (splitRevision s).2) := by
    rw [e2, splitRevision_digits_append (all_digit_zeros_cons 0 hd)]; simp
  rw [splitRevision_append q, splitRevision_append q, h1, h2]
  rcases hs : splitRevision s with ⟨u, _ | r⟩
  · rcases hq' : splitRevision q with ⟨u', _ | r'⟩
    · have hu := splitRevision_spec q
      rw [hq'] at hu
      simp only at hu
      subst hu
      simp only [cmpRevision]
      rw [cmpPart_leading_zeros hq n d hd u]; rfl
    · simp only [cmpRevision]
      rw [cmpPart_self, cmpPart_leading_zeros (endsNonDigit_revision hq hq') n d hd u]; rfl
  · simp only
    rw [cmpPart_leading_zeros hq n d hd u, cmpRevision_self]; rfl

/-- Leading zeros in front of a digit of a version do not change how it compares. -/
theorem compare_versions_leading_zeros (p s : List Char) (n : Nat) (d : Char)
    (hd : d.isDigit = true) (hp : endsNonDigit p = true) :
    compare_versions (p ++ (List.replicate n '0' ++ d :: s)) (p ++ d :: s) = Ordering.eq := by
  rw [compare_versions_of_ne_nil (by simp) (by simp)]
  rcases endsNonDigit_cases hp with h | ⟨L, b, h, hb⟩
  · subst h
    simp only [List.nil_append]
    have e1 : List.replicate n '0' ++ d :: s = (List.replicate n '0' ++ [d]) ++ s := by simp
    have e2 : d :: s = [d] ++ s := rfl
    have hz := all_digit_zeros_cons n hd
    have hz0 : ([d] : List Char).all Char.isDigit = true := by simp [hd]
    have hdw1 : (List.replicate n '0' ++ d :: s).dropWhile Char.isDigit
        = s.dropWhile Char.isDigit := by
      rw [e1, List.dropWhile_append_of_pos (fun a ha => List.all_eq_true.1 hz a ha)]
    have hdw2 : (d :: s).dropWhile Char.isDigit = s.dropWhile Char.isDigit := by
      rw [e2, List.dropWhile_append_of_pos (fun a ha => List.all_eq_true.1 hz0 a ha)]
    have htw1 : (List.replicate n '0' ++ d :: s).takeWhile Char.isDigit
        = List.replicate n '0' ++ (d :: s.takeWhile Char.isDigit) := by
      rw [e1, List.takeWhile_append_of_pos (fun a ha => List.all_eq_true.1 hz a ha)]; simp
    have htw2 : (d :: s).takeWhile Char.isDigit = d :: s.takeWhile Char.isDigit := by
      rw [e2, List.takeWhile_append_of_pos (fun a ha => List.all_eq_true.1 hz0 a ha)]; rfl
    have key : (splitEpoch (List.replicate n '0' ++ d :: s) = (0, List.replicate n '0' ++ d :: s)
          ∧ splitEpoch (d :: s) = (0, d :: s))
        ∨ splitEpoch (List.replicate n '0' ++ d :: s) = splitEpoch (d :: s) := by
      unfold splitEpoch
      rw [hdw1, hdw2, htw1, htw2, digitValue_zeros]
      cases s.dropWhile Char.isDigit with
      | nil => exact Or.inl ⟨rfl, rfl⟩
      | cons c rest =>
        by_cases hc : c = ':'
        · right; simp [hc]
        · left; simp [hc]
    rcases key with ⟨k1, k2⟩ | k
    · rw [parse_compare_of_splitEpoch k1 k2]
      exact rev_stage_zeros (q := []) rfl n d hd s
    · have hp : parse (List.replicate n '0' ++ d :: s) = parse (d :: s) := by
        unfold parse; rw [k]
      rw [hp]
      exact Version.compare_self _
  · subst h
    obtain ⟨e, p', hp', hX⟩ := splitEpoch_after_text L b hb
    rw [parse_compare_of_splitEpoch (hX _) (hX _)]
    exact rev_stage_zeros hp' n d hd s

/-- The upstream and revision stage for two strings that continue a common
prefix with two different numbers. -/
theorem rev_stage_numbers {q : List Char} (hq : endsNonDigit q = true) (x1 x2 : Char)
    (D1 D2 s1 s2 : List Char) (hx1 : x1.isDigit = true) (hx2 : x2.isDigit = true)
    (hD1 : D1.all Char.isDigit = true) (hD2 : D2.all Char.isDigit = true)
    (hs1 : s1.all (fun c => c != '-') = true) (hs2 : s2.all (fun c => c != '-') = true)
    (hn1 : startsNonDigit s1 = true) (hn2 : startsNonDigit s2 = true)
    (hlt : digitValue (x1 :: D1) < digitValue (x2 :: D2)) :
    (cmpPart (splitRevision (q ++ (x1 :: D1 ++ s1))).1
        (splitRevision (q ++ (x2 :: D2 ++ s2))).1).then
      (cmpRevision (splitRevision (q ++ (x1 :: D1 ++ s1))).2
        (splitRevision (q ++ (x2 :: D2 ++ s2))).2) = Ordering.lt := by
  have a1 : (x1 :: D1).all Char.isDigit = true := by simp [hx1, hD1]
  have a2 : (x2 :: D2).all Char.isDigit = true := by simp [hx2, hD2]
  have n1 : splitRevision (x1 :: D1 ++ s1) = (x1 :: D1 ++ s1, none) := by
    rw [splitRevision_digits_append a1, splitRevision_no_dash s1 hs1]
  have n2 : splitRevision (x2 :: D2 ++ s2) = (x2 :: D2 ++ s2, none) := by
    rw [splitRevision_digits_append a2, splitRevision_no_dash s2 hs2]
  have r1 := runs_digits_append x1 D1 s1 hx1 hD1 hn1
  have r2 := runs_digits_append x2 D2 s2 hx2 hD2 hn2
  have hc : compare (digitValue (x1 :: D1)) (digitValue (x2 :: D2)) = Ordering.lt :=
    Nat.compare_eq_lt.2 hlt
  rw [splitRevision_append q, splitRevision_append q, n1, n2]
  rcases hq' : splitRevision q with ⟨u', _ | r'⟩
  · have hu := splitRevision_spec q
    rw [hq'] at hu
    simp only at hu
    subst hu
    simp only [cmpRevision]
    rw [cmpPart_shared_front hq r1 r2, hc]; rfl
  · simp only [cmpRevision]
    rw [cmpPart_self, cmpPart_shared_front (endsNonDigit_revision hq hq') r1 r2, hc]; rfl

theorem splitEpoch_digits_plain (x : Char) (D s : List Char) (hx : x.isDigit = true)
    (hD : D.all Char.isDigit = true) (hn : startsNonDigit s = true)
    (hc : s.head? ≠ some ':') : splitEpoch (x :: D ++ s) = (0, x :: D ++ s) := by
  have a : (x :: D).all Char.isDigit = true := by simp [hx, hD]
  have hdw : (x :: D ++ s).dropWhile Char.isDigit = s := by
    rw [List.dropWhile_append_of_pos (fun c hc => List.all_eq_true.1 a c hc)]
    cases s with
    | nil => rfl
    | cons c s =>
      have : c.isDigit = false := by simpa [startsNonDigit] using hn
      simp [List.dropWhile_cons, this]
  unfold splitEpoch
  rw [hdw]
  cases s with
  | nil => rfl
  | cons c s =>
    have : c ≠ ':' := by
      intro e; subst e; exact hc rfl
    simp [this]

/-- A larger number is greater whatever its first digit. -/
theorem compare_versions_numbers (p : List Char) (x1 x2 : Char) (D1 D2 s1 s2 : List Char)
    (hp : endsNonDigit p = true) (hx1 : x1.isDigit = true) (hx2 : x2.isDigit = true)
    (hD1 : D1.all Char.isDigit = true) (hD2 : D2.all Char.isDigit = true)
    (hs1 : s1.all (fun c => c != '-') = true) (hs2 : s2.all (fun c => c != '-') = true)
    (hn1 : startsNonDigit s1 = true) (hn2 : startsNonDigit s2 = true)
    (hc1 : s1.head? ≠ some ':') (hc2 : s2.head? ≠ some ':')
    (hlt : digitValue (x1 :: D1) < digitValue (x2 :: D2)) :
    compare_versions (p ++ (x1 :: D1 ++ s1)) (p ++ (x2 :: D2 ++ s2)) = Ordering.lt := by
  rw [compare_versions_of_ne_nil (by simp) (by simp)]
  rcases endsNonDigit_cases hp with h | ⟨L, b, h, hb⟩
  · subst h
    simp only [List.nil_append]
    rw [parse_compare_of_splitEpoch (splitEpoch_digits_plain x1 D1 s1 hx1 hD1 hn1 hc1)
      (splitEpoch_digits_plain x2 D2 s2 hx2 hD2 hn2 hc2)]
    exact rev_stage_numbers (q := []) rfl x1 x2 D1 D2 s1 s2 hx1 hx2 hD1 hD2 hs1 hs2 hn1 hn2 hlt
  · subst h
    obtain ⟨e, p', hp', hX⟩ := splitEpoch_after_text L b hb
    rw [parse_compare_of_splitEpoch (hX _) (hX _)]
    exact rev_stage_numbers hp' x1 x2 D1 D2 s1 s2 hx1 hx2 hD1 hD2 hs1 hs2 hn1 hn2 hlt

theorem splitEpoch_epoch (E r : List Char) (hE : E.all Char.isDigit = true) :
    splitEpoch (E ++ ':' :: r) = (digitValue E, r) := by
  unfold splitEpoch
  rw [List.dropWhile_append_of_pos (fun c hc => List.all_eq_true.1 hE c hc),
    List.takeWhile_append_of_pos (fun c hc => List.all_eq_true.1 hE c hc)]
  have h1 : (':' :: r).dropWhile Char.isDigit = ':' :: r := by
    rw [List.dropWhile_cons]; rfl
  have h2 : (':' :: r).takeWhile Char.isDigit = [] := by
    rw [List.takeWhile_cons]; rfl
  rw [h1, h2]
  simp

/-- A lower epoch is lower whatever follows. -/
theorem compare_versions_epochs (E1 E2 r1 r2 : List Char) (hE1 : E1.all Char.isDigit = true)
    (hE2 : E2.all Char.isDigit = true) (hlt : digitValue E1 < digitValue E2) :
    compare_versions (E1 ++ ':' :: r1) (E2 ++ ':' :: r2) = Ordering.lt := by
  rw [compare_versions_of_ne_nil (by simp) (by simp)]
  unfold parse Version.compare
  simp only [splitEpoch_epoch _ _ hE1, splitEpoch_epoch _ _ hE2]
  rw [Nat.compare_eq_lt.2 hlt]
  rfl

theorem run_lt_of_compare {a b : String}
    (h : compare_versions a.toList b.toList = Ordering.lt) :
    wpkg_compare_versions a "<<" b = 0 ∧ wpkg_compare_versions b ">>" a = 0
      ∧ wpkg_compare_versions a "=" b = 1 := by
  have h' : compare_versions b.toList a.toList = Ordering.gt := by
    rw [← compare_versions_swap, h]; rfl
  rw [run_lt_val, run_gt_val, run_eq_val, h, h']
  decide

theorem run_eq_of_compare {a b : String}
    (h : compare_versions a.toList b.toList = Ordering.eq) :
    wpkg_compare_versions a "=" b = 0 := by
  rw [run_eq_val, h]
  decide

/-- C5. Digit runs of a version are compared by numeric value with leading
zeros ignored, after the epochs have been compared numerically:
(1) putting zeros in front of a digit that starts a digit run gives a version
that compares equal;
(2) of two versions that continue a common prefix with two numbers, the one with
the smaller number is lower, whatever the digits (the numbers being followed by
text without `-` that starts neither with a digit nor with `:`);
(3) of two versions with an epoch, the one with the smaller epoch is lower
whatever follows the `:`. -/
theorem digit_runs_numeric :
    (∀ (p s : List Char) (n : Nat) (d : Char),
        d.isDigit = true → endsNonDigit p = true →
        wpkg_compare_versions (String.mk (p ++ (List.replicate n '0' ++ d :: s))) "="
          (String.mk (p ++ d :: s)) = 0)
    ∧ (∀ (p : List Char) (x1 x2 : Char) (D1 D2 s1 s2 : List Char),
        endsNonDigit p = true → x1.isDigit = true → x2.isDigit = true →
        D1.all Char.isDigit = true → D2.all Char.isDigit = true →
        s1.all (fun c => c != '-') = true → s2.all (fun c => c != '-') = true →
        startsNonDigit s1 = true → startsNonDigit s2 = true →
        s1.head? ≠ some ':' → s2.head? ≠ some ':' →
        digitValue (x1 :: D1) < digitValue (x2 :: D2) →
        wpkg_compare_versions (String.mk (p ++ (x1 :: D1 ++ s1))) "<<"
            (String.mk (p ++ (x2 :: D2 ++ s2))) = 0
          ∧ wpkg_compare_versions (String.mk (p ++ (x2 :: D2 ++ s2))) ">>"
            (String.mk (p ++ (x1 :: D1 ++ s1))) = 0)
    ∧ (∀ (E1 E2 r1 r2 : List Char),
        E1.all Char.isDigit = true → E2.all Char.isDigit = true →
        digitValue E1 < digitValue E2 →
        wpkg_compare_versions (String.mk (E1 ++ ':' :: r1)) "<<"
            (String.mk (E2 ++ ':' :: r2)) = 0) := by
  refine ⟨?_, ?_, ?_⟩
  · intro p s n d hd hp
    exact run_eq_of_compare (compare_versions_leading_zeros p s n d hd hp)
  · intro p x1 x2 D1 D2 s1 s2 hp hx1 hx2 hD1 hD2 hs1 hs2 hn1 hn2 hc1 hc2 hlt
    have h := run_lt_of_compare (a := String.mk (p ++ (x1 :: D1 ++ s1)))
      (b := String.mk (p ++ (x2 :: D2 ++ s2)))
      (compare_versions_numbers p x1 x2 D1 D2 s1 s2 hp hx1 hx2 hD1 hD2 hs1 hs2 hn1 hn2
        hc1 hc2 hlt)
    exact ⟨h.1, h.2.1⟩
  · intro E1 E2 r1 r2 hE1 hE2 hlt
    exact (run_lt_of_compare (a := String.mk (E1 ++ ':' :: r1))
      (b := String.mk (E2 ++ ':' :: r2)) (compare_versions_epochs E1 E2 r1 r2 hE1 hE2 hlt)).1

/-- Witness for C5 on rows of the table of `PackageTests::compare_versions`:
`3:5.02 = 3:5.2`, `3.5-5 << 3.5-10`, `3.5-10 >> 3.5-5` and `2:5.9 << 3:5.09`. -/
theorem digit_runs_numeric_witness :
    wpkg_compare_versions "3:5.02" "=" "3:5.2" = 0
    ∧ wpkg_compare_versions "3.5-5" "<<" "3.5-10" = 0
    ∧ wpkg_compare_versions "3.5-10" ">>" "3.5-5" = 0
    ∧ wpkg_compare_versions "2:5.9" "<<" "3:5.09" = 0 :=
  ⟨digit_runs_numeric.1 "3:5.".toList [] 1 '2' (by decide) (by decide),
   (digit_runs_numeric.2.1 "3.5-".toList '5' '1' [] ['0'] [] [] (by decide) (by decide)
      (by decide) (by decide) (by decide) (by decide) (by decide) (by decide) (by decide)
      (by decide) (by decide) (by decide)).1,
   (digit_runs_numeric.2.1 "3.5-".toList '5' '1' [] ['0'] [] [] (by decide) (by decide)
      (by decide) (by decide) (by decide) (by decide) (by decide) (by decide) (by decide)
      (by decide) (by decide) (by decide)).2,
   digit_runs_numeric.2.2 ['2'] ['3'] "5.9".toList "5.09".toList (by decide) (by decide)
      (by decide)⟩

/-! ### File names in the file list -/

theorem is_letter_toNat {c : Char} (h : is_letter c = true) : c.toNat < 128 := by
  unfold is_letter at h
  simp only [Bool.or_eq_true, Bool.and_eq_true, decide_eq_true_eq] at h
  rcases h with ⟨_, h⟩ | ⟨_, h⟩
  · have h' : c.toNat ≤ ('z' : Char).toNat := h
    have : ('z' : Char).toNat = 122 := rfl
    omega
  · have h' : c.toNat ≤ ('Z' : Char).toNat := h
    have : ('Z' : Char).toNat = 90 := rfl
    omega

theorem upper_of_small : ∀ n, n < 128 → is_letter (Char.ofNat n) = true →
    Char.ofNat ((Char.ofNat n).toNat &&& 0x5F) = (Char.ofNat n).toUpper := by
  decide

/-- For a letter, `c & 0x5F` is the upper-case form of `c`. -/
theorem and_5F_eq_toUpper {c : Char} (h : is_letter c = true) :
    Char.ofNat (c.toNat &&& 0x5F) = c.toUpper := by
  have h1 := upper_of_small c.toNat (is_letter_toNat h)
  rw [Char.ofNat_toNat] at h1
  exact h1 h

theorem strip_dot_of_not_dot_slash {p : List Char}
    (hp : "./".toList.isPrefixOf p = false) : strip_dot p = p := by
  unfold strip_dot
  split
  · next c0 c1 rest =>
    split
    · next h =>
      rw [h.1, h.2] at hp
      simp [List.isPrefixOf] at hp
    · rfl
  · rfl

theorem drive_letter_length (use : Bool) (p : List Char) :
    (drive_letter use p).length = p.length := by
  unfold drive_letter
  split
  · split <;> simp
  · rfl

/-- C6. A stored path `p` that does not start with `./` is shown as `C:/rest`
when the field X-Drive-Letter is defined and true and `p` is `/c/rest` with `c`
an ASCII letter, `C` being the upper-case form of `c`; in every other case `p`
is shown unchanged; the shown path has the same length as `p`. -/
theorem drive_letter_display (x : Option Bool) (p : List Char)
    (hp : "./".toList.isPrefixOf p = false) :
    (∀ c rest, x = some true → is_letter c = true → p = '/' :: c :: '/' :: rest →
        display_filename x p = c.toUpper :: ':' :: '/' :: rest)
    ∧ (¬ (x = some true ∧ ∃ c rest, is_letter c = true ∧ p = '/' :: c :: '/' :: rest) →
        display_filename x p = p)
    ∧ (display_filename x p).length = p.length := by
  unfold display_filename
  rw [strip_dot_of_not_dot_slash hp]
  refine ⟨?_, ?_, drive_letter_length _ p⟩
  · intro c rest hx hc hpe
    subst hx hpe
    simp only [use_drive_letter, drive_letter, hc, and_self, if_true]
    rw [and_5F_eq_toUpper hc]
  · intro hn
    unfold drive_letter
    split
    · next c0 c1 c2 rest =>
      split
      · next h =>
        exfalso
        apply hn
        obtain ⟨hu, h0, h1, h2⟩ := h
        refine ⟨?_, c1, rest, h1, by rw [h0, h2]⟩
        cases x with
        | none => cases hu
        | some b => cases b with
          | false => cases hu
          | true => rfl
      · rfl
    · rfl

/-- Witness for C6: with `X-Drive-Letter: Yes` the stored path `/c/foo` is shown
as `C:/foo`. -/
theorem drive_letter_display_witness :
    "./".toList.isPrefixOf "/c/foo".toList = false
    ∧ display_filename (some true) "/c/foo".toList = "C:/foo".toList :=
  ⟨by decide,
  (drive_letter_display (some true) "/c/foo".toList (by decide)).1 'c' "foo".toList rfl
    (by decide) rfl⟩

/-- C7, as stated, fails: for the stored path `./usr/bin/t1` the displayed path
is `/usr/bin/t1`, which is not the stored path without its first two
characters, `usr/bin/t1`. -/
theorem strip_dot_counterexample :
    strip_dot "./usr/bin/t1".toList = "/usr/bin/t1".toList
    ∧ display_filename none "./usr/bin/t1".toList = "/usr/bin/t1".toList
    ∧ ¬ (strip_dot "./usr/bin/t1".toList = "./usr/bin/t1".toList.drop 2) := by
  decide

/-- C7 (amended). For every stored path of the form `./rest` the displayed path
(before any drive-letter rewrite) is `/rest`: the stored path without its first
character, the `/` being kept. -/
theorem strip_dot_keeps_slash (rest : List Char) :
    strip_dot ('.' :: '/' :: rest) = '/' :: rest
    ∧ strip_dot ('.' :: '/' :: rest) = ('.' :: '/' :: rest).drop 1 := by
  constructor <;> simp [strip_dot, erase]

/-! ### Script selection -/

theorem testBit_foldl_flags (i : Nat) : ∀ (members : List String) (acc : Nat),
    (members.foldl (fun flags filename => flags ||| script_flag filename) acc).testBit i
      = (acc.testBit i || members.any (fun filename => (script_flag filename).testBit i))
  | [], acc => by simp
  | m :: members, acc => by
    rw [List.foldl_cons, testBit_foldl_flags i members, Nat.testBit_or, List.any_cons,
      Bool.or_assoc]

theorem testBit_control_flags (members : List String) (i : Nat) :
    (control_flags members).testBit i
      = members.any (fun filename => (script_flag filename).testBit i) := by
  unfold control_flags
  rw [testBit_foldl_flags, Nat.zero_testBit, Bool.false_or]

theorem script_flag_cases (filename : String) :
    (filename ∈ script_names ∧ ∃ k, k < 10 ∧ script_names[k]? = some filename
        ∧ script_flag filename = 2 ^ k)
    ∨ (filename ∉ script_names ∧ script_flag filename = 0) := by
  by_cases h : filename ∈ script_names
  · left
    refine ⟨h, ?_⟩
    simp only [script_names, List.mem_cons, List.mem_singleton, List.not_mem_nil,
      or_false] at h
    rcases h with h | h | h | h | h | h | h | h | h | h <;> subst h
    · exact ⟨0, by decide, by decide, by decide⟩
    · exact ⟨1, by decide, by decide, by decide⟩
    · exact ⟨2, by decide, by decide, by decide⟩
    · exact ⟨3, by decide, by decide, by decide⟩
    · exact ⟨4, by decide, by decide, by decide⟩
    · exact ⟨5, by decide, by decide, by decide⟩
    · exact ⟨6, by decide, by decide, by decide⟩
    · exact ⟨7, by decide, by decide, by decide⟩
    · exact ⟨8, by decide, by decide, by decide⟩
    · exact ⟨9, by decide, by decide, by decide⟩
  · right
    refine ⟨h, ?_⟩
    simp only [script_names, List.mem_cons, List.mem_singleton, List.not_mem_nil,
      or_false, not_or] at h
    obtain ⟨h0, h1, h2, h3, h4, h5, h6, h7, h8, h9⟩ := h
    simp [script_flag, h0, h1, h2, h3, h4, h5, h6, h7, h8, h9]

theorem script_names_nodup : script_names.Nodup := by decide

/-- One bit per script name: bit `i` of the flag of a file is set exactly when the
file is the script of index `i`. -/
theorem script_flag_testBit (filename : String) (i : Nat) :
    (script_flag filename).testBit i = decide (script_names[i]? = some filename) := by
  rcases script_flag_cases filename with ⟨_, k, hk, hget, hflag⟩ | ⟨hn, hflag⟩
  · rw [hflag, Nat.testBit_two_pow]
    by_cases hki : k = i
    · subst hki; simp [hget]
    · have : script_names[i]? ≠ some filename := by
        intro hi
        apply hki
        have h1 := List.getElem?_eq_some.1 hget
        have h2 := List.getElem?_eq_some.1 hi
        obtain ⟨a, ha⟩ := h1
        obtain ⟨b, hb⟩ := h2
        exact (List.Nodup.getElem_inj_iff script_names_nodup).1 (ha.trans hb.symm)
      simp [hki, this]
  · rw [hflag, Nat.zero_testBit]
    have : script_names[i]? ≠ some filename := by
      intro hi
      exact hn (List.getElem?_mem hi)
    simp [this]

theorem testBit_control_flags_iff (members : List String) (i : Nat) :
    (control_flags members).testBit i = true
      ↔ ∃ filename ∈ members, script_names[i]? = some filename := by
  rw [testBit_control_flags, List.any_eq_true]
  constructor
  · rintro ⟨f, hf, h⟩
    rw [script_flag_testBit] at h
    exact ⟨f, hf, of_decide_eq_true h⟩
  · rintro ⟨f, hf, h⟩
    exact ⟨f, hf, by rw [script_flag_testBit]; exact decide_eq_true h⟩

theorem mem_control_members (architecture : String) (tree : List String) (s : String) :
    s ∈ control_members architecture tree
      ↔ s ∈ tree ∧ is_packaged (family_of architecture) s = true := by
  unfold control_members
  exact List.mem_filter

theorem control_flags_of_family (architecture : String) (tree : List String)
    (htree : ∀ s ∈ script_names, s ∈ tree) :
    control_flags (control_members architecture tree)
      = match family_of architecture with
        | arch_family.unix => 0x001F
        | arch_family.windows => 0x03E0
        | arch_family.all => 0x03FF
        | arch_family.source => 0x0000 := by
  apply Nat.eq_of_testBit_eq
  intro i
  rw [Bool.eq_iff_iff, testBit_control_flags_iff]
  by_cases hi : i < 10
  · have hmem : ∀ s, script_names[i]? = some s → s ∈ tree :=
      fun s hs => htree s (List.getElem?_mem hs)
    have key : (∃ filename ∈ control_members architecture tree,
          script_names[i]? = some filename)
        ↔ ∃ s, script_names[i]? = some s ∧ is_packaged (family_of architecture) s = true := by
      constructor
      · rintro ⟨f, hf, h⟩
        exact ⟨f, h, ((mem_control_members _ _ _).1 hf).2⟩
      · rintro ⟨s, hs, hp⟩
        exact ⟨s, (mem_control_members _ _ _).2 ⟨hmem s hs, hp⟩, hs⟩
    rw [key]
    cases family_of architecture <;> interval_cases i <;> decide
  · have hnone : script_names[i]? = none := by
      apply List.getElem?_eq_none
      have : script_names.length = 10 := rfl
      omega
    have hlt : ∀ n : Nat, n < 2 ^ 10 → n.testBit i = false := by
      intro n hn
      apply Nat.testBit_lt_two_pow
      calc n < 2 ^ 10 := hn
        _ ≤ 2 ^ i := Nat.pow_le_pow_right (by decide) (by omega)
    constructor
    · rintro ⟨f, _, h⟩
      rw [hnone] at h
      cases h
    · intro h
      exfalso
      cases hf : family_of architecture <;> rw [hf] at h <;> simp only at h
        <;> rw [hlt _ (by decide)] at h <;> cases h

theorem family_of_windows (architecture : String)
    (h : "mswindows-".toList.isPrefixOf architecture.toList = true
      ∨ "win32".toList.isPrefixOf architecture.toList = true
      ∨ "win64".toList.isPrefixOf architecture.toList = true) :
    family_of architecture = arch_family.windows := by
  have h1 : architecture ≠ "all" := by
    intro e; subst e; revert h; decide
  have h2 : architecture ≠ "source" := by
    intro e; subst e; revert h; decide
  unfold family_of
  rw [if_neg h1, if_neg h2]
  rcases h with h | h | h <;> simp only [h, Bool.true_or, Bool.or_true, if_true]

theorem is_packaged_script (family : arch_family) (s : String) (hs : s ∈ script_names) :
    is_packaged family s = true
      ↔ match family with
        | arch_family.unix => s ∈ unix_scripts
        | arch_family.windows => s ∈ batch_scripts
        | arch_family.all => True
        | arch_family.source => False := by
  simp only [script_names, List.mem_cons, List.mem_singleton, List.not_mem_nil,
    or_false] at hs
  rcases hs with h | h | h | h | h | h | h | h | h | h <;> subst h <;> cases family <;> decide

/-- C8. When the control tree holds the ten scripts, the control.tar.gz built
for an architecture contains exactly the five extensionless scripts for a
Unix-family architecture (flags 0x001F), exactly the five `.bat` scripts for a
Windows-family architecture (`mswindows-*`, `win32*`, `win64*`; flags 0x03E0),
all ten for `all` (0x03FF) and none for `source` (0x0000); the flag word of the
test has one bit per script name, and the table `archs_info` of the test holds. -/
theorem scripts_selection_by_architecture (architecture : String) (tree : List String)
    (htree : ∀ s ∈ script_names, s ∈ tree) :
    (control_flags (control_members architecture tree)
      = match family_of architecture with
        | arch_family.unix => 0x001F
        | arch_family.windows => 0x03E0
        | arch_family.all => 0x03FF
        | arch_family.source => 0x0000)
    ∧ (∀ s ∈ script_names, (s ∈ control_members architecture tree
        ↔ match family_of architecture with
          | arch_family.unix => s ∈ unix_scripts
          | arch_family.windows => s ∈ batch_scripts
          | arch_family.all => True
          | arch_family.source => False))
    ∧ (∀ (members : List String) (i : Nat), ((control_flags members).testBit i = true
        ↔ ∃ filename ∈ members, script_names[i]? = some filename))
    ∧ (family_of "all" = arch_family.all ∧ family_of "source" = arch_family.source
        ∧ family_of "i386" = arch_family.unix ∧ family_of "amd64" = arch_family.unix
        ∧ family_of "linux-i386" = arch_family.unix)
    ∧ (("mswindows-".toList.isPrefixOf architecture.toList = true
          ∨ "win32".toList.isPrefixOf architecture.toList = true
          ∨ "win64".toList.isPrefixOf architecture.toList = true) →
        family_of architecture = arch_family.windows)
    ∧ (∀ row ∈ archs_info,
        control_flags (control_members row.1 scripts_selection_tree) = row.2) := by
  refine ⟨control_flags_of_family architecture tree htree, ?_, testBit_control_flags_iff,
    by decide, family_of_windows architecture, by decide⟩
  intro s hs
  rw [mem_control_members, is_packaged_script _ s hs]
  exact and_iff_right (htree s hs)

/-- Witness for C8 on the control tree written by the test, for `linux-i386`. -/
theorem scripts_selection_by_architecture_witness :
    (∀ s ∈ script_names, s ∈ scripts_selection_tree)
    ∧ control_flags (control_members "linux-i386" scripts_selection_tree) = 0x001F :=
  ⟨by decide,
   (scripts_selection_by_architecture "linux-i386" scripts_selection_tree (by decide)).1⟩

/-! ### The oracles -/

theorem c_str_of_no_nul {s : List Char} (h : Char.ofNat 0 ∉ s) : c_str s = s := by
  unfold c_str
  rw [List.takeWhile_eq_self_iff]
  intro x hx
  rw [bne_iff_ne]
  intro e
  subst e
  exact h hx

theorem strstr_iff (haystack needle : List Char) :
    strstr haystack needle = true ↔ needle <:+: haystack := by
  unfold strstr
  rw [List.any_eq_true, List.infix_iff_prefix_suffix]
  constructor
  · rintro ⟨t, ht, hp⟩
    exact ⟨t, List.isPrefixOf_iff_prefix.1 hp, (List.mem_tails _ _).1 ht⟩
  · rintro ⟨t, hp, ht⟩
    exact ⟨t, (List.mem_tails _ _).2 ht, List.isPrefixOf_iff_prefix.2 hp⟩

theorem is_package_file_iff {Uri : Type} (info : file_info Uri)
    (h : Char.ofNat 0 ∉ info.filename) :
    is_package_file info = true
      ↔ info.file_type = file_type_t.regular_file
        ∧ ¬ ("/WPKG/".toList <:+: info.filename) := by
  unfold is_package_file
  rw [c_str_of_no_nul h, Bool.and_eq_true, decide_eq_true_eq, Bool.not_eq_true',
    ← Bool.not_eq_true, strstr_iff]

/-- C9. The purge oracle `verify_purged_files(name, ctrl, exceptions)` succeeds
exactly when, in the target tree, (a) every regular file of the build tree of
`name` whose path contains no `/WPKG/` and whose relative path is not listed in
`exceptions` is absent, (b) every such file whose relative path is listed in
`exceptions` is present, and (c) if `ctrl` defines Conffiles, for every conffile
`c` none of `c`, `c.wpkg-new`, `c.wpkg-old` and `c.wpkg-user` exists. -/
theorem verify_purged_files_iff {Uri : Type} (ops : uri_ops Uri) (file_exists : Uri → Bool)
    (root : Uri) (name : List Char) (conffiles : Option (List (List Char)))
    (exceptions : List (List Char))
    (hnul : ∀ info ∈ ops.dir (ops.append_child root name), Char.ofNat 0 ∉ info.filename) :
    verify_purged_files ops file_exists root name conffiles exceptions = true
      ↔ (∀ info ∈ ops.dir (ops.append_child root name),
          info.file_type = file_type_t.regular_file →
          ¬ ("/WPKG/".toList <:+: info.filename) →
          ops.path_only (ops.remove_common_segments info.uri (ops.append_child root name)) ∉ exceptions →
          file_exists (ops.append_child (ops.append_child root "target".toList)
            (ops.path_only (ops.remove_common_segments info.uri (ops.append_child root name)))) = false)
        ∧ (∀ info ∈ ops.dir (ops.append_child root name),
          info.file_type = file_type_t.regular_file →
          ¬ ("/WPKG/".toList <:+: info.filename) →
          ops.path_only (ops.remove_common_segments info.uri (ops.append_child root name)) ∈ exceptions →
          file_exists (ops.append_child (ops.append_child root "target".toList)
            (ops.path_only (ops.remove_common_segments info.uri (ops.append_child root name)))) = true)
        ∧ (∀ l, conffiles = some l → ∀ c ∈ l,
          file_exists (ops.append_child (ops.append_child root "target".toList) c) = false
          ∧ file_exists (ops.from_string (ops.path_only
              (ops.append_child (ops.append_child root "target".toList) c)
                ++ ".wpkg-new".toList)) = false
          ∧ file_exists (ops.from_string (ops.path_only
              (ops.append_child (ops.append_child root "target".toList) c)
                ++ ".wpkg-old".toList)) = false
          ∧ file_exists (ops.from_string (ops.path_only
              (ops.append_child (ops.append_child root "target".toList) c)
                ++ ".wpkg-user".toList)) = false) := by
  unfold verify_purged_files relative_path
  simp only [Bool.and_eq_true, List.all_eq_true]
  constructor
  · rintro ⟨hdir, hconf⟩
    refine ⟨?_, ?_, ?_⟩
    · intro info hi hreg hw hex
      have h := hdir info hi
      rw [if_pos ((is_package_file_iff info (hnul info hi)).2 ⟨hreg, hw⟩)] at h
      have hf : (exceptions.any fun e =>
          decide (ops.path_only (ops.remove_common_segments info.uri (ops.append_child root name)) = e)) = false := by
        rw [Bool.eq_false_iff]
        intro hany
        rw [List.any_eq_true] at hany
        obtain ⟨e, he, heq⟩ := hany
        exact hex (by rw [of_decide_eq_true heq]; exact he)
      simp only [hf] at h
      simpa using h
    · intro info hi hreg hw hex
      have h := hdir info hi
      rw [if_pos ((is_package_file_iff info (hnul info hi)).2 ⟨hreg, hw⟩)] at h
      have hf : (exceptions.any fun e =>
          decide (ops.path_only (ops.remove_common_segments info.uri (ops.append_child root name)) = e)) = true := by
        rw [List.any_eq_true]
        exact ⟨_, hex, decide_eq_true rfl⟩
      simp only [hf] at h
      simpa using h
    · intro l hl c hc
      subst hl
      simp only [List.all_eq_true] at hconf
      have h := hconf c hc
      unfold conffile_purged at h
      simp only [Bool.and_eq_true, Bool.not_eq_true'] at h
      exact ⟨h.1.1.1, h.1.1.2, h.1.2, h.2⟩
  · rintro ⟨ha, hb, hc⟩
    constructor
    · intro info hi
      by_cases hp : is_package_file info = true
      · rw [if_pos hp]
        obtain ⟨hreg, hw⟩ := (is_package_file_iff info (hnul info hi)).1 hp
        by_cases hex : ops.path_only (ops.remove_common_segments info.uri (ops.append_child root name)) ∈ exceptions
        · have hf : (exceptions.any fun e =>
              decide (ops.path_only (ops.remove_common_segments info.uri (ops.append_child root name)) = e)) = true := by
            rw [List.any_eq_true]
            exact ⟨_, hex, decide_eq_true rfl⟩
          simp only [hf]
          simpa using hb info hi hreg hw hex
        · have hf : (exceptions.any fun e =>
              decide (ops.path_only (ops.remove_common_segments info.uri (ops.append_child root name)) = e)) = false := by
            rw [Bool.eq_false_iff]
            intro hany
            rw [List.any_eq_true] at hany
            obtain ⟨e, he, heq⟩ := hany
            exact hex (by rw [of_decide_eq_true heq]; exact he)
          simp only [hf]
          simpa using ha info hi hreg hw hex
      · rw [if_neg hp]
    · cases conffiles with
      | none => rfl
      | some l =>
        simp only [List.all_eq_true]
        intro c hcl
        obtain ⟨h1, h2, h3, h4⟩ := hc l rfl c hcl
        unfold conffile_purged
        simp only [Bool.and_eq_true, Bool.not_eq_true']
        exact ⟨⟨⟨h1, h2⟩, h3⟩, h4⟩

/-- Witness for C9: the build tree of `t1` holds `usr/bin/t1`, `etc/t1.conf` and
`WPKG/control`, and `etc/t1.conf` is a conffile. On an empty target tree the
oracle succeeds; when `/tmp/target/usr/bin/t1` is left it fails, and it succeeds
again when `usr/bin/t1` is listed in `exceptions`. -/
theorem verify_purged_files_iff_witness :
    (∀ info ∈ example_ops.dir (example_ops.append_child "/tmp".toList "t1".toList),
        Char.ofNat 0 ∉ info.filename)
    ∧ verify_purged_files example_ops (example_exists []) "/tmp".toList "t1".toList
        (some ["etc/t1.conf".toList]) [] = true
    ∧ example_exists [] "/tmp/target/etc/t1.conf.wpkg-new".toList = false
    ∧ verify_purged_files example_ops (example_exists ["/tmp/target/usr/bin/t1"])
        "/tmp".toList "t1".toList (some ["etc/t1.conf".toList]) [] = false
    ∧ verify_purged_files example_ops
        (example_exists ["/tmp/target/usr/bin/t1", "/tmp/target/etc/t1.conf"])
        "/tmp".toList "t1".toList none ["usr/bin/t1".toList, "etc/t1.conf".toList] = true :=
  have h := (verify_purged_files_iff example_ops (example_exists []) "/tmp".toList
    "t1".toList (some ["etc/t1.conf".toList]) [] (by decide)).1 (by decide)
  ⟨by decide, by decide, (h.2.2 _ rfl _ (List.mem_singleton_self _)).2.1,
    Bool.eq_false_iff.2 fun hleft =>
      absurd
        (((verify_purged_files_iff example_ops (example_exists ["/tmp/target/usr/bin/t1"])
            "/tmp".toList "t1".toList (some ["etc/t1.conf".toList]) [] (by decide)).1 hleft).1
          ⟨file_type_t.regular_file, "/tmp/t1/usr/bin/t1".toList, "/tmp/t1/usr/bin/t1".toList⟩
          (by decide) rfl (by decide) (by decide))
        (by decide :
          ¬ example_exists ["/tmp/target/usr/bin/t1"] "/tmp/target/usr/bin/t1".toList = false),
    (verify_purged_files_iff example_ops
        (example_exists ["/tmp/target/usr/bin/t1", "/tmp/target/etc/t1.conf"])
        "/tmp".toList "t1".toList none ["usr/bin/t1".toList, "etc/t1.conf".toList]
        (by decide)).2
      ⟨by decide, by decide, fun _ hl => nomatch hl⟩⟩

theorem with_leading_slash_ne_nil (s : List Char) : with_leading_slash s ≠ [] := by
  unfold with_leading_slash
  split
  · next h =>
    intro e
    rw [e] at h
    cases h
  · exact List.cons_ne_nil _ _

theorem with_leading_slash_eq_slash {s : List Char} (h : with_leading_slash s = ['/']) :
    s = [] ∨ s = ['/'] := by
  unfold with_leading_slash at h
  split at h
  · exact Or.inr h
  · left
    exact (List.cons.inj h).2

theorem conf_filename_eq (conf : List Char) (h : conf ≠ []) :
    conf_filename conf = with_leading_slash conf := by
  cases conf with
  | nil => exact absurd rfl h
  | cons c cs =>
    unfold conf_filename with_leading_slash
    by_cases hc : c = '/'
    · simp [hc]
    · simp [hc]

theorem absolute_filename_eq {Uri : Type} (ops : uri_ops Uri) (build_path : Uri)
    (info : file_info Uri)
    (habs : ops.is_absolute (ops.remove_common_segments info.uri build_path)
      = decide ((relative_path ops build_path info).head? = some '/')) :
    absolute_filename ops build_path info
      = with_leading_slash (relative_path ops build_path info) := by
  unfold absolute_filename with_leading_slash
  rw [habs]
  by_cases h : (relative_path ops build_path info).head? = some '/'
  · simp [h]
  · simp [h]

theorem any_congr_of_mem {α : Type} {f g : α → Bool} : ∀ {l : List α},
    (∀ x ∈ l, f x = g x) → l.any f = l.any g
  | [], _ => rfl
  | a :: l, h => by
    rw [List.any_cons, List.any_cons, h a (List.mem_cons_self _ _),
      any_congr_of_mem (fun x hx => h x (List.mem_cons_of_mem _ hx))]

theorem found_eq_counts {Uri : Type} (ops : uri_ops Uri) (build_path : Uri)
    (info : file_info Uri) (conffiles : Option (List (List Char)))
    (habs : ops.is_absolute (ops.remove_common_segments info.uri build_path)
      = decide ((relative_path ops build_path info).head? = some '/'))
    (hne : (∀ c ∈ conffiles.getD [], c ≠ [])
      ∨ (relative_path ops build_path info ≠ [] ∧ relative_path ops build_path info ≠ ['/'])) :
    ((conffiles.getD []).any fun conf =>
        decide (conf_filename conf = absolute_filename ops build_path info))
      = counts_as_conffile conffiles (relative_path ops build_path info) := by
  unfold counts_as_conffile
  rw [absolute_filename_eq ops build_path info habs]
  apply any_congr_of_mem
  intro conf hconf
  by_cases hc : conf = []
  · subst hc
    rcases hne with h | h
    · exact absurd rfl (h [] hconf)
    · have h1 : conf_filename [] ≠ with_leading_slash (relative_path ops build_path info) :=
        fun e => with_leading_slash_ne_nil _ e.symm
      have h2 : with_leading_slash [] ≠ with_leading_slash (relative_path ops build_path info) := by
        intro e
        rcases with_leading_slash_eq_slash e.symm with h3 | h3
        · exact h.1 h3
        · exact h.2 h3
      rw [decide_eq_false h1, decide_eq_false h2]
  · rw [conf_filename_eq conf hc]

/-- C10. The remove oracle `verify_removed_files(name, ctrl)` succeeds exactly
when every regular file of the build tree of `name` whose path contains no
`/WPKG/` and which is not a conffile is absent from the target tree, a file
counting as a conffile when its path relative to the build tree, given a leading
`/` if it has none, equals an entry of the Conffiles field, likewise given a
leading `/` if it has none; the presence or absence of conffiles is never
examined: two file systems that agree on the other files get the same verdict.
The file names are those of a directory (no NUL), `is_absolute` holds of the
paths that start with `/`, and either no Conffiles entry is empty or no file of
the build tree has the relative path `` or `/`. -/
theorem verify_removed_files_iff {Uri : Type} (ops : uri_ops Uri) (file_exists : Uri → Bool)
    (root : Uri) (name : List Char) (conffiles : Option (List (List Char)))
    (hnul : ∀ info ∈ ops.dir (ops.append_child root name), Char.ofNat 0 ∉ info.filename)
    (habs : ∀ info ∈ ops.dir (ops.append_child root name),
      ops.is_absolute (ops.remove_common_segments info.uri (ops.append_child root name))
        = decide ((ops.path_only (ops.remove_common_segments info.uri (ops.append_child root name))).head? = some '/'))
    (hne : (∀ c ∈ conffiles.getD [], c ≠ [])
      ∨ (∀ info ∈ ops.dir (ops.append_child root name),
          ops.path_only (ops.remove_common_segments info.uri (ops.append_child root name)) ≠ []
          ∧ ops.path_only (ops.remove_common_segments info.uri (ops.append_child root name)) ≠ ['/'])) :
    (verify_removed_files ops file_exists root name conffiles = true
      ↔ ∀ info ∈ ops.dir (ops.append_child root name),
          info.file_type = file_type_t.regular_file →
          ¬ ("/WPKG/".toList <:+: info.filename) →
          counts_as_conffile conffiles
            (ops.path_only (ops.remove_common_segments info.uri (ops.append_child root name))) = false →
          file_exists (ops.append_child (ops.append_child root "target".toList)
            (ops.path_only (ops.remove_common_segments info.uri (ops.append_child root name)))) = false)
    ∧ (∀ other_exists : Uri → Bool,
        (∀ info ∈ ops.dir (ops.append_child root name),
          info.file_type = file_type_t.regular_file →
          ¬ ("/WPKG/".toList <:+: info.filename) →
          counts_as_conffile conffiles
            (ops.path_only (ops.remove_common_segments info.uri (ops.append_child root name))) = false →
          other_exists (ops.append_child (ops.append_child root "target".toList)
              (ops.path_only (ops.remove_common_segments info.uri (ops.append_child root name))))
            = file_exists (ops.append_child (ops.append_child root "target".toList)
              (ops.path_only (ops.remove_common_segments info.uri (ops.append_child root name))))) →
        verify_removed_files ops other_exists root name conffiles
          = verify_removed_files ops file_exists root name conffiles) := by
  have hfound : ∀ info ∈ ops.dir (ops.append_child root name),
      ((conffiles.getD []).any fun conf =>
        decide (conf_filename conf = absolute_filename ops (ops.append_child root name) info))
      = counts_as_conffile conffiles (ops.path_only (ops.remove_common_segments info.uri (ops.append_child root name))) := by
    intro info hi
    apply found_eq_counts ops _ info conffiles (habs info hi)
    rcases hne with h | h
    · exact Or.inl h
    · exact Or.inr (h info hi)
  have key : ∀ fe : Uri → Bool,
      (verify_removed_files ops fe root name conffiles = true
        ↔ ∀ info ∈ ops.dir (ops.append_child root name),
            info.file_type = file_type_t.regular_file →
            ¬ ("/WPKG/".toList <:+: info.filename) →
            counts_as_conffile conffiles
              (ops.path_only (ops.remove_common_segments info.uri (ops.append_child root name))) = false →
            fe (ops.append_child (ops.append_child root "target".toList)
              (ops.path_only (ops.remove_common_segments info.uri (ops.append_child root name)))) = false) := by
    intro fe
    unfold verify_removed_files relative_path
    simp only [List.all_eq_true]
    constructor
    · intro h info hi hreg hw hcount
      have h1 := h info hi
      rw [if_pos ((is_package_file_iff info (hnul info hi)).2 ⟨hreg, hw⟩)] at h1
      simp only [hfound info hi, hcount] at h1
      simpa using h1
    · intro h info hi
      by_cases hp : is_package_file info = true
      · rw [if_pos hp]
        obtain ⟨hreg, hw⟩ := (is_package_file_iff info (hnul info hi)).1 hp
        simp only [hfound info hi]
        cases hcount : counts_as_conffile conffiles
            (ops.path_only (ops.remove_common_segments info.uri (ops.append_child root name))) with
        | false => simpa using h info hi hreg hw hcount
        | true => rfl
      · rw [if_neg hp]
  refine ⟨key file_exists, ?_⟩
  intro other_exists hagree
  rw [Bool.eq_iff_iff, key other_exists, key file_exists]
  constructor
  · intro h info hi hreg hw hcount
    rw [← hagree info hi hreg hw hcount]
    exact h info hi hreg hw hcount
  · intro h info hi hreg hw hcount
    rw [hagree info hi hreg hw hcount]
    exact h info hi hreg hw hcount

/-- Witness for C10: the build tree of `t1` holds `usr/bin/t1`, `etc/t1.conf` and
`WPKG/control`. After a remove only the conffile `etc/t1.conf` is left in the
target tree and the oracle succeeds; when `/tmp/target/usr/bin/t1` is left it
fails. -/
theorem verify_removed_files_iff_witness :
    (∀ info ∈ example_ops.dir (example_ops.append_child "/tmp".toList "t1".toList),
        Char.ofNat 0 ∉ info.filename)
    ∧ (∀ info ∈ example_ops.dir (example_ops.append_child "/tmp".toList "t1".toList),
        example_ops.is_absolute (example_ops.remove_common_segments info.uri
            (example_ops.append_child "/tmp".toList "t1".toList))
          = decide ((example_ops.path_only (example_ops.remove_common_segments info.uri
              (example_ops.append_child "/tmp".toList "t1".toList))).head? = some '/'))
    ∧ (∀ c ∈ (some ["/etc/t1.conf".toList] : Option (List (List Char))).getD [], c ≠ [])
    ∧ verify_removed_files example_ops (example_exists ["/tmp/target/etc/t1.conf"])
        "/tmp".toList "t1".toList (some ["/etc/t1.conf".toList]) = true
    ∧ example_exists ["/tmp/target/etc/t1.conf"] "/tmp/target/usr/bin/t1".toList = false
    ∧ verify_removed_files example_ops
        (example_exists ["/tmp/target/etc/t1.conf", "/tmp/target/usr/bin/t1"])
        "/tmp".toList "t1".toList (some ["/etc/t1.conf".toList]) = false :=
  have h := (verify_removed_files_iff example_ops (example_exists ["/tmp/target/etc/t1.conf"])
    "/tmp".toList "t1".toList (some ["/etc/t1.conf".toList]) (by decide) (by decide)
    (Or.inl (by decide))).1.1 (by decide)
  ⟨by decide, by decide, by decide, by decide,
    h ⟨file_type_t.regular_file, "/tmp/t1/usr/bin/t1".toList, "/tmp/t1/usr/bin/t1".toList⟩
      (by decide) rfl (by decide) (by decide),
    Bool.eq_false_iff.2 fun hleft =>
      absurd
        ((verify_removed_files_iff example_ops
            (example_exists ["/tmp/target/etc/t1.conf", "/tmp/target/usr/bin/t1"])
            "/tmp".toList "t1".toList (some ["/etc/t1.conf".toList]) (by decide) (by decide)
            (Or.inl (by decide))).1.1 hleft
          ⟨file_type_t.regular_file, "/tmp/t1/usr/bin/t1".toList, "/tmp/t1/usr/bin/t1".toList⟩
          (by decide) rfl (by decide) (by decide))
        (by decide :
          ¬ example_exists ["/tmp/target/etc/t1.conf", "/tmp/target/usr/bin/t1"]
              "/tmp/target/usr/bin/t1".toList = false)⟩

/-! ### The substitutions of `WPKG_SUBST` -/

theorem valid_wpkg_subst_of_entry {value entry : List Char}
    (hmem : entry ∈ split_on ':' value) (h : valid_subst_entry entry = false) :
    valid_wpkg_subst value = false := by
  unfold valid_wpkg_subst
  rw [Bool.eq_false_iff]
  intro hall
  rw [List.all_eq_true] at hall
  rw [hall entry hmem] at h
  cases h

theorem entry_two_pipes {entry : List Char} (h : 1 < entry.count '|') :
    valid_subst_entry entry = false := by
  match entry, h with
  | [], h => rfl
  | [_], h => rfl
  | drive :: sign :: paths, h =>
    unfold valid_subst_entry
    by_cases hs : sign = '='
    · by_cases hd : drive = '|'
      · subst hd
        simp [is_letter]
      · subst hs
        have hc : (drive :: '=' :: paths).count '|' = paths.count '|' := by
          rw [List.count_cons_of_ne (fun e => hd e.symm), List.count_cons_of_ne (by decide)]
        rw [hc] at h
        have : ¬ paths.count '|' ≤ 1 := by omega
        simp [this]
    · simp [hs]

theorem entry_bad_char {drive : Char} {paths : List Char} {c : Char} (hc : c ∈ paths)
    (hpipe : c ≠ '|') (hbad : subst_char_ok c = false) :
    valid_subst_entry (drive :: '=' :: paths) = false := by
  unfold valid_subst_entry
  have : paths.all (fun c => c == '|' || subst_char_ok c) = false := by
    rw [Bool.eq_false_iff]
    intro hall
    rw [List.all_eq_true] at hall
    have h := hall c hc
    simp [hpipe, hbad] at h
  simp [this]

theorem entry_no_equal {entry : List Char} (h : '=' ∉ entry) :
    valid_subst_entry entry = false := by
  match entry, h with
  | [], _ => rfl
  | [_], _ => rfl
  | drive :: sign :: paths, h =>
    have hs : sign ≠ '=' := by
      intro e
      apply h
      rw [e]
      exact List.mem_cons_of_mem _ (List.mem_cons_self _ _)
    unfold valid_subst_entry
    simp [hs]

theorem entry_bad_drive {drive rest : List Char} (hd : '=' ∉ drive)
    (hletter : ∀ c, drive = [c] → is_letter c = false) :
    valid_subst_entry (drive ++ '=' :: rest) = false := by
  match drive, hd, hletter with
  | [], _, _ =>
    cases rest with
    | nil => rfl
    | cons sign paths =>
      unfold valid_subst_entry
      have : is_letter '=' = false := by decide
      simp [this]
  | [c], _, hletter =>
    unfold valid_subst_entry
    simp [hletter c rfl]
  | c :: d :: more, hd, _ =>
    have hne : d ≠ '=' := by
      intro e
      apply hd
      rw [e]
      exact List.mem_cons_of_mem _ (List.mem_cons_self _ _)
    unfold valid_subst_entry
    simp [hne]

/-- C11. A `WPKG_SUBST` value is rejected, the install exiting with status 1 and
installing nothing, when one of its entries contains more than one `|`, when a
path in it contains a character outside letters, digits, `_`, `-`, `+`, `.`,
`/` and `\`, when an entry has no `=`, or when the drive before `=` is not a
letter; every value tried by `check_drive_subst` is rejected, and the value
exported by the test driver is valid. -/
theorem wpkg_subst_rejected (value entry : List Char) (target files : List (List Char))
    (hmem : entry ∈ split_on ':' value)
    (hbad : 1 < entry.count '|'
      ∨ (∃ drive paths c, entry = drive :: '=' :: paths ∧ c ∈ paths ∧ c ≠ '|'
          ∧ subst_char_ok c = false)
      ∨ '=' ∉ entry
      ∨ (∃ drive rest, entry = drive ++ '=' :: rest ∧ '=' ∉ drive
          ∧ ∀ c, drive = [c] → is_letter c = false)) :
    valid_wpkg_subst value = false
    ∧ install_with_subst value target files = (1, target)
    ∧ (∀ c ∈ ['*', '?', '"', '<', '>'], subst_char_ok c = false)
    ∧ (∀ v ∈ check_drive_subst_values,
        install_with_subst v.toList [] check_drive_subst_files = (1, []))
    ∧ valid_wpkg_subst exported_wpkg_subst.toList = true := by
  have hentry : valid_subst_entry entry = false := by
    rcases hbad with h | ⟨drive, paths, c, he, hc, hp, hb⟩ | h | ⟨drive, rest, he, hd, hl⟩
    · exact entry_two_pipes h
    · rw [he]; exact entry_bad_char hc hp hb
    · exact entry_no_equal h
    · rw [he]; exact entry_bad_drive hd hl
  have hv := valid_wpkg_subst_of_entry hmem hentry
  refine ⟨hv, ?_, by decide, by decide, by decide⟩
  unfold install_with_subst
  rw [hv]
  rfl

/-- Witness for C11: the first value of `check_drive_subst`, whose first entry
has two `|`. -/
theorem wpkg_subst_rejected_witness :
    "f=/opt/wpkg|/m2osw/packages|/only/one/pipe/allowed".toList
        ∈ split_on ':'
          "f=/opt/wpkg|/m2osw/packages|/only/one/pipe/allowed:h=usr/local/bin/wpkg".toList
    ∧ 1 < "f=/opt/wpkg|/m2osw/packages|/only/one/pipe/allowed".toList.count '|'
    ∧ install_with_subst
        "f=/opt/wpkg|/m2osw/packages|/only/one/pipe/allowed:h=usr/local/bin/wpkg".toList
        [] check_drive_subst_files = (1, []) :=
  ⟨by decide, by decide,
   (wpkg_subst_rejected
      "f=/opt/wpkg|/m2osw/packages|/only/one/pipe/allowed:h=usr/local/bin/wpkg".toList
      "f=/opt/wpkg|/m2osw/packages|/only/one/pipe/allowed".toList [] check_drive_subst_files
      (by decide) (Or.inl (by decide))).2.1⟩

/-! ### The arguments of postinst -/

theorem read_lines_no_newline : ∀ (l : List Char), newline ∉ l → l ≠ [] → read_lines l = [l]
  | [], _, h => absurd rfl h
  | [c], hn, _ => by
    have hc : c ≠ newline := fun e => hn (by rw [e]; exact List.mem_cons_self _ _)
    simp only [read_lines, hc, if_false]
  | c :: d :: l, hn, _ => by
    have hc : c ≠ newline := fun e => hn (by rw [e]; exact List.mem_cons_self _ _)
    have ih := read_lines_no_newline (d :: l) (fun h => hn (List.mem_cons_of_mem _ h))
      (List.cons_ne_nil _ _)
    rw [read_lines, if_neg hc, ih]

theorem read_lines_append_newline : ∀ (l rest : List Char), newline ∉ l →
    read_lines (l ++ newline :: rest) = l :: read_lines rest
  | [], rest, _ => by
    simp only [List.nil_append, read_lines, if_true]
  | c :: l, rest, hn => by
    have hc : c ≠ newline := fun e => hn (by rw [e]; exact List.mem_cons_self _ _)
    have ih := read_lines_append_newline l rest (fun h => hn (List.mem_cons_of_mem _ h))
    rw [List.cons_append, read_lines, if_neg hc, ih]

theorem read_lines_postinst_txt (tag : List Char) (arguments : List (List Char))
    (htag : newline ∉ tag) (hargs : newline ∉ shell_star arguments) :
    read_lines (postinst_txt tag arguments)
      = [tag, "arguments: [".toList ++ shell_star arguments ++ [']']] := by
  have e : postinst_txt tag arguments
      = tag ++ newline :: (("arguments: [".toList ++ shell_star arguments ++ [']'])
          ++ newline :: []) := by
    unfold postinst_txt
    simp only [List.append_assoc, List.cons_append, List.nil_append, List.singleton_append]
  have hline : newline ∉ "arguments: [".toList ++ shell_star arguments ++ [']'] := by
    intro h
    rcases List.mem_append.1 h with h | h
    · rcases List.mem_append.1 h with h | h
      · revert h; decide
      · exact hargs h
    · revert h; decide
  rw [e, read_lines_append_newline _ _ htag, read_lines_append_newline _ _ hline]
  rfl

theorem trim_arguments_line (a : List Char) :
    trim ("arguments: [".toList ++ a ++ [']']) = "arguments: [".toList ++ a ++ [']'] := by
  have h1 : ("arguments: [".toList ++ a ++ [']']).dropWhile is_blank
      = "arguments: [".toList ++ a ++ [']'] := by
    have : "arguments: [".toList ++ a ++ [']']
        = 'a' :: ("rguments: [".toList ++ a ++ [']']) := rfl
    rw [this, List.dropWhile_cons]
    rfl
  have h2 : ("arguments: [".toList ++ a ++ [']']).reverse
      = ']' :: ("arguments: [".toList ++ a).reverse := by
    rw [List.reverse_append]
    rfl
  have h3 : ("arguments: [".toList ++ a ++ [']']).reverse.dropWhile is_blank
      = ']' :: ("arguments: [".toList ++ a).reverse := by
    rw [h2, List.dropWhile_cons]
    rfl
  have h0 : "arguments: [".toList ++ a ++ [']']
      = 'a' :: ("rguments: [".toList ++ a ++ [']']) := rfl
  unfold trim
  simp only [h1]
  rw [h0]
  simp only
  rw [← h0, h3]
  simp only
  rw [← h2, List.reverse_reverse]

theorem arguments_of_line {a b : List Char}
    (h : "arguments: [".toList ++ a ++ [']'] = "arguments: [".toList ++ b ++ [']']) : a = b := by
  have h1 := List.append_cancel_right h
  exact List.append_cancel_left h1

theorem verify_text_postinst (tag a : List Char) (arguments : List (List Char))
    (htag : newline ∉ tag) (ha : newline ∉ a) (hargs : newline ∉ shell_star arguments)
    (h : verify_text (postinst_txt tag arguments)
      (tag ++ [newline] ++ ("arguments: [".toList ++ a ++ [']'])) = true) :
    shell_star arguments = a := by
  unfold verify_text at h
  have hline : newline ∉ "arguments: [".toList ++ a ++ [']'] := by
    intro h
    rcases List.mem_append.1 h with h | h
    · rcases List.mem_append.1 h with h | h
      · revert h; decide
      · exact ha h
    · revert h; decide
  have e : tag ++ [newline] ++ ("arguments: [".toList ++ a ++ [']'])
      = tag ++ newline :: ("arguments: [".toList ++ a ++ [']']) := by
    simp only [List.append_assoc, List.singleton_append]
  rw [read_lines_postinst_txt tag arguments htag hargs, e,
    read_lines_append_newline _ _ htag,
    read_lines_no_newline _ hline (by simp)] at h
  simp only [verify_lines, Bool.and_eq_true, decide_eq_true_eq, Bool.and_true] at h
  have h2 := h.2
  rw [trim_arguments_line] at h2
  exact arguments_of_line h2

/-- C12, as stated, fails: an executor that hands postinst the most recently
configured version (nothing on a first install, 1.0 on the upgrade to 1.1) does
not write what `scripts_order` expects, neither on the first install nor on the
upgrade. -/
theorem postinst_arguments_counterexample :
    shell_star (postinst_arguments_spec none "1.0".toList) = "configure ".toList
    ∧ verify_text
        (postinst_txt "post-inst ctrl_t1".toList (postinst_arguments_spec none "1.0".toList))
        ("post-inst ctrl_t1".toList ++ [newline] ++ "arguments: [configure 1.0]".toList)
        = false
    ∧ verify_text
        (postinst_txt "post-inst ctrl_t1 (b)".toList
          (postinst_arguments_spec (some "1.0".toList) "1.1".toList))
        ("post-inst ctrl_t1 (b)".toList ++ [newline] ++ "arguments: [configure 1.1]".toList)
        = false
    ∧ scripts_order_postinst postinst_arguments_spec = false := by
  decide

/-- C12 (amended). The postinst script of a package is invoked with the
arguments `configure <v>` where `v` is the version that is being configured:
for every executor that passes the checks of `scripts_order` (its arguments
holding no newline), postinst receives `configure 1.0` on the first install of
t1 1.0 and `configure 1.1` on the upgrade of t1 from 1.0 to 1.1; the executor
that passes the version being configured passes these checks. -/
theorem postinst_arguments_recorded
    (executor : Option (List Char) → List Char → List (List Char))
    (h1 : (shell_star (executor none "1.0".toList)).contains newline = false)
    (h2 : (shell_star (executor (some "1.0".toList) "1.1".toList)).contains newline = false)
    (hpass : scripts_order_postinst executor = true) :
    shell_star (executor none "1.0".toList) = "configure 1.0".toList
    ∧ shell_star (executor (some "1.0".toList) "1.1".toList) = "configure 1.1".toList
    ∧ scripts_order_postinst postinst_arguments = true
    ∧ ∀ prev version, shell_star (postinst_arguments prev version)
        = "configure ".toList ++ version := by
  unfold scripts_order_postinst at hpass
  rw [Bool.and_eq_true] at hpass
  have n1 : newline ∉ shell_star (executor none "1.0".toList) := by
    intro hm
    have hc : (shell_star (executor none "1.0".toList)).contains newline = true :=
      List.elem_iff.2 hm
    rw [h1] at hc
    cases hc
  have n2 : newline ∉ shell_star (executor (some "1.0".toList) "1.1".toList) := by
    intro hm
    have hc : (shell_star (executor (some "1.0".toList) "1.1".toList)).contains newline
        = true := List.elem_iff.2 hm
    rw [h2] at hc
    cases hc
  refine ⟨?_, ?_, by decide, ?_⟩
  · exact verify_text_postinst "post-inst ctrl_t1".toList "configure 1.0".toList _
      (by decide) (by decide) n1 hpass.1
  · exact verify_text_postinst "post-inst ctrl_t1 (b)".toList "configure 1.1".toList _
      (by decide) (by decide) n2 hpass.2
  · intro prev version
    simp [shell_star, postinst_arguments, List.intercalate, List.intersperse]

/-- Witness for the amended C12: the executor that passes the version being
configured. -/
theorem postinst_arguments_recorded_witness :
    scripts_order_postinst postinst_arguments = true
    ∧ shell_star (postinst_arguments none "1.0".toList) = "configure 1.0".toList
    ∧ shell_star (postinst_arguments (some "1.0".toList) "1.1".toList)
        = "configure 1.1".toList :=
  have h := postinst_arguments_recorded postinst_arguments (by decide) (by decide) (by decide)
  ⟨by decide, h.1, h.2.1⟩

/-! ### The order of an install request -/

theorem plan_order_cycle (dependencies : List dependency) (installed cycle : List String)
    (hne : cycle ≠ [])
    (hdep : ∀ x ∈ cycle, x ∉ installed
      ∧ ∃ d ∈ dependencies, d.package = x ∧ d.depends_on ∈ cycle) :
    ∀ (fuel : Nat) (emitted remaining : List String),
      (∀ x ∈ cycle, x ∈ remaining ∧ x ∉ emitted) →
      plan_order dependencies installed fuel emitted remaining = none := by
  have hrem : ∀ remaining : List String, (∀ x ∈ cycle, x ∈ remaining) →
      remaining.isEmpty = false := by
    intro remaining h
    cases cycle with
    | nil => exact absurd rfl hne
    | cons x xs =>
      cases remaining with
      | nil => exact absurd (h x (List.mem_cons_self _ _)) (List.not_mem_nil _)
      | cons _ _ => rfl
  have hready : ∀ (emitted : List String), (∀ x ∈ cycle, x ∉ emitted) →
      ∀ x ∈ cycle, is_ready dependencies (installed ++ emitted) x = false := by
    intro emitted hem x hx
    obtain ⟨hxi, d, hd, hdp, hdo⟩ := hdep x hx
    unfold is_ready
    rw [Bool.eq_false_iff]
    intro hall
    rw [List.all_eq_true] at hall
    have h := hall d hd
    have hnot : (installed ++ emitted).contains d.depends_on = false := by
      rw [Bool.eq_false_iff]
      intro hc
      have hm : d.depends_on ∈ installed ++ emitted := List.elem_iff.1 hc
      rcases List.mem_append.1 hm with h1 | h1
      · exact (hdep _ hdo).1 h1
      · exact hem _ hdo h1
    rw [hnot, hdp] at h
    simp at h
  intro fuel
  induction fuel with
  | zero =>
    intro emitted remaining hinv
    unfold plan_order
    rw [hrem remaining (fun x hx => (hinv x hx).1)]
    rfl
  | succ fuel ih =>
    intro emitted remaining hinv
    unfold plan_order
    cases hf : remaining.find? (is_ready dependencies (installed ++ emitted)) with
    | none =>
      simp only
      rw [hrem remaining (fun x hx => (hinv x hx).1)]
      rfl
    | some p =>
      simp only
      have hp : is_ready dependencies (installed ++ emitted) p = true := List.find?_some hf
      have hpc : p ∉ cycle := by
        intro hm
        rw [hready emitted (fun x hx => (hinv x hx).2) p hm] at hp
        cases hp
      apply ih
      intro x hx
      have hxp : x ≠ p := fun e => hpc (e ▸ hx)
      refine ⟨(List.mem_erase_of_ne hxp).2 (hinv x hx).1, ?_⟩
      intro hm
      rcases List.mem_append.1 hm with h1 | h1
      · exact (hinv x hx).2 h1
      · exact hxp (List.mem_singleton.1 h1)

/-- C13, as stated, fails: the dependencies t1 Depends t3, t3 Depends t2,
t2 Depends t1 of `depends_with_simple_packages` are all ordinary Depends, the
planner of the specification accepts the request and emits t1, t2, t3 with
status 0, and the test, which expects status 1 and none of the three packages
installed, fails on it. -/
theorem depends_cycle_counterexample :
    circular_dependencies.all (fun d => !d.pre_depends) = true
    ∧ install_request_spec circular_dependencies [] circular_request
        = (0, ["t1", "t2", "t3"])
    ∧ depends_with_simple_packages_cycle install_request_spec = false := by
  decide

/-- C13 (amended). A request whose packages hold a dependency cycle, made of
ordinary Depends or of Pre-Depends, is rejected: when every package of `cycle`
is requested, is not installed and depends on a package of `cycle`, the planner
finds no order and the install exits with status 1 without installing
anything. -/
theorem dependency_cycle_fatal (dependencies : List dependency)
    (installed request cycle : List String)
    (hne : cycle.isEmpty = false)
    (hcycle : cycle.all (fun x => request.contains x && !installed.contains x
      && dependencies.any (fun d => d.package == x && cycle.contains d.depends_on)) = true) :
    plan dependencies installed request = none
    ∧ install_request dependencies installed request = (1, installed) := by
  have hne' : cycle ≠ [] := by
    intro e
    subst e
    cases hne
  rw [List.all_eq_true] at hcycle
  have hplan : plan dependencies installed request = none := by
    unfold plan
    apply plan_order_cycle dependencies installed cycle hne'
    · intro x hx
      have h := hcycle x hx
      simp only [Bool.and_eq_true, Bool.not_eq_true', List.any_eq_true, beq_iff_eq] at h
      obtain ⟨⟨_, hni⟩, d, hd, hdp, hdo⟩ := h
      refine ⟨?_, d, hd, hdp, List.elem_iff.1 hdo⟩
      intro hm
      have hc : installed.contains x = true := List.elem_iff.2 hm
      rw [hni] at hc
      cases hc
    · intro x hx
      have h := hcycle x hx
      simp only [Bool.and_eq_true] at h
      exact ⟨List.elem_iff.1 h.1.1, List.not_mem_nil _⟩
  refine ⟨hplan, ?_⟩
  unfold install_request
  rw [hplan]

/-- Witness for the amended C13: the cycle t1, t3, t2 of the test, on which the
checks of the test pass, and the order of a request without a cycle (t3 Depends
t2), in which t2 comes first. -/
theorem dependency_cycle_fatal_witness :
    install_request circular_dependencies [] circular_request = (1, [])
    ∧ depends_with_simple_packages_cycle install_request = true
    ∧ plan [⟨"t3", "t2", false⟩] [] ["t3", "t2"] = some ["t2", "t3"] :=
  ⟨(dependency_cycle_fatal circular_dependencies [] circular_request ["t1", "t3", "t2"]
      (by decide) (by decide)).2, by decide, by decide⟩

/-! ### The selection `hold` -/

theorem apply_item_version (db : List installed_package) (item : plan_item) (n v : String)
    (hitem : item.name = n → item.version = v)
    (hdb : ∀ q ∈ db, q.name = n → q.version = v) :
    ∀ q ∈ apply_item db item, q.name = n → q.version = v := by
  intro q hq hn
  unfold apply_item at hq
  split at hq
  · rw [List.mem_map] at hq
    obtain ⟨p, hp, hpq⟩ := hq
    by_cases hpn : p.name = item.name
    · rw [if_pos hpn] at hpq
      subst hpq
      simp only at hn ⊢
      exact hitem (hpn ▸ hn)
    · rw [if_neg hpn] at hpq
      subst hpq
      exact hdb p hp hn
  · rcases List.mem_append.1 hq with h | h
    · exact hdb q h hn
    · rw [List.mem_singleton.1 h] at hn ⊢
      exact hitem hn

theorem foldl_apply_item_version (n v : String) : ∀ (plan : List plan_item)
    (db : List installed_package),
    (∀ item ∈ plan, item.name = n → item.version = v) →
    (∀ q ∈ db, q.name = n → q.version = v) →
    ∀ q ∈ plan.foldl apply_item db, q.name = n → q.version = v
  | [], _, _, hdb => hdb
  | item :: plan, db, hplan, hdb => by
    rw [List.foldl_cons]
    exact foldl_apply_item_version n v plan (apply_item db item)
      (fun i hi => hplan i (List.mem_cons_of_mem _ hi))
      (apply_item_version db item n v (hplan item (List.mem_cons_self _ _)) hdb)

theorem hold_violation_of_held {db : List installed_package} {p : installed_package}
    {force_hold : Bool} {item : plan_item} (hp : p ∈ db) (hheld : p.selection = selection_t.hold)
    (hname : item.name = p.name) (hversion : item.version ≠ p.version)
    (hforce : (item.explicit && force_hold) = false) :
    hold_violation db force_hold item = true := by
  unfold hold_violation
  rw [List.any_eq_true]
  refine ⟨p, hp, ?_⟩
  simp only [Bool.and_eq_true, beq_iff_eq, decide_eq_true_eq, bne_iff_ne, ne_eq,
    Bool.not_eq_true']
  exact ⟨⟨⟨hname.symm, hheld⟩, fun e => hversion e.symm⟩, hforce⟩

/-- C14. For an installed package `p` whose selection is `hold`, an install
whose plan has a unit that changes the version of `p` is rejected with status 1
and leaves the database, hence the installed files, unchanged, whether the unit
is named by the request (without `--force-hold`) or pulled in as a dependency
(with or without `--force-hold`); after an install the version of `p` is
changed only if the request names `p` itself and `--force-hold` is given. -/
theorem hold_forbids_version_change (db : List installed_package) (p : installed_package)
    (force_hold : Bool) (plan : List plan_item)
    (hp : p ∈ db) (hheld : p.selection = selection_t.hold)
    (hunique : ∀ q ∈ db, q.name = p.name → q.version = p.version) :
    (∀ item ∈ plan, item.name = p.name → item.version ≠ p.version →
        (item.explicit && force_hold) = false →
        install_plan db force_hold plan = (1, db))
    ∧ ((∃ q ∈ (install_plan db force_hold plan).2, q.name = p.name ∧ q.version ≠ p.version) →
        force_hold = true
        ∧ ∃ item ∈ plan, item.name = p.name ∧ item.version ≠ p.version
            ∧ item.explicit = true) := by
  constructor
  · intro item hi hn hv hf
    unfold install_plan
    have : plan.any (hold_violation db force_hold) = true := by
      rw [List.any_eq_true]
      exact ⟨item, hi, hold_violation_of_held hp hheld hn hv hf⟩
    rw [if_pos this]
  · rintro ⟨q, hq, hqn, hqv⟩
    by_contra hcon
    have hall : ∀ item ∈ plan, item.name = p.name → item.version ≠ p.version →
        (item.explicit && force_hold) = false := by
      intro item hi hn hv
      rw [Bool.eq_false_iff]
      intro hef
      rw [Bool.and_eq_true] at hef
      exact hcon ⟨hef.2, item, hi, hn, hv, hef.1⟩
    unfold install_plan at hq
    by_cases hany : plan.any (hold_violation db force_hold) = true
    · rw [if_pos hany] at hq
      exact hqv (hunique q hq hqn)
    · rw [if_neg hany] at hq
      have hitems : ∀ item ∈ plan, item.name = p.name → item.version = p.version := by
        intro item hi hn
        by_contra hv
        apply hany
        rw [List.any_eq_true]
        exact ⟨item, hi, hold_violation_of_held hp hheld hn hv (hall item hi hn hv)⟩
      exact hqv (foldl_apply_item_version p.name p.version plan db hitems hunique q hq hqn)

/-- Witness for C14, the installs of `test_hold`: `held` 1.5 by name, `friend`
pulling `held` 1.5 in without and with `--force-hold`, all three rejected with
the database unchanged, then `held` 1.5 by name with `--force-hold`. -/
theorem hold_forbids_version_change_witness :
    install_plan test_hold_db false [held_15 true] = (1, test_hold_db)
    ∧ install_plan test_hold_db false [friend_10, held_15 false] = (1, test_hold_db)
    ∧ install_plan test_hold_db true [friend_10, held_15 false] = (1, test_hold_db)
    ∧ (install_plan test_hold_db true [held_15 true]).1 = 0
    ∧ (install_plan test_hold_db true [held_15 true]).2.map (fun q => (q.name, q.version))
        = [("held", "1.5")] :=
  ⟨(hold_forbids_version_change test_hold_db held_10 false [held_15 true]
      (by decide) (by decide) (by decide)).1 (held_15 true) (by decide) (by decide)
      (by decide) (by decide),
   (hold_forbids_version_change test_hold_db held_10 false
      [friend_10, held_15 false] (by decide) (by decide) (by decide)).1 (held_15 false)
      (by decide) (by decide) (by decide) (by decide),
   (hold_forbids_version_change test_hold_db held_10 true
      [friend_10, held_15 false] (by decide) (by decide) (by decide)).1 (held_15 false)
      (by decide) (by decide) (by decide) (by decide),
   by decide, by decide⟩

/-! ### The package history -/

/-- C15. `Back` and `Forward` are mutually inverse on the state (back stack,
current package, forward stack): on a state with a non-empty back stack
`Forward` after `Back` yields the original state, on a state with a non-empty
forward stack `Back` after `Forward` yields the original state, and `Back` on an
empty back stack and `Forward` on an empty forward stack leave the state
unchanged. -/
theorem back_forward_inverse (w : WebForm) :
    (w.f_backStack ≠ [] → w.Back.Forward = w)
    ∧ (w.f_fwdStack ≠ [] → w.Forward.Back = w)
    ∧ (w.f_backStack = [] → w.Back = w)
    ∧ (w.f_fwdStack = [] → w.Forward = w) := by
  obtain ⟨back, current, fwd⟩ := w
  refine ⟨?_, ?_, ?_, ?_⟩
  · intro h
    cases back with
    | nil => exact absurd rfl h
    | cons b bs => rfl
  · intro h
    cases fwd with
    | nil => exact absurd rfl h
    | cons f fs => rfl
  · intro h
    simp only at h
    subst h
    rfl
  · intro h
    simp only at h
    subst h
    rfl

/-- Witness for C15: from the history `a` (back), `b` (current), `c` (forward). -/
theorem back_forward_inverse_witness :
    (WebForm.mk [['a']] ['b'] [['c']]).Back.Forward = WebForm.mk [['a']] ['b'] [['c']]
    ∧ (WebForm.mk [['a']] ['b'] [['c']]).Forward.Back = WebForm.mk [['a']] ['b'] [['c']]
    ∧ (WebForm.mk [] ['b'] []).Back = WebForm.mk [] ['b'] []
    ∧ (WebForm.mk [] ['b'] []).Forward = WebForm.mk [] ['b'] [] :=
  ⟨(back_forward_inverse (WebForm.mk [['a']] ['b'] [['c']])).1 (by decide),
   (back_forward_inverse (WebForm.mk [['a']] ['b'] [['c']])).2.1 (by decide),
   (back_forward_inverse (WebForm.mk [] ['b'] [])).2.2.1 rfl,
   (back_forward_inverse (WebForm.mk [] ['b'] [])).2.2.2 rfl⟩

/-- C16. `DisplayPackage(p)` makes `p` the current package, empties the forward
stack, and pushes the previous current package on top of the back stack if and
only if that name was not empty, the earlier entries of the back stack being
kept; the `StackStatus` it emits reports the forward stack as empty.
`ClearHistory` empties both stacks and leaves the current package unchanged. -/
theorem display_package_effect (w : WebForm) (p : List Char) :
    (w.DisplayPackage p).f_currentPackage = p
    ∧ (w.DisplayPackage p).f_fwdStack = []
    ∧ (w.f_currentPackage ≠ [] →
        (w.DisplayPackage p).f_backStack = w.f_currentPackage :: w.f_backStack)
    ∧ (w.f_currentPackage = [] → (w.DisplayPackage p).f_backStack = w.f_backStack)
    ∧ (w.DisplayPackage p).StackStatus.2 = true
    ∧ w.ClearHistory.f_backStack = []
    ∧ w.ClearHistory.f_fwdStack = []
    ∧ w.ClearHistory.f_currentPackage = w.f_currentPackage := by
  refine ⟨rfl, rfl, ?_, ?_, rfl, rfl, rfl, rfl⟩
  · intro h
    simp only [WebForm.DisplayPackage, h, ne_eq, not_false_eq_true, if_true]
  · intro h
    simp only [WebForm.DisplayPackage, h, ne_eq, not_true_eq_false, if_false]

/-- Witness for C16: displaying `c` from the history `a` (back), `b` (current),
and from the same history without a current package. -/
theorem display_package_effect_witness :
    ((WebForm.mk [['a']] ['b'] [['z']]).DisplayPackage ['c']).f_backStack = [['b'], ['a']]
    ∧ ((WebForm.mk [['a']] [] [['z']]).DisplayPackage ['c']).f_backStack = [['a']] :=
  ⟨(display_package_effect (WebForm.mk [['a']] ['b'] [['z']]) ['c']).2.2.1 (by decide),
   (display_package_effect (WebForm.mk [['a']] [] [['z']]) ['c']).2.2.2.1 rfl⟩

/-- The invariant of the history: no empty name in a stack, and an empty current
package only with two empty stacks. -/
theorem invariant_kept_call (w : WebForm) (c : history_call) (hc : c.named = true)
    (h : [] ∉ w.f_backStack ∧ [] ∉ w.f_fwdStack
      ∧ (w.f_currentPackage = [] → w.f_backStack = [] ∧ w.f_fwdStack = [])) :
    [] ∉ (w.call c).f_backStack ∧ [] ∉ (w.call c).f_fwdStack
      ∧ ((w.call c).f_currentPackage = [] →
          (w.call c).f_backStack = [] ∧ (w.call c).f_fwdStack = []) := by
  obtain ⟨back, current, fwd⟩ := w
  obtain ⟨hb, hf, hcur⟩ := h
  simp only at hb hf hcur
  cases c with
  | display p =>
    have hp : p ≠ [] := by
      intro e
      subst e
      cases hc
    simp only [WebForm.call, WebForm.DisplayPackage]
    refine ⟨?_, List.not_mem_nil _, fun e => absurd e hp⟩
    by_cases hcn : current = []
    · simp only [hcn, ne_eq, not_true_eq_false, if_false]
      exact hb
    · simp only [hcn, ne_eq, not_false_eq_true, if_true, List.mem_cons, not_or]
      exact ⟨fun e => hcn e.symm, hb⟩
  | back =>
    cases back with
    | nil => exact ⟨hb, hf, hcur⟩
    | cons b bs =>
      have hcn : current ≠ [] := fun e => List.cons_ne_nil _ _ (hcur e).1
      have hbn : b ≠ [] := fun e => hb (by rw [e]; exact List.mem_cons_self _ _)
      simp only [WebForm.call, WebForm.Back, List.mem_cons, not_or]
      exact ⟨fun hm => hb (List.mem_cons_of_mem _ hm), ⟨fun e => hcn e.symm, hf⟩,
        fun e => absurd e hbn⟩
  | forward =>
    cases fwd with
    | nil => exact ⟨hb, hf, hcur⟩
    | cons f fs =>
      have hcn : current ≠ [] := fun e => List.cons_ne_nil _ _ (hcur e).2
      have hfn : f ≠ [] := fun e => hf (by rw [e]; exact List.mem_cons_self _ _)
      simp only [WebForm.call, WebForm.Forward, List.mem_cons, not_or]
      exact ⟨⟨fun e => hcn e.symm, hb⟩, fun hm => hf (List.mem_cons_of_mem _ hm),
        fun e => absurd e hfn⟩
  | clear =>
    exact ⟨List.not_mem_nil _, List.not_mem_nil _, fun _ => ⟨rfl, rfl⟩⟩

theorem invariant_kept_foldl (calls : List history_call) :
    ∀ w : WebForm, calls.all history_call.named = true →
      ([] ∉ w.f_backStack ∧ [] ∉ w.f_fwdStack
        ∧ (w.f_currentPackage = [] → w.f_backStack = [] ∧ w.f_fwdStack = [])) →
      [] ∉ (calls.foldl WebForm.call w).f_backStack
        ∧ [] ∉ (calls.foldl WebForm.call w).f_fwdStack
        ∧ ((calls.foldl WebForm.call w).f_currentPackage = [] →
            (calls.foldl WebForm.call w).f_backStack = []
              ∧ (calls.foldl WebForm.call w).f_fwdStack = []) := by
  induction calls with
  | nil => intro w _ h; exact h
  | cons c cs ih =>
    intro w hall h
    simp only [List.all_cons, Bool.and_eq_true] at hall
    rw [List.foldl_cons]
    exact ih (w.call c) hall.2 (invariant_kept_call w c hall.1 h)

/-- A non-empty current package stays non-empty through a call, on a state
that satisfies the invariant of the history. -/
theorem current_stays_call (w : WebForm) (c : history_call) (hc : c.named = true)
    (h : [] ∉ w.f_backStack ∧ [] ∉ w.f_fwdStack) (hcur : w.f_currentPackage ≠ []) :
    (w.call c).f_currentPackage ≠ [] := by
  obtain ⟨back, current, fwd⟩ := w
  obtain ⟨hb, hf⟩ := h
  simp only at hb hf hcur
  cases c with
  | display p =>
    intro e
    have e' : p = [] := e
    subst e'
    cases hc
  | back =>
    cases back with
    | nil => exact hcur
    | cons b bs =>
      intro e
      have e' : b = [] := e
      exact hb (by rw [e']; exact List.mem_cons_self _ _)
  | forward =>
    cases fwd with
    | nil => exact hcur
    | cons f fs =>
      intro e
      have e' : f = [] := e
      exact hf (by rw [e']; exact List.mem_cons_self _ _)
  | clear => exact hcur

theorem current_stays_foldl (calls : List history_call) :
    ∀ w : WebForm, calls.all history_call.named = true →
      ([] ∉ w.f_backStack ∧ [] ∉ w.f_fwdStack
        ∧ (w.f_currentPackage = [] → w.f_backStack = [] ∧ w.f_fwdStack = [])) →
      (w.f_currentPackage ≠ [] ∨ calls.any history_call.is_display = true) →
      (calls.foldl WebForm.call w).f_currentPackage ≠ [] := by
  induction calls with
  | nil =>
    intro w _ _ h
    rcases h with h | h
    · exact h
    · cases h
  | cons c cs ih =>
    intro w hall hinv h
    simp only [List.all_cons, Bool.and_eq_true] at hall
    rw [List.foldl_cons]
    have hinv' := invariant_kept_call w c hall.1 hinv
    apply ih (w.call c) hall.2 hinv'
    rcases h with h | h
    · exact Or.inl (current_stays_call w c hall.1 ⟨hinv.1, hinv.2.1⟩ h)
    · simp only [List.any_cons, Bool.or_eq_true] at h
      rcases h with h | h
      · left
        cases c with
        | display p =>
          intro e
          have e' : p = [] := e
          subst e'
          cases hall.1
        | back => cases h
        | forward => cases h
        | clear => cases h
      · exact Or.inr h

/-- C17. Starting from the initial state, after any sequence of `DisplayPackage`
calls with non-empty names, `Back`, `Forward` and `ClearHistory`, neither
history stack contains an empty package name, and the current package is empty
only if both stacks are empty; once a package has been displayed the current
package is never empty again, in particular not after `Back` or `Forward`. -/
theorem history_invariant (calls : List history_call)
    (hnamed : calls.all history_call.named = true) :
    [] ∉ (WebForm.run calls).f_backStack
    ∧ [] ∉ (WebForm.run calls).f_fwdStack
    ∧ ((WebForm.run calls).f_currentPackage = [] →
        (WebForm.run calls).f_backStack = [] ∧ (WebForm.run calls).f_fwdStack = [])
    ∧ (calls.any history_call.is_display = true →
        (WebForm.run calls).f_currentPackage ≠ []
        ∧ (WebForm.run calls).Back.f_currentPackage ≠ []
        ∧ (WebForm.run calls).Forward.f_currentPackage ≠ []) := by
  have hinit : [] ∉ WebForm.init.f_backStack ∧ [] ∉ WebForm.init.f_fwdStack
      ∧ (WebForm.init.f_currentPackage = [] →
          WebForm.init.f_backStack = [] ∧ WebForm.init.f_fwdStack = []) :=
    ⟨List.not_mem_nil _, List.not_mem_nil _, fun _ => ⟨rfl, rfl⟩⟩
  have hinv := invariant_kept_foldl calls WebForm.init hnamed hinit
  refine ⟨hinv.1, hinv.2.1, hinv.2.2, ?_⟩
  intro hd
  have hcur := current_stays_foldl calls WebForm.init hnamed hinit (Or.inr hd)
  exact ⟨hcur,
    current_stays_call _ history_call.back rfl ⟨hinv.1, hinv.2.1⟩ hcur,
    current_stays_call _ history_call.forward rfl ⟨hinv.1, hinv.2.1⟩ hcur⟩

/-- Witness for C17: display `a`, display `b`, back, clear the history, forward. -/
theorem history_invariant_witness :
    [history_call.display ['a'], history_call.display ['b'], history_call.back,
        history_call.clear, history_call.forward].all history_call.named = true
    ∧ (WebForm.run [history_call.display ['a'], history_call.display ['b'],
        history_call.back, history_call.clear, history_call.forward]).f_currentPackage ≠ [] :=
  ⟨by decide,
   ((history_invariant [history_call.display ['a'], history_call.display ['b'],
      history_call.back, history_call.clear, history_call.forward] (by decide)).2.2.2
        (by decide)).1⟩

/-! ### `find` and `replace` -/

theorem find_unfold (s pattern : List Char) :
    find s pattern
      = if pattern.isPrefixOf s then some 0
        else match s with
          | [] => none
          | _ :: cs => (find cs pattern).map (· + 1) := by
  cases s <;> rfl

theorem find_isSome_iff : ∀ s pattern : List Char,
    (find s pattern).isSome = true ↔ pattern <:+: s
  | [], pattern => by
    rw [find_unfold]
    by_cases h : pattern.isPrefixOf [] = true
    · rw [if_pos h]
      simp only [Option.isSome_some, true_iff]
      exact (List.isPrefixOf_iff_prefix.1 h).isInfix
    · rw [if_neg h]
      simp only [Option.isSome_none, Bool.false_eq_true, false_iff]
      intro hi
      apply h
      rw [List.isPrefixOf_iff_prefix]
      have : pattern = [] := List.eq_nil_of_infix_nil hi
      subst this
      exact List.prefix_rfl
  | c :: cs, pattern => by
    rw [find_unfold]
    by_cases h : pattern.isPrefixOf (c :: cs) = true
    · rw [if_pos h]
      simp only [Option.isSome_some, true_iff]
      exact (List.isPrefixOf_iff_prefix.1 h).isInfix
    · rw [if_neg h]
      simp only [Option.isSome_map']
      rw [find_isSome_iff cs pattern, List.infix_cons_iff]
      constructor
      · exact Or.inr
      · rintro (hp | hi)
        · exact absurd (List.isPrefixOf_iff_prefix.2 hp) h
        · exact hi

theorem find_eq_none_iff (s pattern : List Char) :
    find s pattern = none ↔ ¬ pattern <:+: s := by
  rw [← find_isSome_iff]
  cases find s pattern <;> simp

/-- What `find` returns is the index of an occurrence. -/
theorem find_drop : ∀ (s pattern : List Char) (i : Nat), find s pattern = some i →
    s.drop i = pattern ++ s.drop (i + pattern.length)
  | [], pattern, i, h => by
    rw [find_unfold] at h
    by_cases hp : pattern.isPrefixOf [] = true
    · rw [if_pos hp] at h
      have hi : i = 0 := (Option.some.inj h).symm
      subst hi
      have : pattern = [] := List.prefix_nil.1 (List.isPrefixOf_iff_prefix.1 hp)
      subst this
      rfl
    · rw [if_neg hp] at h
      cases h
  | c :: cs, pattern, i, h => by
    rw [find_unfold] at h
    by_cases hp : pattern.isPrefixOf (c :: cs) = true
    · rw [if_pos hp] at h
      have hi : i = 0 := (Option.some.inj h).symm
      subst hi
      obtain ⟨t, ht⟩ := List.isPrefixOf_iff_prefix.1 hp
      rw [← ht]
      simp
    · rw [if_neg hp] at h
      simp only [Option.map_eq_some'] at h
      obtain ⟨k, hk, hki⟩ := h
      subst hki
      have ih := find_drop cs pattern k hk
      have e : k + 1 + pattern.length = (k + pattern.length) + 1 := by omega
      rw [List.drop_succ_cons, e, List.drop_succ_cons]
      exact ih

theorem find_split (s pattern : List Char) (i : Nat) (h : find s pattern = some i) :
    s = s.take i ++ pattern ++ s.drop (i + pattern.length) := by
  have hd := find_drop s pattern i h
  calc s = s.take i ++ s.drop i := (List.take_append_drop i s).symm
    _ = s.take i ++ (pattern ++ s.drop (i + pattern.length)) := by rw [hd]
    _ = s.take i ++ pattern ++ s.drop (i + pattern.length) := by rw [List.append_assoc]

theorem replace_step_count {out pattern replacement next : List Char} (c : Char)
    (h : replace_step out pattern replacement = some next) :
    next.count c + pattern.count c = out.count c + replacement.count c := by
  unfold replace_step at h
  cases hf : find out pattern with
  | none => rw [hf] at h; cases h
  | some pos =>
    rw [hf] at h
    have hn : next = string_replace out pos pattern.length replacement :=
      (Option.some.inj h).symm
    have hs := find_split out pattern pos hf
    have hc := congrArg (List.count c) hs
    simp only [List.count_append] at hc
    rw [hn]
    unfold string_replace
    simp only [List.count_append]
    omega

theorem replace_step_eq_none {out pattern replacement : List Char} :
    replace_step out pattern replacement = none ↔ find out pattern = none := by
  unfold replace_step
  cases find out pattern <;> simp

/-- With enough fuel the loop of `replace` exits, after at most as many turns
as the string has `@`, when each turn takes at least one `@` away. -/
theorem replace_terminates (pattern replacement : List Char)
    (hp : 0 < pattern.count '@') (hr : replacement.count '@' = 0) :
    ∀ (fuel : Nat) (out : List Char), out.count '@' < fuel →
      ∃ result turns, replace fuel out pattern replacement = some (result, turns)
        ∧ turns ≤ out.count '@' ∧ find result pattern = none
  | 0, out, h => absurd h (Nat.not_lt_zero _)
  | fuel + 1, out, h => by
    unfold replace
    cases hs : replace_step out pattern replacement with
    | none => exact ⟨out, 0, rfl, Nat.zero_le _, replace_step_eq_none.1 hs⟩
    | some next =>
      have hc := replace_step_count '@' hs
      have hlt : next.count '@' < fuel := by omega
      obtain ⟨result, turns, hrun, hturns, hnone⟩ :=
        replace_terminates pattern replacement hp hr fuel next hlt
      refine ⟨result, turns + 1, ?_, by omega, hnone⟩
      simp only [hrun]

theorem replace_unchanged (fuel : Nat) (out pattern replacement : List Char)
    (h : find out pattern = none) :
    replace (fuel + 1) out pattern replacement = some (out, 0) := by
  unfold replace
  rw [replace_step_eq_none.2 h]

theorem count_pos_of_contains {l : List Char} {c : Char} (h : l.contains c = true) :
    0 < l.count c := by
  rw [List.count_pos_iff]
  exact List.elem_iff.1 h

theorem count_zero_of_not_contains {l : List Char} {c : Char} (h : l.contains c = false) :
    l.count c = 0 := by
  rw [List.count_eq_zero]
  intro hm
  have h2 : l.contains c = true := List.elem_iff.2 hm
  rw [h] at h2
  cases h2

/-- C19. For every string, every pattern that contains `@` and every replacement
that contains no `@`, `replace` terminates after at most as many turns of its
loop as the string has `@` characters (whatever the fuel beyond that number),
and the resulting string contains no occurrence of the pattern; a string without
an occurrence of the pattern is returned unchanged. -/
theorem replace_marker_terminates (out pattern replacement : List Char) (extra : Nat)
    (hp : pattern.contains '@' = true) (hr : replacement.contains '@' = false) :
    (∃ result turns,
        replace (out.count '@' + 1 + extra) out pattern replacement = some (result, turns)
        ∧ turns ≤ out.count '@'
        ∧ ¬ pattern <:+: result)
    ∧ (¬ pattern <:+: out →
        replace (out.count '@' + 1 + extra) out pattern replacement = some (out, 0)) := by
  constructor
  · obtain ⟨result, turns, hrun, hturns, hnone⟩ :=
      replace_terminates pattern replacement (count_pos_of_contains hp)
        (count_zero_of_not_contains hr) (out.count '@' + 1 + extra) out (by omega)
    exact ⟨result, turns, hrun, hturns, (find_eq_none_iff _ _).1 hnone⟩
  · intro h
    have e : out.count '@' + 1 + extra = (out.count '@' + extra) + 1 := by omega
    rw [e]
    exact replace_unchanged _ out pattern replacement ((find_eq_none_iff _ _).2 h)

/-- Witness for C19: two occurrences of `@VERSION@` replaced with `1.0`. -/
theorem replace_marker_terminates_witness :
    "@VERSION@".toList.contains '@' = true ∧ "1.0".toList.contains '@' = false
    ∧ replace 5 "v@VERSION@ (@VERSION@)".toList "@VERSION@".toList "1.0".toList
        = some ("v1.0 (1.0)".toList, 2)
    ∧ ∃ result turns,
        replace ("v@VERSION@ (@VERSION@)".toList.count '@' + 1 + 0)
          "v@VERSION@ (@VERSION@)".toList "@VERSION@".toList "1.0".toList
          = some (result, turns)
        ∧ turns ≤ "v@VERSION@ (@VERSION@)".toList.count '@'
        ∧ ¬ "@VERSION@".toList <:+: result :=
  ⟨by decide, by decide, by decide,
   (replace_marker_terminates "v@VERSION@ (@VERSION@)".toList "@VERSION@".toList
      "1.0".toList 0 (by decide) (by decide)).1⟩

theorem find_nil_pattern (s : List Char) : find s [] = some 0 := by
  rw [find_unfold]
  cases s <;> rfl

theorem find_string_replace_isSome (out pattern replacement : List Char) (pos len : Nat)
    (h : (find replacement pattern).isSome = true ∨ pattern = []) :
    (find (string_replace out pos len replacement) pattern).isSome = true := by
  rcases h with h | h
  · rw [find_isSome_iff] at h ⊢
    unfold string_replace
    exact h.trans (List.infix_append _ _ _)
  · subst h
    rw [find_nil_pattern]
    rfl

theorem replace_step_isSome {out pattern : List Char} (replacement : List Char)
    (h : (find out pattern).isSome = true) :
    ∃ pos, find out pattern = some pos
      ∧ replace_step out pattern replacement
        = some (string_replace out pos pattern.length replacement) := by
  unfold replace_step
  cases hf : find out pattern with
  | none => rw [hf] at h; cases h
  | some pos => exact ⟨pos, rfl, rfl⟩

theorem replace_iterate_never_exits (pattern replacement : List Char)
    (h : (find replacement pattern).isSome = true ∨ pattern = []) :
    ∀ (n : Nat) (out : List Char), (find out pattern).isSome = true →
      ∃ s, replace_iterate pattern replacement n out = some s
        ∧ (find s pattern).isSome = true
  | 0, out, ho => ⟨out, rfl, ho⟩
  | n + 1, out, ho => by
    obtain ⟨pos, _, hstep⟩ := replace_step_isSome replacement ho
    unfold replace_iterate
    rw [hstep]
    exact replace_iterate_never_exits pattern replacement h n _
      (find_string_replace_isSome out pattern replacement pos _ h)

theorem replace_never_returns (pattern replacement : List Char)
    (h : (find replacement pattern).isSome = true ∨ pattern = []) :
    ∀ (fuel : Nat) (out : List Char), (find out pattern).isSome = true →
      replace fuel out pattern replacement = none
  | 0, _, _ => rfl
  | fuel + 1, out, ho => by
    obtain ⟨pos, _, hstep⟩ := replace_step_isSome replacement ho
    unfold replace
    rw [hstep]
    simp only [replace_never_returns pattern replacement h fuel _
      (find_string_replace_isSome out pattern replacement pos _ h)]

/-- C20. If the string contains the pattern and the replacement itself contains
the pattern, or if the pattern is empty, the loop of `replace` never exits:
after any number of turns the loop is still running on a string that contains
an occurrence of the pattern, and `replace` returns for no amount of fuel. -/
theorem replace_loops_forever (out pattern replacement : List Char)
    (h : ((find out pattern).isSome && (find replacement pattern).isSome
      || pattern.isEmpty) = true) :
    (∀ n, ∃ s, replace_iterate pattern replacement n out = some s ∧ pattern <:+: s)
    ∧ (∀ fuel, replace fuel out pattern replacement = none) := by
  have hrep : (find replacement pattern).isSome = true ∨ pattern = [] := by
    simp only [Bool.or_eq_true, Bool.and_eq_true, List.isEmpty_iff] at h
    rcases h with h | h
    · exact Or.inl h.2
    · exact Or.inr h
  have hout : (find out pattern).isSome = true := by
    simp only [Bool.or_eq_true, Bool.and_eq_true, List.isEmpty_iff] at h
    rcases h with h | h
    · exact h.1
    · subst h
      rw [find_nil_pattern]
      rfl
  constructor
  · intro n
    obtain ⟨s, hs, hfound⟩ := replace_iterate_never_exits pattern replacement hrep n out hout
    exact ⟨s, hs, (find_isSome_iff _ _).1 hfound⟩
  · intro fuel
    exact replace_never_returns pattern replacement hrep fuel out hout

/-- Witness for C20: a Maintainer field whose text contains `@MAINTAINER@`; after
three turns the marker is still there and `replace` has not returned. -/
theorem replace_loops_forever_witness :
    ((find "<td>@MAINTAINER@</td>".toList "@MAINTAINER@".toList).isSome
        && (find "x@MAINTAINER@".toList "@MAINTAINER@".toList).isSome
        || "@MAINTAINER@".toList.isEmpty) = true
    ∧ replace_iterate "@MAINTAINER@".toList "x@MAINTAINER@".toList 3
        "<td>@MAINTAINER@</td>".toList = some "<td>xxx@MAINTAINER@</td>".toList
    ∧ replace 3 "<td>@MAINTAINER@</td>".toList "@MAINTAINER@".toList
        "x@MAINTAINER@".toList = none :=
  ⟨by decide, by decide,
   (replace_loops_forever "<td>@MAINTAINER@</td>".toList "@MAINTAINER@".toList
      "x@MAINTAINER@".toList (by decide)).2 3⟩

/-! ### The template of `GeneratePackageHtml` -/

theorem size_sub_of_le {a b : Nat} (hab : b ≤ a) (ha : a < 2 ^ 64) : size_sub a b = a - b := by
  unfold size_sub
  have hb : b % 2 ^ 64 = b := Nat.mod_eq_of_lt (by omega)
  rw [hb]
  have e : a + 2 ^ 64 - b = (a - b) + 2 ^ 64 := by omega
  rw [e, Nat.add_mod_right]
  exact Nat.mod_eq_of_lt (by omega)

theorem find_if_le (long_opt short_opt : String) :
    ∀ vect : List String, find_if vect long_opt short_opt ≤ vect.length
  | [] => Nat.le_refl _
  | arg :: rest => by
    unfold find_if
    split
    · exact Nat.zero_le _
    · simp only [List.length_cons]
      exact Nat.succ_le_succ (find_if_le long_opt short_opt rest)

theorem find_if_of_none (long_opt short_opt : String) :
    ∀ vect : List String,
      vect.all (fun arg => arg != long_opt && arg != short_opt) = true →
      find_if vect long_opt short_opt = vect.length
  | [], _ => rfl
  | arg :: rest, h => by
    rw [List.all_cons, Bool.and_eq_true] at h
    have harg : (arg == long_opt || arg == short_opt) = false := by
      have h1 := h.1
      simp only [Bool.and_eq_true, bne_iff_ne, ne_eq] at h1
      simp [h1.1, h1.2]
    unfold find_if
    rw [harg]
    simp only [Bool.false_eq_true, if_false, List.length_cons]
    rw [find_if_of_none long_opt short_opt rest h.2]

theorem find_if_of_first (long_opt short_opt : String) :
    ∀ (vect : List String) (i : Nat) (arg : String),
      (vect.take i).all (fun arg => arg != long_opt && arg != short_opt) = true →
      vect[i]? = some arg → (arg == long_opt || arg == short_opt) = true →
      find_if vect long_opt short_opt = i
  | [], i, arg, _, hget, _ => by simp at hget
  | a :: rest, 0, arg, _, hget, harg => by
    simp only [List.getElem?_cons_zero, Option.some.injEq] at hget
    subst hget
    unfold find_if
    rw [harg]
    rfl
  | a :: rest, i + 1, arg, hbefore, hget, harg => by
    rw [List.take_succ_cons, List.all_cons, Bool.and_eq_true] at hbefore
    have ha : (a == long_opt || a == short_opt) = false := by
      have h1 := hbefore.1
      simp only [Bool.and_eq_true, bne_iff_ne, ne_eq] at h1
      simp [h1.1, h1.2]
    rw [List.getElem?_cons_succ] at hget
    unfold find_if
    rw [ha]
    simp only [Bool.false_eq_true, if_false]
    rw [find_if_of_first long_opt short_opt rest i arg hbefore.2 hget harg]

theorem eraseIdx_eraseIdx_succ (vect : List String) (i : Nat) :
    (vect.eraseIdx (i + 1)).eraseIdx i = vect.take i ++ vect.drop (i + 2) := by
  induction vect generalizing i with
  | nil => simp
  | cons a rest ih =>
    cases i with
    | zero =>
      cases rest with
      | nil => rfl
      | cons b rest => rfl
    | succ i =>
      simp only [List.eraseIdx_cons_succ, List.take_succ_cons, List.drop_succ_cons,
        List.cons_append]
      rw [ih]

/-- C27. `remove_from_args` leaves the vector unchanged when no argument equals
`long_opt` or `short_opt`. Otherwise, with `i` the least index of such an
argument: when `i` is not the last index, the result is the vector without its
elements at `i` and `i + 1`, the other elements kept in their order, and is
shorter by 2; when `i` is the last index, the first `erase` is called at
`end()`, outside the vector. -/
theorem remove_from_args_erases_pair (vect : List String) (long_opt short_opt : String) :
    (vect.all (fun arg => arg != long_opt && arg != short_opt) = true →
      remove_from_args vect long_opt short_opt = some vect)
    ∧ ∀ (i : Nat) (arg : String),
        (vect.take i).all (fun arg => arg != long_opt && arg != short_opt) = true →
        vect[i]? = some arg → (arg == long_opt || arg == short_opt) = true →
        (i + 1 < vect.length →
          remove_from_args vect long_opt short_opt = some (vect.take i ++ vect.drop (i + 2))
          ∧ (vect.take i ++ vect.drop (i + 2)).length + 2 = vect.length)
        ∧ (i + 1 = vect.length →
          vector_erase vect (i + 1) = none
          ∧ remove_from_args vect long_opt short_opt = none) := by
  constructor
  · intro h
    unfold remove_from_args
    simp only [find_if_of_none long_opt short_opt vect h, bne_self_eq_false,
      Bool.false_eq_true, if_false]
  · intro i arg hbefore hget harg
    have hfind := find_if_of_first long_opt short_opt vect i arg hbefore hget harg
    have hi : i < vect.length := by
      rcases Nat.lt_or_ge i vect.length with h | h
      · exact h
      · rw [List.getElem?_eq_none h] at hget
        cases hget
    have hne : (i != vect.length) = true := by
      rw [bne_iff_ne]
      omega
    constructor
    · intro hlast
      constructor
      · unfold remove_from_args
        simp only [hfind, hne, if_true]
        unfold vector_erase
        rw [if_pos hlast]
        simp only
        have hlen : i < (vect.eraseIdx (i + 1)).length := by
          rw [List.length_eraseIdx]
          simp only [hlast, if_true]
          omega
        rw [if_pos hlen, eraseIdx_eraseIdx_succ]
      · simp only [List.length_append, List.length_take, List.length_drop]
        omega
    · intro hlast
      have herase : vector_erase vect (i + 1) = none := by
        unfold vector_erase
        rw [if_neg (by omega)]
      refine ⟨herase, ?_⟩
      unfold remove_from_args
      simp only [hfind, hne, if_true, herase]

/-- Witness for C27: `--seed 7` is removed from the arguments of the test
driver, and a `--seed` in last position makes the call erase at `end()`. -/
theorem remove_from_args_erases_pair_witness :
    remove_from_args ["test", "--seed", "7", "-t", "/tmp"] "--seed" "-s"
      = some ["test", "-t", "/tmp"]
    ∧ remove_from_args ["test", "--seed"] "--seed" "-s" = none
    ∧ remove_from_args ["test", "-t", "/tmp"] "--seed" "-s" = some ["test", "-t", "/tmp"] :=
  ⟨(((remove_from_args_erases_pair ["test", "--seed", "7", "-t", "/tmp"] "--seed" "-s").2
      1 "--seed" (by decide) (by decide) (by decide)).1 (by decide)).1,
   (((remove_from_args_erases_pair ["test", "--seed"] "--seed" "-s").2
      1 "--seed" (by decide) (by decide) (by decide)).2 (by decide)).2,
   (remove_from_args_erases_pair ["test", "-t", "/tmp"] "--seed" "-s").1 (by decide)⟩

/-! ### `generate_long_filename` -/

theorem int_wrap_of_fits {x : Int} (h0 : 0 ≤ x) (h1 : x < 2 ^ 31) : int_wrap x = x := by
  unfold int_wrap
  have h : (x + 2 ^ 31) % 2 ^ 32 = x + 2 ^ 31 :=
    Int.emod_eq_of_lt (by omega) (by omega)
  rw [h]
  omega

theorem long_filename_length (rand : Nat → Nat) (limit : Int) :
    (generate_long_filename rand limit).length
      = (int_wrap (Int.tmod (rand 0) limit + 120)).toNat := by
  unfold generate_long_filename
  simp only [List.length_map, List.length_range]

theorem long_filename_char_table : ∀ c, c < 62 →
    (long_filename_char c).toNat
      = if c < 10 then '0'.toNat + c
        else if c < 36 then 'A'.toNat + (c - 10) else 'a'.toNat + (c - 36) := by
  decide

theorem long_filename_char_alnum : ∀ c, c < 62 →
    ((long_filename_char c).isDigit || (long_filename_char c).isAlpha) = true := by
  decide

theorem long_filename_char_mod (r : Nat) :
    long_filename_char r = long_filename_char (r % 62) := by
  unfold long_filename_char
  simp only [Nat.mod_mod]

/-- C28, as stated, fails: for the limit 2147483647 and the outcome 2147483646
of `rand()` the sum `rand() % limit + 120` does not fit an `int`; wrapped, it is
negative, the loop is not entered and the string returned is empty. -/
theorem long_filename_counterexample :
    (1 : Int) ≤ 2147483647
    ∧ int_wrap (Int.tmod 2147483646 2147483647 + 120) = -2147483530
    ∧ (generate_long_filename (fun _ => 2147483646) 2147483647).length = 0
    ∧ ¬ 120 ≤ (generate_long_filename (fun _ => 2147483646) 2147483647).length := by
  decide

/-- C28 (amended). For every limit with `1 ≤ limit ≤ 2147483528`, so that
`rand() % limit + 120` fits an `int`, and every outcome of `rand()`, the length
`L` of `generate_long_filename(limit)` satisfies `120 ≤ L ≤ 119 + limit`, hence
`L ≤ 255` when `limit ≤ 136`, and its characters are ASCII digits or ASCII
letters: a draw `c` in 0..61 maps to `0`..`9` for `c < 10`, to `A`..`Z` for
`10 ≤ c < 36` and to `a`..`z` for `36 ≤ c`, and this mapping is injective. -/
theorem long_filename_bounds (rand : Nat → Nat) (limit : Int)
    (h1 : 1 ≤ limit) (h2 : limit ≤ 2147483528) :
    120 ≤ (generate_long_filename rand limit).length
    ∧ ((generate_long_filename rand limit).length : Int) ≤ 119 + limit
    ∧ (limit ≤ 136 → (generate_long_filename rand limit).length ≤ 255)
    ∧ (∀ c ∈ generate_long_filename rand limit, c.isDigit = true ∨ c.isAlpha = true)
    ∧ (∀ c, c < 10 → (long_filename_char c).toNat = '0'.toNat + c)
    ∧ (∀ c, 10 ≤ c → c < 36 → (long_filename_char c).toNat = 'A'.toNat + (c - 10))
    ∧ (∀ c, 36 ≤ c → c < 62 → (long_filename_char c).toNat = 'a'.toNat + (c - 36))
    ∧ (∀ a b, a < 62 → b < 62 → long_filename_char a = long_filename_char b → a = b) := by
  have hmod : Int.tmod (rand 0) limit = (rand 0 : Int) % limit :=
    Int.tmod_eq_emod (Int.ofNat_nonneg _) (by omega)
  have hlo : 0 ≤ (rand 0 : Int) % limit := Int.emod_nonneg _ (by omega)
  have hhi : (rand 0 : Int) % limit < limit := Int.emod_lt_of_pos _ (by omega)
  have hwrap : int_wrap (Int.tmod (rand 0) limit + 120) = (rand 0 : Int) % limit + 120 := by
    rw [hmod]
    exact int_wrap_of_fits (by omega) (by omega)
  have hlen := long_filename_length rand limit
  rw [hwrap] at hlen
  have hcast : ((generate_long_filename rand limit).length : Int)
      = (rand 0 : Int) % limit + 120 := by
    rw [hlen]
    exact Int.toNat_of_nonneg (by omega)
  refine ⟨by omega, by omega, fun h => by omega, ?_, ?_, ?_, ?_, ?_⟩
  · intro c hc
    unfold generate_long_filename at hc
    rw [List.mem_map] at hc
    obtain ⟨i, _, hi⟩ := hc
    rw [long_filename_char_mod] at hi
    have h := long_filename_char_alnum (rand (i + 1) % 62) (Nat.mod_lt _ (by decide))
    rw [hi, Bool.or_eq_true] at h
    exact h
  · intro c hc
    rw [long_filename_char_table c (by omega), if_pos hc]
  · intro c hc1 hc2
    rw [long_filename_char_table c (by omega), if_neg (by omega), if_pos hc2]
  · intro c hc1 hc2
    rw [long_filename_char_table c hc2, if_neg (by omega), if_neg (by omega)]
  · intro a b ha hb hab
    have h := congrArg Char.toNat hab
    rw [long_filename_char_table a ha, long_filename_char_table b hb] at h
    have e0 : '0'.toNat = 48 := rfl
    have e1 : 'A'.toNat = 65 := rfl
    have e2 : 'a'.toNat = 97 := rfl
    rw [e0, e1, e2] at h
    split at h <;> split at h <;> (try split at h) <;> (try split at h) <;> omega

/-- Witness for the amended C28: the limit 135 of `check_architecture_vendor2`. -/
theorem long_filename_bounds_witness :
    120 ≤ (generate_long_filename (fun k => 7 * k + 3) 135).length
    ∧ (generate_long_filename (fun k => 7 * k + 3) 135).length ≤ 255 :=
  ⟨(long_filename_bounds (fun k => 7 * k + 3) 135 (by decide) (by decide)).1,
   (long_filename_bounds (fun k => 7 * k + 3) 135 (by decide) (by decide)).2.2.1 (by decide)⟩

/-! ### The dependencies of `sorted_packages_run` -/

/-- What holds of the state after `n` turns of the creation loop. -/
theorem sorted_packages_loop_inv (max_packages : Nat) (rand : Nat → Nat) (n : Nat) :
    (∀ k, (sorted_packages.loop max_packages rand n).has_dependents k
        = ((sorted_packages.loop max_packages rand n).depends k).isSome)
    ∧ (∀ k d, (sorted_packages.loop max_packages rand n).depends k = some d →
        1 ≤ k ∧ k ≤ n ∧ d = rand k % (max_packages * 2) + 1 ∧ d ≤ max_packages ∧ d ≠ k
        ∧ (sorted_packages.loop max_packages rand (k - 1)).has_dependents d = false
        ∧ (d < k → (sorted_packages.loop max_packages rand n).depends d = none)) := by
  induction n with
  | zero =>
    constructor
    · intro k
      rfl
    · intro k d h
      cases h
  | succ n ih =>
    obtain ⟨ih1, ih2⟩ := ih
    have hloop : sorted_packages.loop max_packages rand (n + 1)
        = sorted_packages.step max_packages (sorted_packages.loop max_packages rand n) (n + 1)
            (rand (n + 1)) := rfl
    rw [hloop]
    generalize hst : sorted_packages.loop max_packages rand n = st at ih1 ih2
    unfold sorted_packages.step
    simp only
    split
    · next hcond =>
      simp only [Bool.and_eq_true, decide_eq_true_eq, bne_iff_ne, ne_eq,
        Bool.not_eq_true'] at hcond
      obtain ⟨⟨hle, hne⟩, hfree⟩ := hcond
      have hnone : st.depends (rand (n + 1) % (max_packages * 2) + 1) = none := by
        have h := ih1 (rand (n + 1) % (max_packages * 2) + 1)
        rw [hfree] at h
        cases hd : st.depends (rand (n + 1) % (max_packages * 2) + 1) with
        | none => rfl
        | some d =>
          rw [hd] at h
          cases h
      constructor
      · intro k
        by_cases hk : k = n + 1
        · simp only [hk, if_true, Option.isSome_some]
        · simp only [hk, if_false]
          exact ih1 k
      · intro k d h
        by_cases hk : k = n + 1
        · simp only [hk, if_true, Option.some.injEq] at h
          subst hk
          subst h
          refine ⟨by omega, Nat.le_refl _, rfl, hle, hne, ?_, ?_⟩
          · rw [Nat.add_sub_cancel, hst]
            exact hfree
          · intro hlt
            simp only [hne, if_false]
            exact hnone
        · simp only [hk, if_false] at h
          obtain ⟨h1, h2, h3, h4, h5, h7, h6⟩ := ih2 k d h
          refine ⟨h1, by omega, h3, h4, h5, h7, ?_⟩
          intro hlt
          have hdn : d ≠ n + 1 := by omega
          simp only [hdn, if_false]
          exact h6 hlt
    · constructor
      · exact ih1
      · intro k d h
        obtain ⟨h1, h2, h3, h4, h5, h7, h6⟩ := ih2 k d h
        exact ⟨h1, by omega, h3, h4, h5, h7, h6⟩

theorem follow_depends_isSome {depends : Nat → Option Nat} {n i j : Nat}
    (h : follow_depends depends (n + 1) i = some j) : ∃ d, depends i = some d := by
  unfold follow_depends at h
  cases hd : depends i with
  | none =>
    rw [hd] at h
    cases h
  | some d => exact ⟨d, rfl⟩

theorem follow_depends_increases {depends : Nat → Option Nat}
    (hup : ∀ k d e, depends k = some d → depends d = some e → k < d) :
    ∀ (n i j e : Nat), follow_depends depends (n + 1) i = some j → depends j = some e →
      i < j := by
  intro n
  induction n with
  | zero =>
    intro i j e h he
    unfold follow_depends at h
    cases hd : depends i with
    | none =>
      rw [hd] at h
      cases h
    | some d =>
      rw [hd] at h
      have hj : d = j := Option.some.inj h
      subst hj
      exact hup i d e hd he
  | succ n ih =>
    intro i j e h he
    unfold follow_depends at h
    cases hd : depends i with
    | none =>
      rw [hd] at h
      cases h
    | some d =>
      rw [hd] at h
      have hdj : d < j := ih d j e h he
      obtain ⟨e', he'⟩ := follow_depends_isSome h
      have hid : i < d := hup i d e' hd he'
      omega

/-- C29. In `sorted_packages_run`, for every outcome of `rand()`, a package `i`
is given `Depends: t<d>` only for the `d` drawn in its turn and only when
`1 ≤ i ≤ max_packages`, `d ≤ max_packages`, `d ≠ i` and `t<d>` had not been
given a dependency (so that a `t<d>` of lower index never has one); hence no
package depends on itself and following the field Depends never leads back to
the package one started from: the dependencies have no cycle. -/
theorem sorted_packages_acyclic (max_packages : Nat) (rand : Nat → Nat) :
    (∀ i d, (sorted_packages_run max_packages rand).depends i = some d →
      1 ≤ i ∧ i ≤ max_packages ∧ d = rand i % (max_packages * 2) + 1
      ∧ d ≤ max_packages ∧ d ≠ i
      ∧ (sorted_packages.loop max_packages rand (i - 1)).has_dependents d = false
      ∧ (d < i → (sorted_packages_run max_packages rand).depends d = none))
    ∧ (∀ i, (sorted_packages_run max_packages rand).depends i ≠ some i)
    ∧ (∀ i n, follow_depends (sorted_packages_run max_packages rand).depends (n + 1) i
        ≠ some i) := by
  obtain ⟨inv1, inv2⟩ := sorted_packages_loop_inv max_packages rand max_packages
  have hup : ∀ k d e, (sorted_packages_run max_packages rand).depends k = some d →
      (sorted_packages_run max_packages rand).depends d = some e → k < d := by
    intro k d e hk hd
    obtain ⟨_, _, _, _, hne, _, hlow⟩ := inv2 k d hk
    rcases Nat.lt_or_ge d k with hlt | hge
    · have h := hlow hlt
      rw [show (sorted_packages.loop max_packages rand max_packages).depends d
        = (sorted_packages_run max_packages rand).depends d from rfl, hd] at h
      cases h
    · omega
  refine ⟨?_, ?_, ?_⟩
  · intro i d h
    exact inv2 i d h
  · intro i h
    exact (inv2 i i h).2.2.2.2.1 rfl
  · intro i n h
    obtain ⟨e, he⟩ := follow_depends_isSome h
    exact Nat.lt_irrefl i (follow_depends_increases hup n i i e h he)

/-- Witness for C29 on six packages: t1 is given `Depends: t6`; in its turn t6
draws t1, which has a dependency, and is given none, so that the cycle
t1, t6, t1 does not arise. -/
theorem sorted_packages_acyclic_witness :
    (List.range 8).map (sorted_packages_run 6 (fun i => [0, 5, 0, 1, 11, 11, 0].getD i 0)).depends
      = [none, some 6, none, some 2, none, none, none, none]
    ∧ follow_depends (sorted_packages_run 6 (fun i => [0, 5, 0, 1, 11, 11, 0].getD i 0)).depends
        2 1 ≠ some 1 :=
  ⟨by decide,
   (sorted_packages_acyclic 6 (fun i => [0, 5, 0, 1, 11, 11, 0].getD i 0)).2.2 1 1⟩

/-! ### `str_to_html` -/

theorem foldl_html_entity (s : List Char) : ∀ result : List Char,
    s.foldl (fun result c => result ++ html_entity c) result
      = result ++ s.flatMap html_entity := by
  induction s with
  | nil => intro result; simp
  | cons c s ih =>
    intro result
    rw [List.foldl_cons, ih, List.flatMap_cons, List.append_assoc]

theorem str_to_html_eq {s : List Char} (h : Char.ofNat 0 ∉ s) :
    str_to_html s = s.flatMap html_entity := by
  unfold str_to_html
  rw [c_str_of_no_nul h, foldl_html_entity, List.nil_append]

theorem str_to_html_cons {c : Char} {s : List Char} (h : Char.ofNat 0 ∉ c :: s) :
    str_to_html (c :: s) = html_entity c ++ str_to_html s := by
  have hs : Char.ofNat 0 ∉ s := fun hm => h (List.mem_cons_of_mem _ hm)
  rw [str_to_html_eq h, str_to_html_eq hs, List.flatMap_cons]

/-- The shape of what `str_to_html` appends for a character. -/
theorem html_entity_cases (c : Char) :
    (html_entity c = [c] ∧ c ≠ '<' ∧ c ≠ '>' ∧ c ≠ '&' ∧ c ≠ '"' ∧ c ≠ '\'')
    ∨ (∃ e ∈ ["lt;".toList, "gt;".toList, "amp;".toList, "quot;".toList, "#39;".toList],
        html_entity c = '&' :: e) := by
  unfold html_entity
  by_cases h1 : c = '<'
  · right; exact ⟨"lt;".toList, by simp, by rw [if_pos h1]; rfl⟩
  by_cases h2 : c = '>'
  · right; exact ⟨"gt;".toList, by simp, by rw [if_neg h1, if_pos h2]; rfl⟩
  by_cases h3 : c = '&'
  · right; exact ⟨"amp;".toList, by simp, by rw [if_neg h1, if_neg h2, if_pos h3]; rfl⟩
  by_cases h4 : c = '"'
  · right; exact ⟨"quot;".toList, by simp, by rw [if_neg h1, if_neg h2, if_neg h3, if_pos h4]; rfl⟩
  by_cases h5 : c = '\''
  · right
    exact ⟨"#39;".toList, by simp, by rw [if_neg h1, if_neg h2, if_neg h3, if_neg h4, if_pos h5]; rfl⟩
  left
  rw [if_neg h1, if_neg h2, if_neg h3, if_neg h4, if_neg h5]
  exact ⟨rfl, h1, h2, h3, h4, h5⟩

theorem html_entity_cancel {c d : Char} {a b : List Char}
    (h : html_entity c ++ a = html_entity d ++ b) : c = d ∧ a = b := by
  have e1 : "&lt;".toList = ['&', 'l', 't', ';'] := rfl
  have e2 : "&gt;".toList = ['&', 'g', 't', ';'] := rfl
  have e3 : "&amp;".toList = ['&', 'a', 'm', 'p', ';'] := rfl
  have e4 : "&quot;".toList = ['&', 'q', 'u', 'o', 't', ';'] := rfl
  have e5 : "&#39;".toList = ['&', '#', '3', '9', ';'] := rfl
  unfold html_entity at h
  rw [e1, e2, e3, e4, e5] at h
  split_ifs at h <;> simp_all <;>
    · exfalso
      obtain ⟨h1, _⟩ := h
      subst h1
      contradiction

theorem html_entity_safe (c x : Char) (hx : x ∈ html_entity c) :
    x ≠ '<' ∧ x ≠ '>' ∧ x ≠ '"' ∧ x ≠ '\'' := by
  rcases html_entity_cases c with ⟨he, h1, h2, _, h4, h5⟩ | ⟨e, hmem, he⟩
  · rw [he, List.mem_singleton] at hx
    subst hx
    exact ⟨h1, h2, h4, h5⟩
  · rw [he] at hx
    simp only [List.mem_cons, List.mem_singleton, List.not_mem_nil, or_false] at hmem
    rcases hmem with rfl | rfl | rfl | rfl | rfl <;>
      · simp only [String.toList, List.mem_cons, List.not_mem_nil, or_false] at hx
        rcases hx with rfl | rfl | rfl | rfl | rfl | rfl <;> decide

theorem entity_tail_no_amp {e : List Char}
    (he : e ∈ ["lt;".toList, "gt;".toList, "amp;".toList, "quot;".toList, "#39;".toList]) :
    '&' ∉ e := by
  simp only [List.mem_cons, List.mem_singleton, List.not_mem_nil, or_false] at he
  rcases he with rfl | rfl | rfl | rfl | rfl <;> decide

theorem flatMap_html_entity_amp : ∀ (s pre post : List Char),
    s.flatMap html_entity = pre ++ '&' :: post →
    ∃ e ∈ ["lt;".toList, "gt;".toList, "amp;".toList, "quot;".toList, "#39;".toList],
      e <+: post
  | [], pre, post, h => by
    rw [List.flatMap_nil] at h
    cases pre <;> cases h
  | c :: s, pre, post, h => by
    rw [List.flatMap_cons] at h
    rcases html_entity_cases c with ⟨he, _, _, h3, _, _⟩ | ⟨e, hmem, he⟩
    · rw [he] at h
      cases pre with
      | nil =>
        simp only [List.singleton_append, List.nil_append, List.cons.injEq] at h
        exact absurd h.1 h3
      | cons p pre =>
        simp only [List.singleton_append, List.cons_append, List.cons.injEq] at h
        exact flatMap_html_entity_amp s pre post h.2
    · rw [he] at h
      cases pre with
      | nil =>
        simp only [List.cons_append, List.nil_append, List.cons.injEq, true_and] at h
        exact ⟨e, hmem, ⟨s.flatMap html_entity, h⟩⟩
      | cons p pre =>
        simp only [List.cons_append, List.cons.injEq] at h
        rcases List.append_eq_append_iff.1 h.2 with ⟨a', h1, h2⟩ | ⟨c', h1, h2⟩
        · exact flatMap_html_entity_amp s a' post h2
        · cases c' with
          | nil =>
            rw [List.nil_append] at h2
            exact flatMap_html_entity_amp s [] post h2.symm
          | cons x c' =>
            simp only [List.cons_append, List.cons.injEq] at h2
            exfalso
            apply entity_tail_no_amp hmem
            rw [h1, ← h2.1]
            simp

theorem flatMap_html_entity_inj : ∀ s t : List Char,
    s.flatMap html_entity = t.flatMap html_entity → s = t
  | [], [], _ => rfl
  | [], d :: t, h => by
    rw [List.flatMap_nil, List.flatMap_cons] at h
    rcases html_entity_cases d with ⟨he, _⟩ | ⟨e, _, he⟩ <;>
      · rw [he] at h
        cases h
  | c :: s, [], h => by
    rw [List.flatMap_nil, List.flatMap_cons] at h
    rcases html_entity_cases c with ⟨he, _⟩ | ⟨e, _, he⟩ <;>
      · rw [he] at h
        cases h
  | c :: s, d :: t, h => by
    rw [List.flatMap_cons, List.flatMap_cons] at h
    obtain ⟨hcd, hst⟩ := html_entity_cancel h
    rw [hcd, flatMap_html_entity_inj s t hst]

/-- C21. For every string `s` without a NUL character, `str_to_html(s)` is the
concatenation, character by character, of `&lt;` for `<`, `&gt;` for `>`,
`&amp;` for `&`, `&quot;` for `"`, `&#39;` for `'` and of the character itself
otherwise. The result holds none of `<`, `>`, `"`, `'`, every `&` in it begins
one of the five entities, and two different strings without NUL give different
results. -/
theorem str_to_html_escapes (s : List Char) (h : Char.ofNat 0 ∉ s) :
    str_to_html s = s.flatMap (fun c =>
        if c = '<' then "&lt;".toList else if c = '>' then "&gt;".toList
        else if c = '&' then "&amp;".toList else if c = '"' then "&quot;".toList
        else if c = '\'' then "&#39;".toList else [c])
    ∧ (∀ x ∈ str_to_html s, x ≠ '<' ∧ x ≠ '>' ∧ x ≠ '"' ∧ x ≠ '\'')
    ∧ (∀ pre post, str_to_html s = pre ++ '&' :: post →
        "lt;".toList <+: post ∨ "gt;".toList <+: post ∨ "amp;".toList <+: post
          ∨ "quot;".toList <+: post ∨ "#39;".toList <+: post)
    ∧ (∀ t, Char.ofNat 0 ∉ t → str_to_html s = str_to_html t → s = t) := by
  refine ⟨str_to_html_eq h, ?_, ?_, ?_⟩
  · intro x hx
    rw [str_to_html_eq h, List.mem_flatMap] at hx
    obtain ⟨c, _, hc⟩ := hx
    exact html_entity_safe c x hc
  · intro pre post hpre
    rw [str_to_html_eq h] at hpre
    obtain ⟨e, hmem, he⟩ := flatMap_html_entity_amp s pre post hpre
    simp only [List.mem_cons, List.mem_singleton, List.not_mem_nil, or_false] at hmem
    rcases hmem with rfl | rfl | rfl | rfl | rfl
    · exact Or.inl he
    · exact Or.inr (Or.inl he)
    · exact Or.inr (Or.inr (Or.inl he))
    · exact Or.inr (Or.inr (Or.inr (Or.inl he)))
    · exact Or.inr (Or.inr (Or.inr (Or.inr he)))
  · intro t ht hst
    rw [str_to_html_eq h, str_to_html_eq ht] at hst
    exact flatMap_html_entity_inj s t hst

/-- Witness for C21: a tag with an attribute and an entity. -/
theorem str_to_html_escapes_witness :
    str_to_html "<a href=\"x\">R&D's</a>".toList
      = "&lt;a href=&quot;x&quot;&gt;R&amp;D&#39;s&lt;/a&gt;".toList
    ∧ ∀ x ∈ str_to_html "<a href=\"x\">R&D's</a>".toList,
        x ≠ '<' ∧ x ≠ '>' ∧ x ≠ '"' ∧ x ≠ '\'' :=
  ⟨by decide, (str_to_html_escapes "<a href=\"x\">R&D's</a>".toList (by decide)).2.1⟩

/-! ### `DependencyToLink` -/

theorem intercalate_cons_flatMap (sep x : List Char) (xs : List (List Char)) :
    sep.intercalate (x :: xs) = x ++ xs.flatMap (fun y => sep ++ y) := by
  induction xs generalizing x with
  | nil => simp [List.intercalate]
  | cons y ys ih =>
    have h : sep.intercalate (x :: y :: ys) = x ++ (sep ++ sep.intercalate (y :: ys)) := by
      simp [List.intercalate]
    rw [h, ih, List.flatMap_cons, List.append_assoc]

theorem architectures_loop_succ (f_not_arch : Bool) :
    ∀ (archs : List (List Char)) (j : Nat) (result : List Char),
      architectures_loop f_not_arch (j + 1) archs result
        = result ++ archs.flatMap (fun arch =>
            " ".toList ++ ((if f_not_arch then "!".toList else []) ++ arch))
  | [], j, result => by simp [architectures_loop]
  | arch :: rest, j, result => by
    unfold architectures_loop
    simp only [bne_iff_ne, ne_eq, Nat.add_one_ne_zero, not_false_eq_true, if_true]
    rw [architectures_loop_succ f_not_arch rest (j + 1), List.flatMap_cons]
    cases f_not_arch <;> simp [List.append_assoc]

theorem architectures_loop_zero (f_not_arch : Bool) (arch : List Char) (rest : List (List Char))
    (result : List Char) :
    architectures_loop f_not_arch 0 (arch :: rest) result
      = result ++ " ".toList.intercalate
          ((arch :: rest).map fun arch => (if f_not_arch then "!".toList else []) ++ arch) := by
  unfold architectures_loop
  rw [List.map_cons, intercalate_cons_flatMap, List.flatMap_map]
  simp only [bne_self_eq_false, Bool.false_eq_true, if_false]
  rw [architectures_loop_succ f_not_arch rest 0]
  cases f_not_arch <;> simp [List.append_assoc]

theorem dependency_turn_eq (result comma : List Char) (d : dependency_t) :
    dependency_turn (result, comma) d = (result ++ (comma ++ dependency_text d), ", ".toList) := by
  unfold dependency_turn dependency_text
  have hv : (!d.f_version.isEmpty) = true ↔ ¬ d.f_version = [] := by
    cases d.f_version <;> simp
  have ho : d.operator_to_string.length > 0 ↔ ¬ d.operator_to_string = [] := by
    cases d.operator_to_string <;> simp
  by_cases h1 : d.f_version = []
  · by_cases h3 : d.f_architectures = []
    · simp [h1, h3, List.append_assoc]
    · obtain ⟨arch, rest, h3'⟩ := List.exists_cons_of_ne_nil h3
      simp only [h1, h3', architectures_loop_zero]
      simp [List.append_assoc]
  · by_cases h2 : d.operator_to_string = []
    · by_cases h3 : d.f_architectures = []
      · simp [hv, h1, h2, h3, List.append_assoc]
      · obtain ⟨arch, rest, h3'⟩ := List.exists_cons_of_ne_nil h3
        simp only [hv, h1, h2, h3', architectures_loop_zero]
        simp [List.append_assoc]
    · by_cases h3 : d.f_architectures = []
      · simp [hv, ho, h1, h2, h3, List.append_assoc]
      · obtain ⟨arch, rest, h3'⟩ := List.exists_cons_of_ne_nil h3
        simp only [hv, ho, h1, h2, h3', architectures_loop_zero]
        simp [List.append_assoc]

theorem foldl_dependency_turn : ∀ (deps : List dependency_t) (result : List Char),
    (deps.foldl dependency_turn (result, ", ".toList)).1
      = result ++ deps.flatMap (fun d => ", ".toList ++ dependency_text d)
  | [], result => by simp
  | d :: rest, result => by
    rw [List.foldl_cons, dependency_turn_eq, foldl_dependency_turn rest, List.flatMap_cons,
      List.append_assoc]

theorem foldl_dependency_turn_first (deps : List dependency_t) (result : List Char) :
    (deps.foldl dependency_turn (result, [])).1
      = result ++ ", ".toList.intercalate (deps.map dependency_text) := by
  cases deps with
  | nil => simp [List.intercalate]
  | cons d rest =>
    rw [List.foldl_cons, dependency_turn_eq, foldl_dependency_turn rest, List.map_cons,
      intercalate_cons_flatMap, List.flatMap_map, List.nil_append, List.append_assoc]

/-- C25. For a defined dependency field, `DependencyToLink` appends to the
accumulated text `<br/>` if and only if that text was not empty, then
`<field>: `, then the dependencies joined by `, `, each one a `package://name`
link to its name, followed by ` (op version)` if and only if its version is not
empty (without the operator and its space when the operator string is empty)
and by ` [archs]` if and only if it has architectures, these being separated by
single spaces and all prefixed with `!` when `f_not_arch` is set, none
otherwise. For a field that is not defined the accumulated text is unchanged. -/
theorem dependency_to_link_text (m : wpkgar_manager) (result : List Char)
    (field_name : String) :
    (m.field_is_defined field_name = true →
      DependencyToLink m result field_name
        = some (result ++ (if result = [] then [] else "<br/>".toList)
            ++ field_name.toList ++ ": ".toList
            ++ ", ".toList.intercalate ((m.dependencies field_name).map fun d =>
                "<a href=\"package://".toList ++ d.f_name ++ "\">".toList ++ d.f_name
                ++ "</a>".toList
                ++ (if d.f_version = [] then []
                    else " (".toList
                      ++ (if d.operator_to_string = [] then []
                          else d.operator_to_string ++ " ".toList)
                      ++ d.f_version ++ ")".toList)
                ++ (if d.f_architectures = [] then []
                    else " [".toList
                      ++ " ".toList.intercalate (d.f_architectures.map fun arch =>
                          (if d.f_not_arch then "!".toList else []) ++ arch)
                      ++ "]".toList))))
    ∧ (m.field_is_defined field_name = false →
      DependencyToLink m result field_name = some result) := by
  constructor
  · intro h
    unfold DependencyToLink get_dependencies
    simp only [h, if_true]
    rw [foldl_dependency_turn_first]
    have hd : (fun d : dependency_t =>
        "<a href=\"package://".toList ++ d.f_name ++ "\">".toList ++ d.f_name
          ++ "</a>".toList
          ++ (if d.f_version = [] then []
              else " (".toList
                ++ (if d.operator_to_string = [] then []
                    else d.operator_to_string ++ " ".toList)
                ++ d.f_version ++ ")".toList)
          ++ (if d.f_architectures = [] then []
              else " [".toList
                ++ " ".toList.intercalate (d.f_architectures.map fun arch =>
                    (if d.f_not_arch then "!".toList else []) ++ arch)
                ++ "]".toList)) = dependency_text := rfl
    rw [hd]
    cases result with
    | nil => simp
    | cons c cs => simp [List.append_assoc]
  · intro h
    unfold DependencyToLink
    simp only [h, Bool.false_eq_true, if_false]

/-- Witness for C25: a field Depends with three dependencies added to an empty
text, then a field that is not defined. -/
theorem dependency_to_link_text_witness :
    DependencyToLink
        ⟨fun name => name == "Depends", fun _ => [], fun _ => false, fun _ => 0,
          fun _ => ([], []),
          fun _ => [⟨"a".toList, [], [], [], false⟩,
            ⟨"b".toList, "1.0".toList, ">=".toList, ["linux".toList, "win32".toList], true⟩,
            ⟨"c".toList, "2".toList, [], [], false⟩]⟩
        [] "Depends"
      = some ("Depends: <a href=\"package://a\">a</a>, "
          ++ "<a href=\"package://b\">b</a> (>= 1.0) [!linux !win32], "
          ++ "<a href=\"package://c\">c</a> (2)").toList
    ∧ DependencyToLink
        ⟨fun name => name == "Depends", fun _ => [], fun _ => false, fun _ => 0,
          fun _ => ([], []), fun _ => []⟩
        "x".toList "Breaks" = some "x".toList :=
  ⟨(dependency_to_link_text
      ⟨fun name => name == "Depends", fun _ => [], fun _ => false, fun _ => 0,
        fun _ => ([], []),
        fun _ => [⟨"a".toList, [], [], [], false⟩,
          ⟨"b".toList, "1.0".toList, ">=".toList, ["linux".toList, "win32".toList], true⟩,
          ⟨"c".toList, "2".toList, [], [], false⟩]⟩
      [] "Depends").1 (by decide),
   (dependency_to_link_text
      ⟨fun name => name == "Depends", fun _ => [], fun _ => false, fun _ => 0,
        fun _ => ([], []), fun _ => []⟩
      "x".toList "Breaks").2 (by decide)⟩

/-! ### Pieces of a template -/

theorem find_of_prefix {s p : List Char} (h : p <+: s) : find s p = some 0 := by
  rw [find_unfold, if_pos (List.isPrefixOf_iff_prefix.2 h)]

theorem find_append_skip (p x : List Char) : ∀ a : List Char,
    (∀ k, k < a.length → ¬ p <+: (a ++ x).drop k) →
    find (a ++ x) p = (find x p).map (· + a.length)
  | [], _ => by
    rw [List.nil_append]
    cases find x p <;> simp
  | c :: a, h => by
    have h0 : ¬ p <+: c :: (a ++ x) := h 0 (Nat.succ_pos _)
    have hno : p.isPrefixOf (c :: (a ++ x)) = false := by
      rw [Bool.eq_false_iff]
      intro hp
      exact h0 (List.isPrefixOf_iff_prefix.1 hp)
    rw [List.cons_append, find_unfold, hno]
    simp only [Bool.false_eq_true, if_false]
    rw [find_append_skip p x a (fun k hk => h (k + 1) (Nat.succ_lt_succ hk))]
    cases find x p with
    | none => rfl
    | some i =>
      simp only [Option.map_some', List.length_cons, Option.some.injEq]
      omega

theorem not_prefix_in_text {p s : List Char} (x : List Char)
    (hp : p.head? = some '@') (hs : '@' ∉ s) :
    ∀ k, k < s.length → ¬ p <+: (s ++ x).drop k := by
  intro k hk hpre
  rw [List.drop_append_of_le_length (Nat.le_of_lt hk)] at hpre
  cases hd : s.drop k with
  | nil =>
    have := congrArg List.length hd
    rw [List.length_drop, List.length_nil] at this
    omega
  | cons c t =>
    have hc : c ∈ s := List.mem_of_mem_drop (hd ▸ List.mem_cons_self c t)
    rw [hd] at hpre
    cases p with
    | nil => cases hp
    | cons a q =>
      simp only [List.head?_cons, Option.some.injEq] at hp
      obtain ⟨t', ht'⟩ := hpre
      simp only [List.cons_append, List.cons.injEq] at ht'
      rw [hp] at ht'
      exact hs (ht'.1 ▸ hc)

theorem marker_fits_iff {p m : List Char} (h : marker_fits p m = true) :
    ∀ k, k < m.length → p <+: m.drop k → k = 0 ∧ m = p := by
  intro k hk hpre
  unfold marker_fits at h
  rw [List.all_eq_true] at h
  have hk' := h k (List.mem_range.2 hk)
  rw [List.isPrefixOf_iff_prefix.2 hpre] at hk'
  simpa using hk'

theorem not_prefix_in_marker {p m : List Char} {c : Char} (y : List Char)
    (hp : p.all marker_char = true) (hc : marker_char c = false)
    (hfit : marker_fits p m = true) (hne : m ≠ p) :
    ∀ k, k < m.length → ¬ p <+: (m ++ c :: y).drop k := by
  intro k hk hpre
  rw [List.drop_append_of_le_length (Nat.le_of_lt hk)] at hpre
  have hcp : c ∉ p := by
    intro hm
    rw [List.all_eq_true] at hp
    rw [hp c hm] at hc
    cases hc
  have h2 : m.drop k ++ [c] <+: m.drop k ++ c :: y := by
    refine ⟨y, ?_⟩
    simp
  rcases List.prefix_or_prefix_of_prefix hpre h2 with h | h
  · rw [List.prefix_concat_iff] at h
    rcases h with h | h
    · apply hcp
      rw [h]
      simp
    · exact hne (marker_fits_iff hfit k hk h).2
  · apply hcp
    exact h.subset (by simp)

theorem well_formed_cons {x : piece} {rest : List piece} (h : well_formed (x :: rest) = true) :
    piece_ok x rest = true ∧ well_formed rest = true := by
  unfold well_formed at h
  rw [Bool.and_eq_true] at h
  exact h

theorem starts_text_iff {rest : List piece} (h : starts_text rest = true) :
    ∃ c s rest', rest = piece.text (c :: s) :: rest' ∧ marker_char c = false := by
  unfold starts_text at h
  split at h
  · next c s rest' =>
    refine ⟨c, s, rest', rfl, ?_⟩
    simpa using h
  · cases h

theorem pieces_text_cons (x : piece) (rest : List piece) :
    pieces_text (x :: rest) = x.content ++ pieces_text rest := by
  unfold pieces_text
  rw [List.flatMap_cons]

theorem pieces_text_text (s : List Char) (rest : List piece) :
    pieces_text (piece.text s :: rest) = s ++ pieces_text rest :=
  pieces_text_cons _ _

theorem pieces_text_marker (m : List Char) (rest : List piece) :
    pieces_text (piece.marker m :: rest) = m ++ pieces_text rest :=
  pieces_text_cons _ _

theorem pieces_text_append (a b : List piece) :
    pieces_text (a ++ b) = pieces_text a ++ pieces_text b := by
  unfold pieces_text
  rw [List.flatMap_append]

theorem is_pattern_iff {p : List Char} (h : is_pattern p = true) :
    p.head? = some '@' ∧ p.all marker_char = true := by
  unfold is_pattern at h
  rw [Bool.and_eq_true, beq_iff_eq] at h
  exact h

/-- In the string of well-formed pieces a pattern is found where its first
marker stands. -/
theorem find_pieces_text {p : List Char} (hp : is_pattern p = true) :
    ∀ ps : List piece, well_formed ps = true →
      (markers_of ps).all (marker_fits p) = true →
      find (pieces_text ps) p = find_piece p ps
  | [], _, _ => by
    obtain ⟨hhead, _⟩ := is_pattern_iff hp
    have : pieces_text [] = [] := rfl
    rw [this, find_unfold]
    cases p with
    | nil => cases hhead
    | cons a q => rfl
  | piece.text s :: rest, hwf, hfit => by
    obtain ⟨hhead, _⟩ := is_pattern_iff hp
    obtain ⟨hok, hrest⟩ := well_formed_cons hwf
    have hs : '@' ∉ s := by
      intro hm
      have hc : s.contains '@' = true := List.elem_iff.2 hm
      simp only [piece_ok, hc, Bool.not_true] at hok
      cases hok
    have ih := find_pieces_text hp rest hrest hfit
    rw [pieces_text_text, find_append_skip p _ _ (not_prefix_in_text _ hhead hs), ih]
    simp only [find_piece, reduceCtorEq, if_false]
    rfl
  | piece.marker m :: rest, hwf, hfit => by
    obtain ⟨_, hall⟩ := is_pattern_iff hp
    obtain ⟨hok, hrest⟩ := well_formed_cons hwf
    have hfit' : marker_fits p m = true ∧ (markers_of rest).all (marker_fits p) = true := by
      simpa [markers_of] using hfit
    have ih := find_pieces_text hp rest hrest hfit'.2
    by_cases hmp : m = p
    · subst hmp
      rw [pieces_text_marker, find_of_prefix ⟨_, rfl⟩]
      simp [find_piece]
    · obtain ⟨c, s, rest', hrest', hc⟩ := starts_text_iff hok
      have hskip := not_prefix_in_marker (s ++ pieces_text rest') hall hc hfit'.1 hmp
      have htext : pieces_text rest = c :: (s ++ pieces_text rest') := by
        rw [hrest', pieces_text_text]
        rfl
      rw [pieces_text_marker, htext, find_append_skip p _ m hskip, ← htext, ih]
      have hne : piece.marker m ≠ piece.marker p := fun e => hmp (piece.marker.inj e)
      simp only [find_piece, hne, if_false]
      rfl

theorem find_piece_none {p : List Char} : ∀ ps : List piece,
    piece.marker p ∉ ps → find_piece p ps = none
  | [], _ => rfl
  | x :: rest, h => by
    have hx : x ≠ piece.marker p := fun e => h (e ▸ List.mem_cons_self _ _)
    have hrest : piece.marker p ∉ rest := fun hm => h (List.mem_cons_of_mem _ hm)
    simp only [find_piece, hx, if_false, find_piece_none rest hrest, Option.map_none']

theorem find_piece_some {p : List Char} : ∀ ps : List piece,
    piece.marker p ∈ ps → ∃ pos, find_piece p ps = some pos
  | [], h => absurd h (List.not_mem_nil _)
  | x :: rest, h => by
    by_cases hx : x = piece.marker p
    · exact ⟨0, by simp only [find_piece, hx, if_true]⟩
    · have hrest : piece.marker p ∈ rest := by
        rcases List.mem_cons.1 h with h | h
        · exact absurd h.symm hx
        · exact h
      obtain ⟨pos, hpos⟩ := find_piece_some rest hrest
      exact ⟨pos + x.content.length, by simp only [find_piece, hx, if_false, hpos,
        Option.map_some']⟩

theorem substitute_of_not_mem {p : List Char} (r : List Char) : ∀ ps : List piece,
    piece.marker p ∉ ps → substitute p r ps = ps
  | [], _ => rfl
  | x :: rest, h => by
    have hx : x ≠ piece.marker p := fun e => h (e ▸ List.mem_cons_self _ _)
    have hrest : piece.marker p ∉ rest := fun hm => h (List.mem_cons_of_mem _ hm)
    have ih := substitute_of_not_mem r rest hrest
    unfold substitute at ih ⊢
    rw [List.map_cons, ih, if_neg hx]

theorem string_replace_append_left (a t r : List Char) (k len : Nat) :
    string_replace (a ++ t) (k + a.length) len r = a ++ string_replace t k len r := by
  unfold string_replace
  have h1 : (a ++ t).take (k + a.length) = a ++ t.take k := by
    rw [List.take_append_eq_append_take]
    have : a.take (k + a.length) = a := List.take_of_length_le (by omega)
    rw [this]
    congr 2
    omega
  have h2 : (a ++ t).drop (k + a.length + len) = t.drop (k + len) := by
    rw [List.drop_append_eq_append_drop]
    have : a.drop (k + a.length + len) = [] := List.drop_of_length_le (by omega)
    rw [this, List.nil_append]
    congr 1
    omega
  rw [h1, h2]
  simp only [List.append_assoc]

theorem string_replace_first {p : List Char} (r : List Char) : ∀ (ps : List piece) (pos : Nat),
    find_piece p ps = some pos →
    string_replace (pieces_text ps) pos p.length r = pieces_text (substitute_first p r ps)
  | [], pos, h => by cases h
  | x :: rest, pos, h => by
    by_cases hx : x = piece.marker p
    · simp only [find_piece, hx, if_true, Option.some.injEq] at h
      subst h
      subst hx
      simp only [substitute_first, if_true]
      rw [pieces_text_marker, pieces_text_text]
      unfold string_replace
      simp
    · simp only [find_piece, hx, if_false] at h
      cases hk : find_piece p rest with
      | none =>
        rw [hk] at h
        cases h
      | some k =>
        rw [hk] at h
        simp only [Option.map_some', Option.some.injEq] at h
        subst h
        simp only [substitute_first, hx, if_false]
        rw [pieces_text_cons, pieces_text_cons, string_replace_append_left,
          string_replace_first r rest k hk]

theorem starts_text_substitute_first (p r : List Char) {rest : List piece}
    (h : starts_text rest = true) : starts_text (substitute_first p r rest) = true := by
  obtain ⟨c, s, rest', hrest, hc⟩ := starts_text_iff h
  subst hrest
  simp only [substitute_first, reduceCtorEq, if_false, starts_text, hc, Bool.not_false]

theorem well_formed_substitute_first {p r : List Char} (hr : r.contains '@' = false) :
    ∀ ps : List piece, well_formed ps = true → well_formed (substitute_first p r ps) = true
  | [], _ => rfl
  | x :: rest, h => by
    obtain ⟨hok, hrest⟩ := well_formed_cons h
    by_cases hx : x = piece.marker p
    · simp only [substitute_first, hx, if_true, well_formed, piece_ok, hr, Bool.not_false,
        hrest, Bool.and_self]
    · simp only [substitute_first, hx, if_false, well_formed,
        well_formed_substitute_first hr rest hrest, Bool.and_true]
      cases x with
      | text s => exact hok
      | marker m => exact starts_text_substitute_first p r hok

theorem markers_of_substitute_first (p r : List Char) : ∀ ps : List piece,
    ∀ m ∈ markers_of (substitute_first p r ps), m ∈ markers_of ps
  | [], m, h => h
  | x :: rest, m, h => by
    by_cases hx : x = piece.marker p
    · subst hx
      simp only [substitute_first, if_true, markers_of] at h
      simp only [markers_of, List.mem_cons]
      exact Or.inr h
    · simp only [substitute_first, hx, if_false] at h
      cases x with
      | text s =>
        simp only [markers_of] at h ⊢
        exact markers_of_substitute_first p r rest m h
      | marker q =>
        simp only [markers_of, List.mem_cons] at h ⊢
        rcases h with h | h
        · exact Or.inl h
        · exact Or.inr (markers_of_substitute_first p r rest m h)

theorem substitute_substitute_first (p r : List Char) : ∀ ps : List piece,
    substitute p r (substitute_first p r ps) = substitute p r ps
  | [] => rfl
  | x :: rest => by
    by_cases hx : x = piece.marker p
    · simp only [substitute_first, hx, if_true, substitute, List.map_cons, reduceCtorEq,
        if_false]
    · have ih := substitute_substitute_first p r rest
      unfold substitute at ih
      simp only [substitute_first, hx, if_false, substitute, List.map_cons, ih]

theorem count_substitute_first (p r : List Char) : ∀ ps : List piece,
    piece.marker p ∈ ps →
    (substitute_first p r ps).count (piece.marker p) + 1 = ps.count (piece.marker p)
  | [], h => absurd h (List.not_mem_nil _)
  | x :: rest, h => by
    by_cases hx : x = piece.marker p
    · subst hx
      simp only [substitute_first, if_true, List.count_cons_self]
      rw [List.count_cons_of_ne (by simp)]
    · have hrest : piece.marker p ∈ rest := by
        rcases List.mem_cons.1 h with h | h
        · exact absurd h.symm hx
        · exact h
      simp only [substitute_first, hx, if_false]
      rw [List.count_cons_of_ne (Ne.symm hx), List.count_cons_of_ne (Ne.symm hx)]
      exact count_substitute_first p r rest hrest

theorem all_fits_of_subset {p : List Char} {a b : List piece}
    (hsub : ∀ m ∈ markers_of a, m ∈ markers_of b)
    (h : (markers_of b).all (marker_fits p) = true) :
    (markers_of a).all (marker_fits p) = true := by
  rw [List.all_eq_true] at h ⊢
  intro m hm
  exact h m (hsub m hm)

/-- On the string of well-formed pieces, `replace` exits and leaves the string of
the pieces in which every marker `p` is replaced. -/
theorem replace_pieces {p r : List Char} (hp : is_pattern p = true)
    (hr : r.contains '@' = false) :
    ∀ (n : Nat) (ps : List piece), ps.count (piece.marker p) = n →
      well_formed ps = true → (markers_of ps).all (marker_fits p) = true →
      ∀ fuel, n < fuel →
        replace fuel (pieces_text ps) p r = some (pieces_text (substitute p r ps), n)
  | 0, ps, hcount, hwf, hfit, fuel, hfuel => by
    have hmem : piece.marker p ∉ ps := List.count_eq_zero.1 hcount
    obtain ⟨fuel', rfl⟩ : ∃ f, fuel = f + 1 := ⟨fuel - 1, by omega⟩
    have hfind : find (pieces_text ps) p = none := by
      rw [find_pieces_text hp ps hwf hfit, find_piece_none ps hmem]
    unfold replace replace_step
    simp only [hfind]
    rw [substitute_of_not_mem r ps hmem]
  | n + 1, ps, hcount, hwf, hfit, fuel, hfuel => by
    have hmem : piece.marker p ∈ ps := by
      apply List.count_pos_iff.1
      omega
    obtain ⟨fuel', rfl⟩ : ∃ f, fuel = f + 1 := ⟨fuel - 1, by omega⟩
    obtain ⟨pos, hpos⟩ := find_piece_some ps hmem
    have hfind : find (pieces_text ps) p = some pos := by
      rw [find_pieces_text hp ps hwf hfit, hpos]
    have hcount' : (substitute_first p r ps).count (piece.marker p) = n := by
      have := count_substitute_first p r ps hmem
      omega
    have ih := replace_pieces hp hr n (substitute_first p r ps) hcount'
      (well_formed_substitute_first hr ps hwf)
      (all_fits_of_subset (markers_of_substitute_first p r ps) hfit) fuel' (by omega)
    unfold replace replace_step
    simp only [hfind]
    rw [string_replace_first r ps pos hpos, ih, substitute_substitute_first]

theorem starts_text_substitute (p r : List Char) {rest : List piece}
    (h : starts_text rest = true) : starts_text (substitute p r rest) = true := by
  obtain ⟨c, s, rest', hrest, hc⟩ := starts_text_iff h
  subst hrest
  simp only [substitute, List.map_cons, reduceCtorEq, if_false, starts_text, hc, Bool.not_false]

theorem well_formed_substitute {p r : List Char} (hr : r.contains '@' = false) :
    ∀ ps : List piece, well_formed ps = true → well_formed (substitute p r ps) = true
  | [], _ => rfl
  | x :: rest, h => by
    obtain ⟨hok, hrest⟩ := well_formed_cons h
    have ih : well_formed (substitute p r rest) = true :=
      well_formed_substitute hr rest hrest
    have hcons : substitute p r (x :: rest)
        = (if x = piece.marker p then piece.text r else x) :: substitute p r rest := rfl
    rw [hcons]
    by_cases hx : x = piece.marker p
    · simp only [hx, if_true, well_formed, piece_ok, hr, Bool.not_false, ih, Bool.and_self]
    · simp only [hx, if_false, well_formed, ih, Bool.and_true]
      cases x with
      | text s => exact hok
      | marker m => exact starts_text_substitute p r hok

theorem markers_of_substitute (p r : List Char) : ∀ ps : List piece,
    ∀ m ∈ markers_of (substitute p r ps), m ∈ markers_of ps
  | [], m, h => h
  | x :: rest, m, h => by
    have hcons : substitute p r (x :: rest)
        = (if x = piece.marker p then piece.text r else x) :: substitute p r rest := rfl
    rw [hcons] at h
    by_cases hx : x = piece.marker p
    · subst hx
      simp only [if_true, markers_of] at h
      simp only [markers_of, List.mem_cons]
      exact Or.inr (markers_of_substitute p r rest m h)
    · simp only [hx, if_false] at h
      cases x with
      | text s =>
        simp only [markers_of] at h ⊢
        exact markers_of_substitute p r rest m h
      | marker q =>
        simp only [markers_of, List.mem_cons] at h ⊢
        rcases h with h | h
        · exact Or.inl h
        · exact Or.inr (markers_of_substitute p r rest m h)

theorem length_substitute (p r : List Char) (ps : List piece) :
    (substitute p r ps).length = ps.length := by
  unfold substitute
  rw [List.length_map]

theorem pieces_text_substitute_le (p r : List Char) : ∀ ps : List piece,
    (pieces_text (substitute p r ps)).length
      ≤ (pieces_text ps).length + ps.length * r.length
  | [] => by
    show 0 ≤ 0 + 0 * r.length
    omega
  | x :: rest => by
    have ih := pieces_text_substitute_le p r rest
    have hcons : substitute p r (x :: rest)
        = (if x = piece.marker p then piece.text r else x) :: substitute p r rest := rfl
    rw [hcons, pieces_text_cons, pieces_text_cons, List.length_append, List.length_append,
      List.length_cons, Nat.succ_mul]
    by_cases hx : x = piece.marker p
    · simp only [hx, if_true, piece.content]
      omega
    · simp only [hx, if_false]
      omega

theorem mem_markers_of {p : List Char} : ∀ ps : List piece,
    piece.marker p ∈ ps → p ∈ markers_of ps
  | [], h => absurd h (List.not_mem_nil _)
  | piece.text s :: rest, h => by
    simp only [List.mem_cons, reduceCtorEq, false_or] at h
    simp only [markers_of]
    exact mem_markers_of rest h
  | piece.marker m :: rest, h => by
    simp only [List.mem_cons, piece.marker.injEq] at h
    simp only [markers_of, List.mem_cons]
    rcases h with h | h
    · exact Or.inl h
    · exact Or.inr (mem_markers_of rest h)

theorem find_piece_append_marker {p : List Char} : ∀ (a b : List piece),
    p ∉ markers_of a →
    find_piece p (a ++ piece.marker p :: b) = some (pieces_text a).length
  | [], b, _ => by
    simp only [List.nil_append, find_piece, if_true]
    rfl
  | x :: a, b, h => by
    have hx : x ≠ piece.marker p := by
      intro e
      subst e
      exact h (by simp [markers_of])
    have ha : p ∉ markers_of a := by
      intro hm
      apply h
      cases x with
      | text s => exact hm
      | marker m => exact List.mem_cons_of_mem _ hm
    rw [List.cons_append]
    simp only [find_piece, hx, if_false]
    rw [find_piece_append_marker a b ha]
    simp only [Option.map_some', pieces_text_cons, List.length_append, Option.some.injEq]
    omega

/-- The calls of `replace` of a list, on the string of well-formed pieces, leave
the string of the pieces in which the markers are replaced. -/
theorem replace_entries_pieces (fuel : Nat) : ∀ (entries : List (List Char × List Char))
    (ps : List piece), well_formed ps = true → ps.length < fuel →
      (∀ e ∈ entries, is_pattern e.1 = true ∧ e.2.contains '@' = false
        ∧ (markers_of ps).all (marker_fits e.1) = true) →
      replace_entries fuel (pieces_text ps) entries
        = some (pieces_text (substitute_entries entries ps)
            ) ∧ well_formed (substitute_entries entries ps) = true
  | [], ps, hwf, _, _ => ⟨rfl, hwf⟩
  | e :: rest, ps, hwf, hfuel, h => by
    obtain ⟨hp, hr, hfit⟩ := h e (List.mem_cons_self _ _)
    have hcount : ps.count (piece.marker e.1) < fuel :=
      Nat.lt_of_le_of_lt (List.count_le_length _ _) hfuel
    have hrep := replace_pieces hp hr _ ps rfl hwf hfit fuel hcount
    have ih := replace_entries_pieces fuel rest (substitute e.1 e.2 ps)
      (well_formed_substitute hr ps hwf) (by rw [length_substitute]; exact hfuel)
      (fun e' he' =>
        ⟨(h e' (List.mem_cons_of_mem _ he')).1, (h e' (List.mem_cons_of_mem _ he')).2.1,
          all_fits_of_subset (markers_of_substitute e.1 e.2 ps)
            (h e' (List.mem_cons_of_mem _ he')).2.2⟩)
    unfold replace_entries
    rw [hrep]
    exact ih

theorem global_entries_eq (fuel : Nat) (html package now description : List Char) :
    global_entries fuel html package now description
      = replace_entries fuel html
          [("@TITLE@".toList, package), ("@NOW@".toList, now),
            ("@DESCRIPTION@".toList, description)] := by
  unfold global_entries
  simp only [replace_entries]

theorem entry_piece_cons (e : List Char × List Char) (es : List (List Char × List Char))
    (x : piece) :
    entry_piece (e :: es) x
      = entry_piece es (if x = piece.marker e.1 then piece.text e.2 else x) := rfl

theorem entry_piece_text : ∀ (es : List (List Char × List Char)) (s : List Char),
    entry_piece es (piece.text s) = piece.text s
  | [], _ => rfl
  | e :: es, s => by
    rw [entry_piece_cons, if_neg (by simp), entry_piece_text es s]

theorem entry_piece_marker : ∀ (es : List (List Char × List Char)) (p : List Char),
    entry_piece es (piece.marker p)
      = match es.find? (fun e => e.1 == p) with
        | some e => piece.text e.2
        | none => piece.marker p
  | [], _ => rfl
  | e :: es, p => by
    rw [entry_piece_cons]
    by_cases h : e.1 = p
    · subst h
      simp only [if_true, entry_piece_text, List.find?_cons, beq_self_eq_true]
    · have hne : piece.marker p ≠ piece.marker e.1 := fun e' => h (piece.marker.inj e').symm
      have hbeq : (e.1 == p) = false := by
        rw [beq_eq_false_iff_ne]
        exact h
      rw [if_neg hne, entry_piece_marker es p, List.find?_cons, hbeq]

theorem entry_piece_append (es es' : List (List Char × List Char)) (x : piece) :
    entry_piece (es ++ es') x = entry_piece es' (entry_piece es x) := by
  unfold entry_piece
  rw [List.foldl_append]

theorem substitute_entries_eq_map : ∀ (es : List (List Char × List Char)) (ps : List piece),
    substitute_entries es ps = ps.map (entry_piece es)
  | [], ps => by
    have h : entry_piece [] = id := rfl
    rw [h, List.map_id]
    rfl
  | e :: es, ps => by
    have h : substitute_entries (e :: es) ps = substitute_entries es (substitute e.1 e.2 ps) :=
      rfl
    rw [h, substitute_entries_eq_map es]
    unfold substitute
    rw [List.map_map]
    rfl

theorem well_formed_entries : ∀ (es : List (List Char × List Char)) (ps : List piece),
    (∀ e ∈ es, e.2.contains '@' = false) → well_formed ps = true →
    well_formed (ps.map (entry_piece es)) = true
  | [], ps, _, h => by
    have h' : entry_piece [] = id := rfl
    rw [h', List.map_id]
    exact h
  | e :: es, ps, hes, h => by
    have ih := well_formed_entries es (substitute e.1 e.2 ps)
      (fun e' he' => hes e' (List.mem_cons_of_mem _ he'))
      (well_formed_substitute (hes e (List.mem_cons_self _ _)) ps h)
    unfold substitute at ih
    rw [List.map_map] at ih
    exact ih

theorem markers_of_entries : ∀ (es : List (List Char × List Char)) (ps : List piece),
    ∀ m ∈ markers_of (ps.map (entry_piece es)), m ∈ markers_of ps
  | [], ps, m, h => by
    have h' : entry_piece [] = id := rfl
    rw [h', List.map_id] at h
    exact h
  | e :: es, ps, m, h => by
    have ih := markers_of_entries es (substitute e.1 e.2 ps) m
    unfold substitute at ih
    rw [List.map_map] at ih
    exact markers_of_substitute e.1 e.2 ps m (ih h)

theorem pieces_text_entries_le : ∀ (es : List (List Char × List Char)) (ps : List piece)
    (bound : Nat), (∀ e ∈ es, e.2.length ≤ bound) →
    (pieces_text (ps.map (entry_piece es))).length
      ≤ (pieces_text ps).length + es.length * (ps.length * bound)
  | [], ps, _, _ => by
    have h' : entry_piece [] = id := rfl
    rw [h', List.map_id]
    simp
  | e :: es, ps, bound, hes => by
    have ih := pieces_text_entries_le es (substitute e.1 e.2 ps) bound
      (fun e' he' => hes e' (List.mem_cons_of_mem _ he'))
    have h1 := pieces_text_substitute_le e.1 e.2 ps
    have h2 : ps.length * e.2.length ≤ ps.length * bound :=
      Nat.mul_le_mul_left _ (hes e (List.mem_cons_self _ _))
    rw [length_substitute] at ih
    unfold substitute at ih h1
    rw [List.map_map] at ih
    have h3 : (List.map (entry_piece es ∘ fun x => if x = piece.marker e.1 then piece.text e.2
        else x) ps) = ps.map (entry_piece (e :: es)) := rfl
    rw [h3] at ih
    rw [List.length_cons, Nat.succ_mul]
    omega

theorem substr_markers (h s r e t : List Char) (hs : s.length = 7) (he : e.length = 5)
    (hlen : (h ++ (s ++ (r ++ (e ++ t)))).length < 2 ^ 64) :
    substr (h ++ (s ++ (r ++ (e ++ t)))) 0 h.length = h
    ∧ substr (h ++ (s ++ (r ++ (e ++ t)))) (h.length + 7)
        (size_sub (h.length + (7 + r.length)) (h.length + 7)) = r
    ∧ (h ++ (s ++ (r ++ (e ++ t)))).drop (h.length + (7 + r.length) + 5) = t := by
  simp only [List.length_append] at hlen
  refine ⟨?_, ?_, ?_⟩
  · unfold substr
    rw [List.drop_zero, List.take_left']
    rfl
  · rw [size_sub_of_le (by omega) (by omega)]
    unfold substr
    have h1 : (h ++ (s ++ (r ++ (e ++ t)))).drop (h.length + 7) = r ++ (e ++ t) := by
      rw [← List.append_assoc, List.drop_left']
      rw [List.length_append, hs]
    rw [h1]
    have h2 : h.length + (7 + r.length) - (h.length + 7) = r.length := by omega
    rw [h2, List.take_left']
    rfl
  · have h1 : h ++ (s ++ (r ++ (e ++ t))) = (h ++ (s ++ (r ++ e))) ++ t := by
      simp only [List.append_assoc]
    rw [h1, List.drop_left']
    simp only [List.length_append, hs, he]
    omega

/-! ### The pieces of `html_template` -/

theorem html_template_pieces : html_template = pieces_text template_pieces := by
  decide!

theorem html_template_length : html_template.length = 2799 := by
  decide!

theorem template_pieces_well_formed :
    well_formed template_pieces = true ∧ well_formed repeat_pieces = true := by
  decide!

theorem template_patterns_fit :
    template_patterns.all (fun p =>
      is_pattern p && (markers_of template_pieces).all (marker_fits p)) = true := by
  decide!

theorem template_markers :
    template_pieces.length = 53
    ∧ "@START@".toList ∉ markers_of header_pieces
    ∧ "@END@".toList ∉ markers_of (header_pieces ++ piece.marker "@START@".toList :: repeat_pieces)
    ∧ (∀ m ∈ markers_of repeat_pieces, m ∈ markers_of template_pieces) := by
  decide!

/-! ### The lookups of `GeneratePackageHtml` -/

theorem gather_entries_some : ∀ (l : List (List Char × Option (List Char)))
    (es : List (List Char × List Char)),
    gather_entries l = some es → l = es.map (fun e => (e.1, some e.2))
  | [], es, h => by
    simp only [gather_entries, Option.some.injEq] at h
    subst h
    rfl
  | (p, none) :: l, es, h => by
    simp only [gather_entries] at h
    cases h
  | (p, some r) :: l, es, h => by
    simp only [gather_entries] at h
    cases hg : gather_entries l with
    | none =>
      rw [hg] at h
      cases h
    | some es' =>
      rw [hg] at h
      simp only [Option.some.injEq] at h
      subst h
      rw [List.map_cons, ← gather_entries_some l es' hg]

theorem gather_entries_isSome : ∀ l : List (List Char × Option (List Char)),
    (gather_entries l).isSome = l.all (fun e => e.2.isSome)
  | [] => rfl
  | (p, none) :: l => rfl
  | (p, some r) :: l => by
    have ih := gather_entries_isSome l
    simp only [gather_entries, List.all_cons, Option.isSome_some, Bool.true_and]
    rw [← ih]
    cases gather_entries l <;> rfl

theorem get_field_of_defined {m : wpkgar_manager} {name : String}
    (h : m.field_is_defined name = true) : get_field m name = some (m.field name) := by
  unfold get_field
  rw [if_pos h]

theorem get_field_isSome (m : wpkgar_manager) (name : String) :
    (get_field m name).isSome = m.field_is_defined name := by
  unfold get_field
  cases m.field_is_defined name <;> rfl

theorem optional_field_eq (m : wpkgar_manager) (name otherwise : String) :
    optional_field m name otherwise
      = some (if m.field_is_defined name = true then str_to_html (m.field name)
          else otherwise.toList) := by
  unfold optional_field get_field
  cases m.field_is_defined name <;> rfl

theorem package_links_eq (m : wpkgar_manager) :
    package_links m = some
      (let links :=
        if m.field_is_defined "Homepage" = true then
          "<a href=\"".toList ++ m.field "Homepage" ++ "\">".toList
            ++ (if m.field_is_defined "Origin" = true then str_to_html (m.field "Origin")
                else "Homepage".toList) ++ "</a>".toList
        else []
      let links :=
        if m.field_is_defined "Bugs" = true then
          (if links = [] then [] else links ++ ", ".toList)
            ++ "<a href=\"".toList ++ m.field "Bugs" ++ "\">Bugs</a>".toList
        else links
      let links :=
        if m.field_is_defined "Vcs-Browser" = true then
          (if links = [] then [] else links ++ ", ".toList)
            ++ ", <a href=\"".toList ++ m.field "Vcs-Browser"
            ++ "\">Source Version Control System</a>".toList
        else links
      if links = [] then "no links available".toList else links) := by
  unfold package_links get_field
  cases m.field_is_defined "Homepage" <;> cases m.field_is_defined "Origin" <;>
    cases m.field_is_defined "Bugs" <;> cases m.field_is_defined "Vcs-Browser" <;>
    simp [List.isEmpty_iff, List.append_assoc]

theorem DependencyToLink_isSome (m : wpkgar_manager) (result : List Char) (field_name : String) :
    ∃ text, DependencyToLink m result field_name = some text := by
  unfold DependencyToLink get_dependencies
  cases m.field_is_defined field_name
  · exact ⟨_, rfl⟩
  · exact ⟨_, rfl⟩

theorem dependency_fields_isSome (m : wpkgar_manager) (otherwise : String) :
    ∀ names : List String, ∃ text, dependency_fields m names otherwise = some text := by
  have h : ∀ (names : List String) (result : List Char),
      ∃ text, names.foldlM (DependencyToLink m) result = some text := by
    intro names
    induction names with
    | nil => intro result; exact ⟨result, rfl⟩
    | cons name names ih =>
      intro result
      obtain ⟨text, htext⟩ := DependencyToLink_isSome m result name
      obtain ⟨text', htext'⟩ := ih text
      refine ⟨text', ?_⟩
      rw [List.foldlM_cons, htext]
      exact htext'
  intro names
  obtain ⟨text, htext⟩ := h names []
  unfold dependency_fields
  rw [htext]
  exact ⟨_, rfl⟩

theorem package_installed_size_isSome (m : wpkgar_manager) :
    ∃ texts, package_installed_size m = some texts := by
  unfold package_installed_size get_field get_field_integer
  cases m.field_is_defined "Installed-Size"
  · exact ⟨_, rfl⟩
  · exact ⟨_, rfl⟩

theorem package_packager_version_eq (m : wpkgar_manager) :
    package_packager_version m
      = some (if m.field_is_defined "Packager-Version" = true then m.field "Packager-Version"
          else "undefined".toList) := by
  unfold package_packager_version get_field
  cases m.field_is_defined "Packager-Version" <;> rfl

theorem package_files_isSome (m : wpkgar_manager) (files : Bool → List Char) :
    ∃ text, package_files m files = some text := by
  unfold package_files get_field_boolean
  cases m.field_is_defined "X-Drive-Letter"
  · exact ⟨_, rfl⟩
  · exact ⟨_, rfl⟩

theorem package_provides_isSome (m : wpkgar_manager) :
    (package_provides m).isSome = m.field_is_defined "Package" := by
  unfold package_provides get_field get_field_boolean
  cases m.field_is_defined "Package" <;> cases m.field_is_defined "Provides" <;>
    cases m.field_is_defined "Priority" <;> cases m.field_is_defined "Essential" <;>
    simp
  all_goals (split <;> (try split) <;> rfl)

theorem global_values_eq (m : wpkgar_manager) :
    global_values m
      = if (m.field_is_defined "Package" && m.field_is_defined "Description") = true then
          some (m.field "Package", str_to_html (m.description "Description").1,
            (m.description "Description").2)
        else none := by
  unfold global_values get_field get_description
  cases m.field_is_defined "Package" <;> cases m.field_is_defined "Description" <;> rfl

theorem package_entries_isSome (m : wpkgar_manager) (package_name long_description : List Char)
    (files : Bool → List Char) :
    (package_entries m package_name long_description files).isSome
      = (m.field_is_defined "Package" && m.field_is_defined "Version"
          && m.field_is_defined "Architecture" && m.field_is_defined "Maintainer") := by
  obtain ⟨l1, h1⟩ := dependency_fields_isSome m "no dependencies"
    ["Depends", "Pre-Depends", "Build-Depends", "Build-Depends-Arch", "Build-Depends-Indep",
      "Built-Using", ""]
  obtain ⟨l2, h2⟩ := dependency_fields_isSome m "no conflicts defined"
    ["Conflicts", "Breaks", "Build-Conflicts", "Build-Conflicts-Arch", "Build-Conflicts-Indep"]
  obtain ⟨l3, h3⟩ := dependency_fields_isSome m "no other dependencies defined"
    ["Replaces", "Recommends", "Suggests", "Enhances"]
  obtain ⟨l4, h4⟩ := package_installed_size_isSome m
  obtain ⟨l5, h5⟩ := package_files_isSome m files
  unfold package_entries package_lookups
  rw [gather_entries_isSome, h1, h2, h3, h4, h5, package_links_eq, package_packager_version_eq]
  simp only [List.all_cons, List.all_nil, optional_field_eq, Option.isSome_some,
    Option.isSome_map', Option.map_some', get_field_isSome, package_provides_isSome,
    Bool.true_and, Bool.and_true, Bool.and_assoc]

/-- C23. `GeneratePackageHtml` looks up without a check of `field_is_defined` the
five mandatory fields only: the lookups before the search of the markers
succeed if and only if Package and Description are defined, those of the block
if and only if Package, Version, Architecture and Maintainer are, and
`DependencyToLink` never fails; hence for a package that defines the five
mandatory fields no run ends with the lookup of a field that is not defined. -/
theorem lookups_guarded (m : wpkgar_manager) (package_name long_description : List Char)
    (files : Bool → List Char) :
    (global_values m).isSome
        = (m.field_is_defined "Package" && m.field_is_defined "Description")
    ∧ (package_entries m package_name long_description files).isSome
        = (m.field_is_defined "Package" && m.field_is_defined "Version"
            && m.field_is_defined "Architecture" && m.field_is_defined "Maintainer")
    ∧ (∀ result field_name, (DependencyToLink m result field_name).isSome = true)
    ∧ (["Package", "Version", "Architecture", "Maintainer", "Description"].all
          m.field_is_defined = true →
        ∀ fuel html_template now,
          GeneratePackageHtml fuel m html_template package_name now files
            ≠ html_result.undefined_field) := by
  refine ⟨?_, package_entries_isSome m package_name long_description files, ?_, ?_⟩
  · rw [global_values_eq]
    cases (m.field_is_defined "Package" && m.field_is_defined "Description") <;> rfl
  · intro result field_name
    obtain ⟨text, h⟩ := DependencyToLink_isSome m result field_name
    rw [h]
    rfl
  · intro hall fuel html_template now
    simp only [List.all_cons, List.all_nil, Bool.and_true, Bool.and_eq_true] at hall
    obtain ⟨h1, h2, h3, h4, h5⟩ := hall
    have hentries := package_entries_isSome m package_name (m.description "Description").2 files
    rw [h1, h2, h3, h4] at hentries
    obtain ⟨entries, he⟩ := Option.isSome_iff_exists.1 hentries
    unfold GeneratePackageHtml
    rw [global_values_eq, h1, h5]
    simp only [Bool.and_self, if_true, he]
    split
    · intro h
      cases h
    · split
      · split
        · intro h
          cases h
        · intro h
          cases h
      · intro h
        cases h

/-- Witness for C23: a package with the five mandatory fields only, and a
package without the field Version. -/
theorem lookups_guarded_witness :
    GeneratePackageHtml 8 (example_manager example_fields) "@TITLE@: @START@@VERSION@@END@".toList
        "t1".toList "now".toList (fun _ => [])
      ≠ html_result.undefined_field
    ∧ (package_entries (example_manager [("Package", "t1")]) "t1".toList [] (fun _ => [])).isSome
        = false :=
  ⟨(lookups_guarded (example_manager example_fields) "t1".toList [] (fun _ => [])).2.2.2
      (by decide) 8 "@TITLE@: @START@@VERSION@@END@".toList "now".toList,
   by decide⟩

/-- The fields that `GeneratePackageHtml` inserts unescaped (C22): for a package
whose field Homepage holds `"` and `<`, these characters are in the replacement
of `@LINKS@`, and so in the page, as they are in the field; the replacement of
`@TITLE@` is the field Package as it is, while the field Version goes through
`str_to_html`. -/
theorem field_values_unescaped :
    package_links (example_manager
        (example_fields ++ [("Homepage", "http://x/?q=\"a\"&b=<c>")]))
      = some "<a href=\"http://x/?q=\"a\"&b=<c>\">Homepage</a>".toList
    ∧ (package_entries (example_manager
        (example_fields ++ [("Homepage", "http://x/?q=\"a\"&b=<c>")]))
        "t1".toList [] (fun _ => [])).map
          (fun entries => entries.find? (fun e => e.1 == "@LINKS@".toList))
      = some (some ("@LINKS@".toList,
          "<a href=\"http://x/?q=\"a\"&b=<c>\">Homepage</a>".toList))
    ∧ (∀ (m : wpkgar_manager) (v : List Char × List Char × List Char),
        global_values m = some v → get_field m "Package" = some v.1)
    ∧ (∀ (m : wpkgar_manager) (package_name long_description : List Char)
        (files : Bool → List Char),
        (package_lookups m package_name long_description files).find?
            (fun e => e.1 == "@VERSION@".toList)
          = some ("@VERSION@".toList, (get_field m "Version").map str_to_html))
    ∧ GeneratePackageHtml 8
        (example_manager (example_fields ++ [("Homepage", "http://x/?q=\"a\"&b=<c>")]))
        "@TITLE@|@START@@VERSION@|@LINKS@@END@".toList "t1".toList
        "now".toList (fun _ => [])
      = html_result.page
          "t1|1.0|<a href=\"http://x/?q=\"a\"&b=<c>\">Homepage</a>".toList := by
  refine ⟨by decide, by decide, ?_, fun _ _ _ _ => rfl, by decide⟩
  intro m v h
  rw [global_values_eq] at h
  unfold get_field
  cases hp : m.field_is_defined "Package" <;> cases hd : m.field_is_defined "Description" <;>
    rw [hp, hd] at h
  all_goals cases h
  rfl

/-- The separators of the links (C26): with Homepage and Vcs-Browser defined the
two links are separated by `, , `, with Homepage, Bugs and Vcs-Browser the last
two are, and with Vcs-Browser alone the text starts with `, `. -/
theorem links_separator_doubled :
    package_links (example_manager [("Homepage", "http://h"), ("Vcs-Browser", "http://v")])
      = some ("<a href=\"http://h\">Homepage</a>, , "
          ++ "<a href=\"http://v\">Source Version Control System</a>").toList
    ∧ package_links (example_manager
        [("Homepage", "http://h"), ("Origin", "M2OSW"), ("Bugs", "http://b"),
          ("Vcs-Browser", "http://v")])
      = some ("<a href=\"http://h\">M2OSW</a>, <a href=\"http://b\">Bugs</a>, , "
          ++ "<a href=\"http://v\">Source Version Control System</a>").toList
    ∧ package_links (example_manager [("Vcs-Browser", "http://v")])
      = some ", <a href=\"http://v\">Source Version Control System</a>".toList
    ∧ package_links (example_manager [("Homepage", "http://h"), ("Bugs", "http://b")])
      = some "<a href=\"http://h\">Homepage</a>, <a href=\"http://b\">Bugs</a>".toList
    ∧ package_links (example_manager []) = some "no links available".toList := by
  decide

/-! ### The page of `GeneratePackageHtml` -/

theorem package_entries_patterns {m : wpkgar_manager} {package_name long_description : List Char}
    {files : Bool → List Char} {entries : List (List Char × List Char)}
    (h : package_entries m package_name long_description files = some entries) :
    entries.map Prod.fst = package_patterns := by
  unfold package_entries at h
  have h1 := congrArg (List.map Prod.fst) (gather_entries_some _ _ h)
  rw [List.map_map] at h1
  exact h1.symm

theorem template_pattern_ok {p : List Char} (hp : p ∈ template_patterns) :
    is_pattern p = true ∧ (markers_of template_pieces).all (marker_fits p) = true := by
  have h := template_patterns_fit
  rw [List.all_eq_true] at h
  have hp' := h p hp
  rw [Bool.and_eq_true] at hp'
  exact hp'

theorem package_patterns_subset : ∀ p ∈ package_patterns, p ∈ template_patterns := by
  decide

theorem global_patterns_subset (package now description : List Char) :
    ∀ e ∈ global_replacements package now description, e.1 ∈ template_patterns := by
  intro e he
  simp only [global_replacements, List.mem_cons, List.mem_singleton, List.not_mem_nil,
    or_false] at he
  rcases he with rfl | rfl | rfl
  · show "@TITLE@".toList ∈ template_patterns
    decide
  · show "@NOW@".toList ∈ template_patterns
    decide
  · show "@DESCRIPTION@".toList ∈ template_patterns
    decide

theorem global_keeps_markers (package now description : List Char) :
    entry_piece (global_replacements package now description) (piece.marker "@START@".toList)
      = piece.marker "@START@".toList
    ∧ entry_piece (global_replacements package now description) (piece.marker "@END@".toList)
      = piece.marker "@END@".toList :=
  ⟨rfl, rfl⟩

/-- The page that `GeneratePackageHtml` makes of the default template, for
replacements without `@`: the pieces of the template with every marker replaced
by its replacement. -/
theorem generate_html_pieces (fuel : Nat) (m : wpkgar_manager) (package_name now : List Char)
    (files : Bool → List Char) (package description long_description : List Char)
    (entries : List (List Char × List Char))
    (hfuel : 53 < fuel)
    (hg : global_values m = some (package, description, long_description))
    (he : package_entries m package_name long_description files = some entries)
    (hglobal : ∀ e ∈ global_replacements package now description,
      e.2.contains '@' = false ∧ e.2.length ≤ 2 ^ 32)
    (hentries : ∀ e ∈ entries, e.2.contains '@' = false) :
    GeneratePackageHtml fuel m html_template package_name now files
      = html_result.page
          (pieces_text (header_pieces.map
              (entry_piece (global_replacements package now description)))
            ++ pieces_text (repeat_pieces.map
              (entry_piece (global_replacements package now description ++ entries)))
            ++ pieces_text (footer_pieces.map
              (entry_piece (global_replacements package now description)))) := by
  obtain ⟨hlen53, hstart, hend, hsubR⟩ := template_markers
  obtain ⟨hwfT, hwfR⟩ := template_pieces_well_formed
  generalize hG : global_replacements package now description = G at hglobal ⊢
  have hGpat : ∀ e ∈ G, e.1 ∈ template_patterns := by
    rw [← hG]
    exact global_patterns_subset package now description
  have hGat : ∀ e ∈ G, e.2.contains '@' = false := fun e he => (hglobal e he).1
  -- the three calls on the whole template
  have hrep := replace_entries_pieces fuel G template_pieces hwfT
    (by rw [hlen53]; exact hfuel)
    (fun e he => ⟨(template_pattern_ok (hGpat e he)).1, hGat e he,
      (template_pattern_ok (hGpat e he)).2⟩)
  rw [substitute_entries_eq_map] at hrep
  obtain ⟨hrep, hwfG⟩ := hrep
  have hkeep : entry_piece G (piece.marker "@START@".toList) = piece.marker "@START@".toList
      ∧ entry_piece G (piece.marker "@END@".toList) = piece.marker "@END@".toList := by
    rw [← hG]
    exact global_keeps_markers package now description
  have hsplit : template_pieces.map (entry_piece G)
      = (header_pieces.map (entry_piece G)
          ++ piece.marker "@START@".toList :: repeat_pieces.map (entry_piece G))
        ++ piece.marker "@END@".toList :: footer_pieces.map (entry_piece G) := by
    unfold template_pieces
    rw [List.map_append, List.map_append, List.map_cons, List.map_cons, hkeep.1, hkeep.2]
  have hsplit' : template_pieces.map (entry_piece G)
      = header_pieces.map (entry_piece G)
          ++ piece.marker "@START@".toList :: (repeat_pieces.map (entry_piece G)
            ++ piece.marker "@END@".toList :: footer_pieces.map (entry_piece G)) := by
    rw [hsplit, List.append_assoc, List.cons_append]
  have hfitG : ∀ p ∈ template_patterns,
      (markers_of (template_pieces.map (entry_piece G))).all (marker_fits p) = true :=
    fun p hp => all_fits_of_subset (markers_of_entries G template_pieces)
      (template_pattern_ok hp).2
  have hfindS : find (pieces_text (template_pieces.map (entry_piece G))) "@START@".toList
      = some (pieces_text (header_pieces.map (entry_piece G))).length := by
    rw [find_pieces_text (template_pattern_ok (by decide)).1 _ hwfG (hfitG _ (by decide)),
      hsplit']
    exact find_piece_append_marker _ _
      (fun hm => hstart (markers_of_entries G header_pieces _ hm))
  have hfindE : find (pieces_text (template_pieces.map (entry_piece G))) "@END@".toList
      = some ((pieces_text (header_pieces.map (entry_piece G))).length
          + (7 + (pieces_text (repeat_pieces.map (entry_piece G))).length)) := by
    rw [find_pieces_text (template_pattern_ok (by decide)).1 _ hwfG (hfitG _ (by decide)),
      hsplit, find_piece_append_marker _ _ (fun hm => hend ?_)]
    · rw [pieces_text_append, pieces_text_marker, List.length_append, List.length_append]
      rfl
    · have h := markers_of_entries G
        (header_pieces ++ piece.marker "@START@".toList :: repeat_pieces) _
        (by rw [List.map_append, List.map_cons, hkeep.1]; exact hm)
      exact h
  have htext : pieces_text (template_pieces.map (entry_piece G))
      = pieces_text (header_pieces.map (entry_piece G))
        ++ ("@START@".toList ++ (pieces_text (repeat_pieces.map (entry_piece G))
          ++ ("@END@".toList ++ pieces_text (footer_pieces.map (entry_piece G))))) := by
    rw [hsplit', pieces_text_append, pieces_text_marker, pieces_text_append, pieces_text_marker]
  have hsize : (pieces_text (template_pieces.map (entry_piece G))).length < 2 ^ 64 := by
    have h1 := pieces_text_entries_le G template_pieces (2 ^ 32) (fun e he => (hglobal e he).2)
    have h2 : (pieces_text template_pieces).length = 2799 := by
      rw [← html_template_pieces]
      exact html_template_length
    have h3 : G.length = 3 := by
      rw [← hG]
      rfl
    rw [h2, h3, hlen53] at h1
    omega
  rw [htext] at hsize hfindS hfindE
  obtain ⟨hheader, hrepeat, hfooter⟩ :=
    substr_markers (pieces_text (header_pieces.map (entry_piece G))) "@START@".toList
      (pieces_text (repeat_pieces.map (entry_piece G))) "@END@".toList
      (pieces_text (footer_pieces.map (entry_piece G))) rfl rfl hsize
  -- the calls on the copy of `repeat`
  have hpat := package_entries_patterns he
  have hEpat : ∀ e ∈ entries, e.1 ∈ template_patterns := by
    intro e hmem
    apply package_patterns_subset
    rw [← hpat]
    exact List.mem_map_of_mem _ hmem
  have hrepR := replace_entries_pieces fuel entries (repeat_pieces.map (entry_piece G))
    (well_formed_entries G repeat_pieces hGat hwfR)
    (by
      rw [List.length_map]
      have : repeat_pieces.length ≤ 53 := by decide
      omega)
    (fun e hmem => ⟨(template_pattern_ok (hEpat e hmem)).1, hentries e hmem,
      all_fits_of_subset
        (fun q hq => hsubR q (markers_of_entries G repeat_pieces q hq))
        (template_pattern_ok (hEpat e hmem)).2⟩)
  rw [substitute_entries_eq_map, List.map_map] at hrepR
  have hcomp : (entry_piece entries ∘ entry_piece G) = entry_piece (G ++ entries) := by
    funext x
    exact (entry_piece_append G entries x).symm
  rw [hcomp] at hrepR
  unfold GeneratePackageHtml
  rw [hg]
  simp only
  rw [global_entries_eq, html_template_pieces]
  have hG' : [("@TITLE@".toList, package), ("@NOW@".toList, now),
      ("@DESCRIPTION@".toList, description)] = G := hG
  rw [hG', hrep, htext]
  simp only [hfindS, hfindE, hheader, hrepeat, hfooter, he, hrepR.1]

/-! ### The cell of the secondary section -/

theorem secondary_section_entry {m : wpkgar_manager} {package_name long_description : List Char}
    {files : Bool → List Char} {entries : List (List Char × List Char)}
    (h : package_entries m package_name long_description files = some entries) :
    entries.find? (fun e => e.1 == "@SECONDARY_SECTION".toList)
      = some ("@SECONDARY_SECTION".toList,
          if m.field_is_defined "X-SecondarySection" = true then
            str_to_html (m.field "X-SecondarySection")
          else "Undefined".toList) := by
  unfold package_entries at h
  have hl := congrArg (List.find? (fun e => e.1 == "@SECONDARY_SECTION".toList))
    (gather_entries_some _ _ h)
  rw [List.find?_map] at hl
  have hleft : List.find? (fun e => e.1 == "@SECONDARY_SECTION".toList)
      (package_lookups m package_name long_description files)
      = some ("@SECONDARY_SECTION".toList, optional_field m "X-SecondarySection" "Undefined") :=
    rfl
  rw [hleft, optional_field_eq] at hl
  have hfun : ((fun e : List Char × Option (List Char) => e.1 == "@SECONDARY_SECTION".toList)
      ∘ fun e : List Char × List Char => (e.1, some e.2))
      = fun e : List Char × List Char => e.1 == "@SECONDARY_SECTION".toList := rfl
  rw [hfun] at hl
  cases hfind : entries.find? (fun e => e.1 == "@SECONDARY_SECTION".toList) with
  | none =>
    rw [hfind] at hl
    cases hl
  | some e =>
    rw [hfind] at hl
    simp only [Option.map_some', Option.some.injEq, Prod.mk.injEq] at hl
    obtain ⟨h1, h2⟩ := hl
    rw [h1, h2]

theorem find_isSome_of_mem_map : ∀ (es : List (List Char × List Char)) (q : List Char),
    q ∈ es.map Prod.fst → ∃ e, es.find? (fun e => e.1 == q) = some e
  | [], _, h => absurd h (List.not_mem_nil _)
  | e :: es, q, h => by
    by_cases he : e.1 = q
    · exact ⟨e, by rw [List.find?_cons, he, beq_self_eq_true]⟩
    · have hq : q ∈ es.map Prod.fst := by
        rw [List.map_cons, List.mem_cons] at h
        rcases h with h | h
        · exact absurd h.symm he
        · exact h
      obtain ⟨e', he'⟩ := find_isSome_of_mem_map es q hq
      have hbeq : (e.1 == q) = false := by
        rw [beq_eq_false_iff_ne]
        exact he
      exact ⟨e', by rw [List.find?_cons, hbeq]; exact he'⟩

theorem markers_of_entries_nil (es : List (List Char × List Char)) : ∀ ps : List piece,
    (∀ q ∈ markers_of ps, q ∈ es.map Prod.fst) → markers_of (ps.map (entry_piece es)) = []
  | [], _ => rfl
  | piece.text s :: ps, h => by
    rw [List.map_cons, entry_piece_text]
    exact markers_of_entries_nil es ps h
  | piece.marker q :: ps, h => by
    obtain ⟨e, he⟩ := find_isSome_of_mem_map es q (h q (List.mem_cons_self _ _))
    rw [List.map_cons, entry_piece_marker, he]
    exact markers_of_entries_nil es ps (fun q' hq' => h q' (List.mem_cons_of_mem _ hq'))

theorem pieces_text_no_marker : ∀ ps : List piece,
    well_formed ps = true → markers_of ps = [] → '@' ∉ pieces_text ps
  | [], _, _ => List.not_mem_nil _
  | piece.text s :: ps, hwf, hm => by
    obtain ⟨hok, hrest⟩ := well_formed_cons hwf
    have hs : '@' ∉ s := by
      intro hmem
      have hc : s.contains '@' = true := List.elem_iff.2 hmem
      simp only [piece_ok, hc, Bool.not_true] at hok
      cases hok
    rw [pieces_text_text, List.mem_append]
    rintro (h | h)
    · exact hs h
    · exact pieces_text_no_marker ps hrest hm h
  | piece.marker q :: ps, _, hm => by
    cases hm

theorem repeat_pieces_cell :
    repeat_pieces
      = repeat_pieces.take 22
        ++ piece.text ("</td></tr><tr><td class=\"field-name\">Secondary Section:</td>"
            ++ "<td class=\"field-value\">").toList
          :: piece.marker "@SECONDARY_SECTION".toList
          :: piece.text ("</td></tr><tr><td class=\"field-name\">Description:</td>"
            ++ "<td class=\"field-value\">").toList
          :: repeat_pieces.drop 25 := by
  decide!

theorem template_markers_replaced :
    well_formed header_pieces = true ∧ well_formed footer_pieces = true
    ∧ (∀ q ∈ markers_of header_pieces, q ∈ ["@TITLE@".toList, "@NOW@".toList,
        "@DESCRIPTION@".toList])
    ∧ (∀ q ∈ markers_of footer_pieces, q ∈ ["@TITLE@".toList, "@NOW@".toList,
        "@DESCRIPTION@".toList])
    ∧ (∀ q ∈ markers_of repeat_pieces, q ∈ ["@TITLE@".toList, "@NOW@".toList,
        "@DESCRIPTION@".toList] ++ package_patterns) := by
  decide!

/-- C24. In the default template the marker of the secondary section is written
`@SECONDARY_SECTION`, followed by `</td>` and not by `@`, and the block of
`GeneratePackageHtml` replaces exactly this pattern. For a package with the
mandatory fields whose inserted values hold no `@` (and are no longer than
`2 ^ 32` characters for the three inserted in the whole template), the run
ends with a page in which the cell of the row `Secondary Section:` holds the
escaped field X-SecondarySection when it is defined and `Undefined` otherwise,
directly followed by `</td>`; no `@`, hence no part of a marker, is left in the
page. -/
theorem secondary_section_substituted (fuel : Nat) (m : wpkgar_manager)
    (package_name now : List Char) (files : Bool → List Char)
    (hfuel : 53 < fuel)
    (hmandatory : ["Package", "Version", "Architecture", "Maintainer", "Description"].all
      m.field_is_defined = true)
    (hglobal : [m.field "Package", now, str_to_html (m.description "Description").1].all
      (fun v => !v.contains '@' && decide (v.length ≤ 2 ^ 32)) = true)
    (hentries : (package_entries m package_name (m.description "Description").2 files).all
      (fun entries => entries.all fun e => !e.2.contains '@') = true) :
    "@SECONDARY_SECTION</td>".toList <:+: html_template
    ∧ ¬ "@SECONDARY_SECTION@".toList <:+: html_template
    ∧ (∃ entries, package_entries m package_name (m.description "Description").2 files
          = some entries
        ∧ entries.find? (fun e => e.1 == "@SECONDARY_SECTION".toList)
          = some ("@SECONDARY_SECTION".toList,
              if m.field_is_defined "X-SecondarySection" = true then
                str_to_html (m.field "X-SecondarySection")
              else "Undefined".toList))
    ∧ ∃ before after,
        GeneratePackageHtml fuel m html_template package_name now files
          = html_result.page
              (before
                ++ ("<td class=\"field-name\">Secondary Section:</td>"
                    ++ "<td class=\"field-value\">").toList
                ++ (if m.field_is_defined "X-SecondarySection" = true then
                      str_to_html (m.field "X-SecondarySection")
                    else "Undefined".toList)
                ++ "</td></tr><tr><td class=\"field-name\">Description:</td>".toList
                ++ after)
        ∧ '@' ∉ before
              ++ ("<td class=\"field-name\">Secondary Section:</td>"
                  ++ "<td class=\"field-value\">").toList
              ++ (if m.field_is_defined "X-SecondarySection" = true then
                    str_to_html (m.field "X-SecondarySection")
                  else "Undefined".toList)
              ++ "</td></tr><tr><td class=\"field-name\">Description:</td>".toList
              ++ after := by
  simp only [List.all_cons, List.all_nil, Bool.and_true, Bool.and_eq_true] at hmandatory
  obtain ⟨h1, h2, h3, h4, h5⟩ := hmandatory
  have hg : global_values m = some (m.field "Package",
      str_to_html (m.description "Description").1, (m.description "Description").2) := by
    rw [global_values_eq, h1, h5]
    rfl
  have hsome := package_entries_isSome m package_name (m.description "Description").2 files
  rw [h1, h2, h3, h4] at hsome
  obtain ⟨entries, he⟩ := Option.isSome_iff_exists.1 hsome
  rw [he] at hentries
  have hat : ∀ e ∈ entries, e.2.contains '@' = false := by
    intro e hmem
    have h := List.all_eq_true.1 hentries e hmem
    simpa using h
  have hG : ∀ e ∈ global_replacements (m.field "Package") now
      (str_to_html (m.description "Description").1),
      e.2.contains '@' = false ∧ e.2.length ≤ 2 ^ 32 := by
    intro e hmem
    simp only [global_replacements, List.mem_cons, List.mem_singleton, List.not_mem_nil,
      or_false] at hmem
    simp only [List.all_cons, List.all_nil, Bool.and_true, Bool.and_eq_true,
      Bool.not_eq_true', decide_eq_true_eq] at hglobal
    rcases hmem with rfl | rfl | rfl
    · exact hglobal.1
    · exact hglobal.2.1
    · exact hglobal.2.2
  have hpage := generate_html_pieces fuel m package_name now files _ _ _ entries hfuel hg he
    hG hat
  have hentry := secondary_section_entry he
  generalize hvalue : (if m.field_is_defined "X-SecondarySection" = true then
      str_to_html (m.field "X-SecondarySection") else "Undefined".toList) = value
    at hentry ⊢
  generalize hGdef : global_replacements (m.field "Package") now
      (str_to_html (m.description "Description").1) = G at hpage hG
  have hGfst : G.map Prod.fst = ["@TITLE@".toList, "@NOW@".toList, "@DESCRIPTION@".toList] := by
    rw [← hGdef]
    rfl
  have hGsec : entry_piece G (piece.marker "@SECONDARY_SECTION".toList)
      = piece.marker "@SECONDARY_SECTION".toList := by
    rw [← hGdef]
    rfl
  have hcell : entry_piece (G ++ entries) (piece.marker "@SECONDARY_SECTION".toList)
      = piece.text value := by
    rw [entry_piece_append, hGsec, entry_piece_marker, hentry]
  obtain ⟨hwfH, hwfF, hmH, hmF, hmR⟩ := template_markers_replaced
  have hatG : ∀ e ∈ G, e.2.contains '@' = false := fun e hmem => (hG e hmem).1
  have hatGE : ∀ e ∈ G ++ entries, e.2.contains '@' = false := by
    intro e hmem
    rcases List.mem_append.1 hmem with h | h
    · exact hatG e h
    · exact hat e h
  have hnoH : '@' ∉ pieces_text (header_pieces.map (entry_piece G)) :=
    pieces_text_no_marker _ (well_formed_entries G header_pieces hatG hwfH)
      (markers_of_entries_nil G header_pieces (by rw [hGfst]; exact hmH))
  have hnoF : '@' ∉ pieces_text (footer_pieces.map (entry_piece G)) :=
    pieces_text_no_marker _ (well_formed_entries G footer_pieces hatG hwfF)
      (markers_of_entries_nil G footer_pieces (by rw [hGfst]; exact hmF))
  have hnoR : '@' ∉ pieces_text (repeat_pieces.map (entry_piece (G ++ entries))) :=
    pieces_text_no_marker _
      (well_formed_entries (G ++ entries) repeat_pieces hatGE template_pieces_well_formed.2)
      (markers_of_entries_nil (G ++ entries) repeat_pieces
        (by rw [List.map_append, hGfst, package_entries_patterns he]; exact hmR))
  have hrepeat : pieces_text (repeat_pieces.map (entry_piece (G ++ entries)))
      = pieces_text ((repeat_pieces.take 22).map (entry_piece (G ++ entries)))
        ++ (("</td></tr><tr><td class=\"field-name\">Secondary Section:</td>"
              ++ "<td class=\"field-value\">").toList
          ++ (value
            ++ (("</td></tr><tr><td class=\"field-name\">Description:</td>"
                ++ "<td class=\"field-value\">").toList
              ++ pieces_text ((repeat_pieces.drop 25).map (entry_piece (G ++ entries)))))) := by
    conv => lhs; rw [repeat_pieces_cell]
    rw [List.map_append, List.map_cons, List.map_cons, List.map_cons, entry_piece_text,
      entry_piece_text, hcell, pieces_text_append, pieces_text_text, pieces_text_text,
      pieces_text_text]
  refine ⟨?_, ?_, ⟨entries, he, hentry⟩, ?_⟩
  · have h : (find html_template "@SECONDARY_SECTION</td>".toList).isSome = true := by
      decide!
    exact (find_isSome_iff _ _).1 h
  · have h : find html_template "@SECONDARY_SECTION@".toList = none := by
      decide!
    exact (find_eq_none_iff _ _).1 h
  · refine ⟨pieces_text (header_pieces.map (entry_piece G))
        ++ pieces_text ((repeat_pieces.take 22).map (entry_piece (G ++ entries)))
        ++ "</td></tr><tr>".toList,
      "<td class=\"field-value\">".toList
        ++ pieces_text ((repeat_pieces.drop 25).map (entry_piece (G ++ entries)))
        ++ pieces_text (footer_pieces.map (entry_piece G)), ?_⟩
    have hsame : pieces_text (header_pieces.map (entry_piece G))
          ++ pieces_text (repeat_pieces.map (entry_piece (G ++ entries)))
          ++ pieces_text (footer_pieces.map (entry_piece G))
        = pieces_text (header_pieces.map (entry_piece G))
          ++ pieces_text ((repeat_pieces.take 22).map (entry_piece (G ++ entries)))
          ++ "</td></tr><tr>".toList
          ++ ("<td class=\"field-name\">Secondary Section:</td>"
              ++ "<td class=\"field-value\">").toList
          ++ value
          ++ "</td></tr><tr><td class=\"field-name\">Description:</td>".toList
          ++ ("<td class=\"field-value\">".toList
            ++ pieces_text ((repeat_pieces.drop 25).map (entry_piece (G ++ entries)))
            ++ pieces_text (footer_pieces.map (entry_piece G))) := by
      rw [hrepeat]
      have e1 : ("</td></tr><tr><td class=\"field-name\">Secondary Section:</td>"
            ++ "<td class=\"field-value\">").toList
          = "</td></tr><tr>".toList
            ++ ("<td class=\"field-name\">Secondary Section:</td>"
              ++ "<td class=\"field-value\">").toList := by
        decide
      have e2 : ("</td></tr><tr><td class=\"field-name\">Description:</td>"
            ++ "<td class=\"field-value\">").toList
          = "</td></tr><tr><td class=\"field-name\">Description:</td>".toList
            ++ "<td class=\"field-value\">".toList := by
        decide
      rw [e1, e2]
      simp only [List.append_assoc]
    rw [← hsame]
    refine ⟨hpage, ?_⟩
    intro hmem
    rcases List.mem_append.1 hmem with h | h
    · rcases List.mem_append.1 h with h | h
      · exact hnoH h
      · exact hnoR h
    · exact hnoF h

/-- Witness for C24: the package `t1` with its mandatory fields and the field
X-SecondarySection. -/
theorem secondary_section_substituted_witness :
    ∃ before after,
      GeneratePackageHtml 54
          (example_manager (example_fields ++ [("X-SecondarySection", "R&D")]))
          html_template "t1".toList "Sat Oct 31 12:00:00 2026".toList (fun _ => [])
        = html_result.page
            (before
              ++ ("<td class=\"field-name\">Secondary Section:</td>"
                  ++ "<td class=\"field-value\">R&amp;D</td></tr><tr>"
                  ++ "<td class=\"field-name\">Description:</td>").toList
              ++ after) := by
  obtain ⟨before, after, h, _⟩ :=
    (secondary_section_substituted 54
      (example_manager (example_fields ++ [("X-SecondarySection", "R&D")]))
      "t1".toList "Sat Oct 31 12:00:00 2026".toList (fun _ => [])
      (by decide) (by decide) (by decide) (by decide)).2.2.2
  refine ⟨before, after, ?_⟩
  rw [h]
  have e : (if (example_manager (example_fields ++ [("X-SecondarySection", "R&D")])
        ).field_is_defined "X-SecondarySection" = true then
        str_to_html ((example_manager (example_fields ++ [("X-SecondarySection", "R&D")])
          ).field "X-SecondarySection")
      else "Undefined".toList) = "R&amp;D".toList := by
    decide
  rw [e]
  have e' : ("<td class=\"field-name\">Secondary Section:</td>"
        ++ "<td class=\"field-value\">R&amp;D</td></tr><tr>"
        ++ "<td class=\"field-name\">Description:</td>").toList
      = ("<td class=\"field-name\">Secondary Section:</td>"
          ++ "<td class=\"field-value\">").toList ++ "R&amp;D".toList
        ++ "</td></tr><tr><td class=\"field-name\">Description:</td>".toList := by
    decide
  rw [e']
  simp only [List.append_assoc]

end Wpkg
